import Mathlib

/-! # Single-mold translational casting of a polygon

A shallow embedding of `find_single_mold_translational_casting_2.h`
(package `Casting_2`): the arrangement `Circle_arrangment` of the circle of
directions into cells of depth 0, 1, 2+, the insertion of an open half-circle
(`add_segment_outer_circle`), the extraction of the depth-1 cells
(`get_all_1_edges`) and the driver.

The source is a template over a geometric kernel; the kernel is a parameter of
every definition below.  The `std::list` of cells is a `List`; an iterator is a
position in it.  `char count` only ever holds 0, 1 or 2 and `size_t edge_index`
only ever holds an index of a polygon edge, so both are `Nat`.

The `while` loop of `add_segment_outer_circle` is embedded twice: as a recursion
over the cells of the list (`add_loop`), and as a loop over states that hold the
list and the iterators as positions (`while_loop`); the two are proved to agree.

The last part embeds the functors of `Float_traits<leda_bigfloat>` from
`Float_traits.h` (package `Algebraic_kernel_d`).
-/

namespace Casting_2

/-- Modelled from the spec: the geometry kernel, which the source takes as its
template parameter `Kernel`.  It gives the exact direction type with its
equality, the direction of a segment (`Direction_2(seg)`), the opposite
direction (`operator-`) and the member predicate
`d.counterclockwise_in_between(d1, d2)`, here with `d` as first argument. -/
structure Kernel where
  /-- The type `Kernel::Direction_2`. -/
  Direction_2 : Type
  /-- The type `Kernel::Segment_2`. -/
  Segment_2 : Type
  /-- The exact equality `operator==` of directions. -/
  direction_eq : DecidableEq Direction_2
  /-- The direction of a segment, `Direction_2(seg)`. -/
  to_direction : Segment_2 → Direction_2
  /-- The opposite direction, `operator-`. -/
  opposite : Direction_2 → Direction_2
  /-- The call `d.counterclockwise_in_between(d1, d2)`. -/
  counterclockwise_in_between : Direction_2 → Direction_2 → Direction_2 → Bool

instance (K : Kernel) : DecidableEq K.Direction_2 := K.direction_eq

/-- The enumeration `CGAL::Orientation`. -/
inductive Orientation where
  | CLOCKWISE
  | COLLINEAR
  | COUNTERCLOCKWISE
  deriving DecidableEq, Repr

/-- The type `Arc` of the source: `std::pair<Point, Point>`, the clockwise arc
from the first point to the second. -/
abbrev Arc (K : Kernel) : Type := K.Direction_2 × K.Direction_2

/-- The static function `is_open_direction_contained_in_arc`. -/
def is_open_direction_contained_in_arc (K : Kernel) (p : K.Direction_2)
    (is_counterclockwise : Bool) (a : Arc K) : Bool :=
  if (is_counterclockwise && decide (p = a.2)) ||
      (!is_counterclockwise && decide (p = a.1)) then false
  else !K.counterclockwise_in_between p a.1 a.2

/-- The static function `is_a_contained_in_b`. -/
def is_a_contained_in_b (K : Kernel) (is_a_start_closed is_a_end_closed : Bool)
    (A B : Arc K) : Bool :=
  if (is_a_start_closed && decide (A.1 = B.1)) ||
      (is_a_end_closed && decide (A.2 = B.2)) then false
  else if (decide (A.1 = B.2) || decide (B.1 = A.2)) && decide (A.1 ≠ A.2) then false
  else
    !K.counterclockwise_in_between A.1 B.1 B.2 &&
      !K.counterclockwise_in_between A.2 B.1 B.2 &&
      !K.counterclockwise_in_between A.1 B.1 A.2

/-- The class `Circle_arrangment_edge`: a cell of the arrangement, given by its
first point; its last point is the first point of the next cell. -/
structure Circle_arrangment_edge (K : Kernel) where
  start_is_closed : Bool
  edge_start_angle : K.Direction_2
  count : Nat
  edge_index : Nat

instance (K : Kernel) : DecidableEq (Circle_arrangment_edge K) := fun a b =>
  match a, b with
  | ⟨c1, s1, n1, i1⟩, ⟨c2, s2, n2, i2⟩ =>
    if h : c1 = c2 ∧ s1 = s2 ∧ n1 = n2 ∧ i1 = i2 then
      isTrue (by rcases h with ⟨rfl, rfl, rfl, rfl⟩; rfl)
    else
      isFalse (by intro e; injection e with e1 e2 e3 e4; exact h ⟨e1, e2, e3, e4⟩)

namespace Circle_arrangment_edge

/-- The constructor `Circle_arrangment_edge(edge_start_angle, edge_index,
start_is_closed, set_count_to_one)`; the source gives `set_count_to_one` the
default value `true`, which the callers below pass themselves. -/
def mk_edge (K : Kernel) (edge_start_angle : K.Direction_2) (edge_index : Nat)
    (start_is_closed : Bool) (set_count_to_one : Bool) :
    Circle_arrangment_edge K :=
  { start_is_closed := start_is_closed
    edge_start_angle := edge_start_angle
    count := if set_count_to_one then 1 else 0
    edge_index := edge_index }

/-- The member function `plusplus(edge_index)`. -/
def plusplus {K : Kernel} (c : Circle_arrangment_edge K) (edge_index : Nat) :
    Circle_arrangment_edge K :=
  if c.count = 0 then { c with edge_index := edge_index, count := 1 }
  else if c.count = 1 then { c with count := 2 }
  else c

/-- The member function `is_covered()`. -/
def is_covered {K : Kernel} (c : Circle_arrangment_edge K) : Bool :=
  decide (c.count = 2)

end Circle_arrangment_edge

/-- The type `Circle_edges`: the list of cells. -/
abbrev Circle_edges (K : Kernel) : Type := List (Circle_arrangment_edge K)

/-- The member function `insert_if_legal(cur_it, next_it, edge)`: the list of
cells it inserts before `next_it` (one cell or none).  It reads only the start
point and the closedness of the two neighbours. -/
def insert_if_legal {K : Kernel} (cur next edge : Circle_arrangment_edge K) :
    Circle_edges K :=
  if (edge.start_is_closed && !next.start_is_closed) ||
      decide (edge.edge_start_angle ≠ next.edge_start_angle) then
    if (cur.start_is_closed && !edge.start_is_closed) ||
        decide (edge.edge_start_angle ≠ cur.edge_start_angle) then
      [edge]
    else []
  else []

/-- The loop of `merge_adjacent_2_edges_and_remove_empty`, with the flag
`in_two_edge` as an argument. -/
def merge_loop {K : Kernel} : Bool → Circle_edges K → Circle_edges K
  | _, [] => []
  | in_two_edge, c :: rest =>
    if c.is_covered then
      if in_two_edge then merge_loop in_two_edge rest
      else c :: merge_loop true rest
    else c :: merge_loop false rest

/-- The member function `merge_adjacent_2_edges_and_remove_empty`. -/
def merge_adjacent_2_edges_and_remove_empty {K : Kernel} (edges : Circle_edges K) :
    Circle_edges K :=
  merge_loop false edges

/-- One pass of the body of the `while` loop of `add_segment_outer_circle` after
the iterators and the four locals are updated: `it` is the examined cell,
`next` the cell at `next_it`, `edge` the arc of the examined cell.  The result
is the examined cell as the pass leaves it and the cells the pass inserts
before `next_it`, in list order. -/
def loop_body {K : Kernel} (segment_outer_circle : Arc K) (edge_index : Nat)
    (is_start_closed_segment is_end_closed_segment : Bool) (edge : Arc K)
    (it next : Circle_arrangment_edge K) :
    Circle_arrangment_edge K × Circle_edges K :=
  if it.count = 2 then (it, [])
  else if is_a_contained_in_b K is_start_closed_segment is_end_closed_segment edge
      segment_outer_circle then (it.plusplus edge_index, [])
  else
    let is_start_contained :=
      is_open_direction_contained_in_arc K segment_outer_circle.1 true edge
    let is_end_contained :=
      is_open_direction_contained_in_arc K segment_outer_circle.2 false edge
    if is_start_contained then
      if is_end_contained then
        let isordered :=
          !K.counterclockwise_in_between segment_outer_circle.2 segment_outer_circle.1
            edge.2
        if isordered then
          let edge2 : Circle_arrangment_edge K :=
            ({ it with start_is_closed := false,
                       edge_start_angle := segment_outer_circle.1 } :
              Circle_arrangment_edge K).plusplus edge_index
          let edge3 : Circle_arrangment_edge K :=
            { it with start_is_closed := true,
                      edge_start_angle := segment_outer_circle.2 }
          (it, insert_if_legal it next edge2 ++ insert_if_legal it next edge3)
        else
          let edge2 : Circle_arrangment_edge K :=
            { it with start_is_closed := true,
                      edge_start_angle := segment_outer_circle.2 }
          let edge3 : Circle_arrangment_edge K :=
            ({ it with start_is_closed := false,
                       edge_start_angle := segment_outer_circle.1 } :
              Circle_arrangment_edge K).plusplus edge_index
          (it.plusplus edge_index,
            insert_if_legal it next edge2 ++ insert_if_legal it next edge3)
      else
        let edge2 : Circle_arrangment_edge K :=
          ({ it with start_is_closed := false,
                     edge_start_angle := segment_outer_circle.1 } :
            Circle_arrangment_edge K).plusplus edge_index
        (it, insert_if_legal it next edge2)
    else
      if is_end_contained then
        let edge2 : Circle_arrangment_edge K :=
          { it with start_is_closed := true,
                    edge_start_angle := segment_outer_circle.2 }
        (it.plusplus edge_index, insert_if_legal it next edge2)
      else (it, [])

/-- The `while` loop of `add_segment_outer_circle` from the pass that examines
the head of the third list on.  `first` is the cell at `edges.begin()` when the
call starts; `is_end_closed_segment` and `edge_second` are the locals of these
names as the previous pass left them.  The result is the pair of the cells
inserted before `edges.begin()` (by the last pass, whose `next_it` is
`edges.begin()`) and the examined cells with the cells inserted after them. -/
def add_loop {K : Kernel} (segment_outer_circle : Arc K) (edge_index : Nat)
    (first : Circle_arrangment_edge K) :
    Bool → K.Direction_2 → Circle_edges K → Circle_edges K × Circle_edges K
  | _, _, [] => ([], [])
  | is_end_closed_segment, edge_second, [it] =>
    let r := loop_body segment_outer_circle edge_index (!is_end_closed_segment)
      (!first.start_is_closed) (edge_second, first.edge_start_angle) it first
    (r.2, [r.1])
  | is_end_closed_segment, edge_second, it :: next :: rest =>
    let r := loop_body segment_outer_circle edge_index (!is_end_closed_segment)
      (!next.start_is_closed) (edge_second, next.edge_start_angle) it next
    let t := add_loop segment_outer_circle edge_index first (!next.start_is_closed)
      next.edge_start_angle (next :: rest)
    (t.1, r.1 :: (r.2 ++ t.2))

/-- The class `Circle_arrangment`: its only data member is the list `edges`. -/
structure Circle_arrangment (K : Kernel) where
  edges : Circle_edges K

instance (K : Kernel) : DecidableEq (Circle_arrangment K) := fun a b =>
  match a, b with
  | ⟨e1⟩, ⟨e2⟩ =>
    if h : e1 = e2 then isTrue (by rw [h]) else
      isFalse (by intro e; injection e with e'; exact h e')

namespace Circle_arrangment

/-- The constructor `Circle_arrangment(first_segment_outer_circle)`. -/
def ctor (K : Kernel) (first_segment_outer_circle : Arc K) : Circle_arrangment K :=
  { edges :=
      [Circle_arrangment_edge.mk_edge K first_segment_outer_circle.1 0 false true,
       Circle_arrangment_edge.mk_edge K first_segment_outer_circle.2 0 true false] }

/-- The state of the list when the `while` loop of `add_segment_outer_circle`
ends, before the merge.  On an empty list the source dereferences
`edges.begin()`, which no arrangement built by the constructor reaches; the
embedding leaves the empty list as it is. -/
def add_segment_outer_circle_loop {K : Kernel} (edges : Circle_edges K)
    (segment_outer_circle : Arc K) (edge_index : Nat) : Circle_edges K :=
  match edges with
  | [] => []
  | first :: rest =>
    let t := add_loop segment_outer_circle edge_index first first.start_is_closed
      first.edge_start_angle (first :: rest)
    t.1 ++ t.2

/-- The member function `add_segment_outer_circle(segment_outer_circle,
edge_index)`. -/
def add_segment_outer_circle {K : Kernel} (a : Circle_arrangment K)
    (segment_outer_circle : Arc K) (edge_index : Nat) : Circle_arrangment K :=
  { edges := merge_adjacent_2_edges_and_remove_empty
      (add_segment_outer_circle_loop a.edges segment_outer_circle edge_index) }

/-- The loop of `get_all_1_edges` from the position at the head of the second
list on; `begin` is the start point of the cell at `edges.begin()`. -/
def get_all_1_edges_loop {K : Kernel} (begin : K.Direction_2) :
    Circle_edges K → List (Nat × Arc K)
  | [] => []
  | [c] => if c.count = 1 then [(c.edge_index, (c.edge_start_angle, begin))] else []
  | c :: n :: rest =>
    if c.count = 1 then
      (c.edge_index, (c.edge_start_angle, n.edge_start_angle)) ::
        get_all_1_edges_loop begin (n :: rest)
    else get_all_1_edges_loop begin (n :: rest)

/-- The member function `get_all_1_edges(oi)`: the sequence written to `oi`. -/
def get_all_1_edges {K : Kernel} (a : Circle_arrangment K) : List (Nat × Arc K) :=
  match a.edges with
  | [] => []
  | first :: rest => get_all_1_edges_loop first.edge_start_angle (first :: rest)

/-- The member function `all_is_covered_twice()`. -/
def all_is_covered_twice {K : Kernel} (a : Circle_arrangment K) : Bool :=
  decide (a.edges.length = 1)

end Circle_arrangment

/-- The function `get_segment_outer_circle(seg, orientation)`. -/
def get_segment_outer_circle (K : Kernel) (seg : K.Segment_2)
    (orientation : Orientation) : Arc K :=
  let forward := K.to_direction seg
  let backward := K.opposite forward
  if orientation = Orientation.CLOCKWISE then (backward, forward)
  else (forward, backward)

/-- Modelled from the spec: what the driver reads of a `CGAL::Polygon_2`, the
sequence of its edges (`edges_begin()` to `edges_end()`) and its orientation
(`orientation()`). -/
structure Polygon_2 (K : Kernel) where
  edges : List K.Segment_2
  orientation : Orientation

/-- The `for` loop of `find_single_mold_translational_casting_2` from the edge at
the head of the list on, with the current `edge_index`: the sequence written to
`oi`. -/
def casting_loop {K : Kernel} (poly_orientation : Orientation) :
    Circle_arrangment K → Nat → List K.Segment_2 → List (Nat × Arc K)
  | circle_arrangment, _, [] => circle_arrangment.get_all_1_edges
  | circle_arrangment, edge_index, e :: rest =>
    let segment_outer_circle := get_segment_outer_circle K e poly_orientation
    let a := circle_arrangment.add_segment_outer_circle segment_outer_circle edge_index
    if a.all_is_covered_twice then []
    else casting_loop poly_orientation a (edge_index + 1) rest

/-- The function `find_single_mold_translational_casting_2(pgn, oi)`: the
sequence written to `oi`.  A polygon without edges makes the source dereference
`edges_begin()` at the end of the range; the embedding returns `none` there. -/
def find_single_mold_translational_casting_2 {K : Kernel} (pgn : Polygon_2 K) :
    Option (List (Nat × Arc K)) :=
  match pgn.edges with
  | [] => none
  | e0 :: rest =>
    let poly_orientation := pgn.orientation
    let segment_outer_circle := get_segment_outer_circle K e0 poly_orientation
    some (casting_loop poly_orientation (Circle_arrangment.ctor K segment_outer_circle) 1 rest)

/-! ## Directions in arcs and cells, and the calls that build an arrangement -/

/-- The direction `d` lies strictly inside the clockwise arc from `a.1` to
`a.2`: going counterclockwise from `a.2`, `d` is reached strictly before
`a.1`. -/
def in_open_arc (K : Kernel) (a : Arc K) (d : K.Direction_2) : Bool :=
  K.counterclockwise_in_between d a.2 a.1

/-- The number of the arcs of a list that have `d` strictly inside. -/
def covering_number (K : Kernel) (arcs : List (Arc K)) (d : K.Direction_2) : Nat :=
  (arcs.filter fun a => in_open_arc K a d).length

/-- The direction `d` belongs to the cell that starts at `s` and ends at `e`,
where the flags say whether the start and the end belong to the cell.  A cell
with `s = e` and both ends closed is the single direction `s` (the class
documentation: a cell is a point or an arc); every other cell is the clockwise
sweep from `s` to `e`, which is the whole circle but possibly `s` when
`s = e`. -/
def cell_contains (K : Kernel) (start_is_closed end_is_closed : Bool)
    (s e d : K.Direction_2) : Bool :=
  if s = e ∧ start_is_closed = true ∧ end_is_closed = true then decide (d = s)
  else (start_is_closed && decide (d = s)) || (end_is_closed && decide (d = e)) ||
    in_open_arc K (s, e) d

/-- The list of the cyclically next cells: the tail followed by the head. -/
def cyclic_next {K : Kernel} : Circle_edges K → Circle_edges K
  | [] => []
  | first :: rest => rest ++ [first]

/-- The pairs (cell, cyclically next cell) of a list of cells, in list order. -/
def cyclic_pairs {K : Kernel} (edges : Circle_edges K) :
    List (Circle_arrangment_edge K × Circle_arrangment_edge K) :=
  edges.zip (cyclic_next edges)

/-- The direction `d` belongs to the cell `p.1` whose cyclically next cell is
`p.2`: the cell starts at its own start point, closed iff `start_is_closed`, and
ends at the start point of the next cell, closed iff that start is open. -/
def pair_contains (K : Kernel)
    (p : Circle_arrangment_edge K × Circle_arrangment_edge K) (d : K.Direction_2) : Bool :=
  cell_contains K p.1.start_is_closed (!p.2.start_is_closed) p.1.edge_start_angle
    p.2.edge_start_angle d

/-- The cells of an arrangement that contain the direction `d`, in list order. -/
def cells_containing {K : Kernel} (a : Circle_arrangment K) (d : K.Direction_2) :
    Circle_edges K :=
  ((cyclic_pairs a.edges).filter fun p => pair_contains K p d).map Prod.fst

/-- A sequence of calls of `add_segment_outer_circle`, each with its arc and its
edge index, in order. -/
def add_all {K : Kernel} (a : Circle_arrangment K) (calls : List (Arc K × Nat)) :
    Circle_arrangment K :=
  calls.foldl (fun b c => b.add_segment_outer_circle c.1 c.2) a

/-- The calls `add_segment_outer_circle(a_i, i)` for the arcs `a_1, a_2, ...` of a
list, numbered from `first_index` on. -/
def numbered {K : Kernel} : Nat → List (Arc K) → List (Arc K × Nat)
  | _, [] => []
  | first_index, a :: rest => (a, first_index) :: numbered (first_index + 1) rest

/-- The arrangement after `Circle_arrangment(a_0)` and
`add_segment_outer_circle(a_i, i)` for `i = 1..k`. -/
def arrangement_of_arcs (K : Kernel) (a_0 : Arc K) (rest : List (Arc K)) :
    Circle_arrangment K :=
  add_all (Circle_arrangment.ctor K a_0) (numbered 1 rest)

/-- The arc is a half-circle: its end is the opposite of its start. -/
def is_half_circle (K : Kernel) (a : Arc K) : Prop := a.2 = K.opposite a.1

instance (K : Kernel) (a : Arc K) : Decidable (is_half_circle K a) := by
  unfold is_half_circle; infer_instance

/-- The outer half-circles of the edges of a polygon, in edge order. -/
def outer_circles {K : Kernel} (pgn : Polygon_2 K) : List (Arc K) :=
  pgn.edges.map fun e => get_segment_outer_circle K e pgn.orientation

/-- Written from the words of the specification of the driver: the loop without
the early exit, which inserts every remaining edge. -/
def casting_loop_without_early_exit {K : Kernel} (poly_orientation : Orientation) :
    Circle_arrangment K → Nat → List K.Segment_2 → List (Nat × Arc K)
  | circle_arrangment, _, [] => circle_arrangment.get_all_1_edges
  | circle_arrangment, edge_index, e :: rest =>
    let segment_outer_circle := get_segment_outer_circle K e poly_orientation
    casting_loop_without_early_exit poly_orientation
      (circle_arrangment.add_segment_outer_circle segment_outer_circle edge_index)
      (edge_index + 1) rest

/-- Written from the words of the specification: the driver that omits the early
exit, inserts every edge and then calls `get_all_1_edges`. -/
def casting_without_early_exit {K : Kernel} (pgn : Polygon_2 K) :
    Option (List (Nat × Arc K)) :=
  match pgn.edges with
  | [] => none
  | e0 :: rest =>
    some (casting_loop_without_early_exit pgn.orientation
      (Circle_arrangment.ctor K (get_segment_outer_circle K e0 pgn.orientation)) 1 rest)

/-- The facts about the list of cells that hold after the constructor and after
every `add_segment_outer_circle`: the list is not empty, a list of one cell holds
a cell of count 2, and no two consecutive cells of the list both have count 2. -/
def list_invariant {K : Kernel} (a : Circle_arrangment K) : Prop :=
  a.edges ≠ [] ∧ (∀ c, a.edges = [c] → c.count = 2) ∧
    List.Chain' (fun x y : Circle_arrangment_edge K => ¬ (x.count = 2 ∧ y.count = 2)) a.edges

/-! ## A kernel with integer coordinates -/

/-- A point with integer coordinates. -/
structure Int_point where
  x : Int
  y : Int
  deriving DecidableEq, Repr

/-- A segment between two points with integer coordinates. -/
structure Int_segment where
  source : Int_point
  target : Int_point
  deriving DecidableEq, Repr

/-- A direction with integer coordinates; two directions are equal when they are
the same pair, so a direction is kept in lowest terms. -/
structure Int_direction where
  dx : Int
  dy : Int
  lowest_terms : Int.gcd dx dy = 1
  deriving DecidableEq

namespace Int_direction

/-- The direction of the vector `(x, y)`, in lowest terms.  The vector `(0, 0)`
has no direction (a segment of length zero violates the precondition of the
source); the embedding gives it the direction `(1, 0)`. -/
def of_vector (x y : Int) : Int_direction :=
  if h : Int.gcd x y = 0 then { dx := 1, dy := 0, lowest_terms := by decide }
  else
    { dx := x / (Int.gcd x y : Int), dy := y / (Int.gcd x y : Int)
      lowest_terms := Int.gcd_div_gcd_div_gcd (Nat.pos_of_ne_zero h) }

/-- The opposite direction. -/
def opposite (d : Int_direction) : Int_direction :=
  { dx := -d.dx, dy := -d.dy
    lowest_terms := by rw [Int.neg_gcd, Int.gcd_neg]; exact d.lowest_terms }

/-- The quadrant of a direction, numbered 1 to 4 counterclockwise from the
positive `x` axis. -/
def quadrant (d : Int_direction) : Nat :=
  if 0 ≤ d.dx then (if 0 ≤ d.dy then 1 else 4) else (if 0 ≤ d.dy then 2 else 3)

/-- The angle of `d1` with the positive `x` axis is smaller than that of `d2`:
the quadrants are compared first, then the sign of the determinant. -/
def angle_lt (d1 d2 : Int_direction) : Bool :=
  if d2.quadrant < d1.quadrant then false
  else if d1.quadrant < d2.quadrant then true
  else decide (0 < d1.dx * d2.dy - d2.dx * d1.dy)

/-- The direction `p` is reached strictly before `r` when rotating
counterclockwise from `q`, and `p` is not `q`. -/
def counterclockwise_in_between (p q r : Int_direction) : Bool :=
  if angle_lt q p then (angle_lt p r || !angle_lt q r)
  else (angle_lt p r && !angle_lt q r)

/-- The numerator of the position of a direction inside its quadrant. -/
def quadrant_num (d : Int_direction) : Int :=
  if 0 ≤ d.dx then (if 0 ≤ d.dy then d.dy else d.dx) else (if 0 ≤ d.dy then -d.dx else -d.dy)

/-- The denominator of the position of a direction inside its quadrant. -/
def quadrant_den (d : Int_direction) : Int :=
  if 0 ≤ d.dx then (if 0 ≤ d.dy then d.dx + d.dy else d.dx - d.dy)
  else (if 0 ≤ d.dy then d.dy - d.dx else -d.dx - d.dy)

/-- The angle of a direction in turns, measured along the boundary of the square
with corners `(1, 0)`, `(0, 1)`, `(-1, 0)`, `(0, -1)` instead of the circle: it
grows with the angle, from 0 at `(1, 0)` to 1, and a quarter turn is 1/4. -/
def square_angle (d : Int_direction) : ℚ :=
  (((d.quadrant : ℚ) - 1) + (d.quadrant_num : ℚ) / (d.quadrant_den : ℚ)) / 4

end Int_direction

/-- Modelled from the spec: an exact kernel for polygons with integer
coordinates.  Directions are compared by their angle with the positive `x`
axis. -/
def Int_kernel : Kernel where
  Direction_2 := Int_direction
  Segment_2 := Int_segment
  direction_eq := inferInstance
  to_direction := fun s =>
    Int_direction.of_vector (s.target.x - s.source.x) (s.target.y - s.source.y)
  opposite := Int_direction.opposite
  counterclockwise_in_between := Int_direction.counterclockwise_in_between

/-- The segments from each vertex of a list to the next, and from the last to
the first. -/
def segments_of_vertices : List Int_point → List Int_segment
  | [] => []
  | v0 :: rest =>
    ((v0 :: rest).zip (rest ++ [v0])).map fun p => { source := p.1, target := p.2 }

/-- The polygon with the given vertices and orientation. -/
def polygon_of_vertices (vertices : List Int_point) (orientation : Orientation) :
    Polygon_2 Int_kernel :=
  { edges := segments_of_vertices vertices, orientation := orientation }

/-- The direction east, `(1, 0)`. -/
def east : Int_kernel.Direction_2 :=
  ({ dx := 1, dy := 0, lowest_terms := by decide } : Int_direction)
/-- The direction north, `(0, 1)`. -/
def north : Int_kernel.Direction_2 :=
  ({ dx := 0, dy := 1, lowest_terms := by decide } : Int_direction)
/-- The direction west, `(-1, 0)`. -/
def west : Int_kernel.Direction_2 :=
  ({ dx := -1, dy := 0, lowest_terms := by decide } : Int_direction)
/-- The direction south, `(0, -1)`. -/
def south : Int_kernel.Direction_2 :=
  ({ dx := 0, dy := -1, lowest_terms := by decide } : Int_direction)

/-- The direction north-east, `(1, 1)`. -/
def north_east : Int_kernel.Direction_2 :=
  ({ dx := 1, dy := 1, lowest_terms := by decide } : Int_direction)
/-- The direction south-west, `(-1, -1)`. -/
def south_west : Int_kernel.Direction_2 :=
  ({ dx := -1, dy := -1, lowest_terms := by decide } : Int_direction)

/-- The staircase polygon with vertices (0,0), (1,0), (1,1), (2,1), (2,2), (0,2),
counterclockwise: its edges point east, north, east, north, west, south. -/
def staircase_polygon : Polygon_2 Int_kernel :=
  polygon_of_vertices
    [⟨0, 0⟩, ⟨1, 0⟩, ⟨1, 1⟩, ⟨2, 1⟩, ⟨2, 2⟩, ⟨0, 2⟩] Orientation.COUNTERCLOCKWISE

/-- The rectangle with a notch in its lower side, with vertices (0,0), (1,0),
(1,1), (2,1), (2,0), (3,0), (3,2), (0,2), counterclockwise: its edges point east,
north, east, south, east, north, west, south. -/
def notched_polygon : Polygon_2 Int_kernel :=
  polygon_of_vertices
    [⟨0, 0⟩, ⟨1, 0⟩, ⟨1, 1⟩, ⟨2, 1⟩, ⟨2, 0⟩, ⟨3, 0⟩, ⟨3, 2⟩, ⟨0, 2⟩]
    Orientation.COUNTERCLOCKWISE

/-- The cell of count 2 that starts at east with a closed start. -/
def covered_cell_east : Circle_arrangment_edge Int_kernel :=
  { start_is_closed := true, edge_start_angle := east, count := 2, edge_index := 4 }

/-- No cell of the arrangement starts at the start point of the cyclically next
cell. -/
def no_equal_consecutive_starts {K : Kernel} (a : Circle_arrangment K) : Prop :=
  ∀ p ∈ cyclic_pairs a.edges, p.1.edge_start_angle ≠ p.2.edge_start_angle

instance {K : Kernel} (a : Circle_arrangment K) : Decidable (no_equal_consecutive_starts a) := by
  unfold no_equal_consecutive_starts; infer_instance

/-! ## The laws of an exact kernel and the ranking of finitely many directions -/

/-- Modelled from the spec: what an exact kernel guarantees.  Every direction has
an angle, measured counterclockwise in turns from a fixed direction, that
determines it; the opposite direction is half a turn away; and
`d.counterclockwise_in_between(d1, d2)` says that `d` is not `d1` and is reached
strictly before `d2` when rotating counterclockwise from `d1`. -/
structure Kernel.Lawful (K : Kernel) : Prop where
  exists_angle : ∃ angle : K.Direction_2 → ℝ,
    Function.Injective angle ∧
    (∀ d, 0 ≤ angle d ∧ angle d < 1) ∧
    (∀ d, angle (K.opposite d) = angle d + 1 / 2 ∨ angle (K.opposite d) = angle d - 1 / 2) ∧
    (∀ d d1 d2, K.counterclockwise_in_between d d1 d2 = true ↔
      if angle d1 < angle d then (angle d < angle d2 ∨ angle d2 ≤ angle d1)
      else (angle d < angle d2 ∧ angle d2 ≤ angle d1))

/-- The predicate `p.counterclockwise_in_between(q, r)` for directions given by
their rank in the counterclockwise order. -/
def ccw_nat (p q r : Nat) : Bool :=
  if q < p then (decide (p < r) || decide (r ≤ q)) else (decide (p < r) && decide (r ≤ q))

/-- The kernel of the directions given by their rank: finitely many directions
of a lawful kernel compare like their ranks, so a fact about a few directions is
checked on the ranks.  The opposite and the segments are not used. -/
def Rank_kernel : Kernel where
  Direction_2 := Nat
  Segment_2 := Nat
  direction_eq := inferInstance
  to_direction := fun s => s
  opposite := fun d => d
  counterclockwise_in_between := ccw_nat

/-- The function `f` ranks the directions of the list `l`: it is below the length
of `l`, and equality and `counterclockwise_in_between` on `l` are those of the
ranks. -/
structure Ranking (K : Kernel) (l : List K.Direction_2) (f : K.Direction_2 → Nat) : Prop where
  bound : ∀ x ∈ l, f x < l.length
  eq_iff : ∀ x ∈ l, ∀ y ∈ l, (x = y) = (f x = f y)
  ccw : ∀ x ∈ l, ∀ y ∈ l, ∀ z ∈ l, K.counterclockwise_in_between x y z =
    Rank_kernel.counterclockwise_in_between (f x) (f y) (f z)

/-- The cell of the rank kernel with the start flag of `c` and the rank of its
start point; the count and the edge index are dropped. -/
def reshape {K : Kernel} (f : K.Direction_2 → Nat) (c : Circle_arrangment_edge K) :
    Circle_arrangment_edge Rank_kernel :=
  { start_is_closed := c.start_is_closed, edge_start_angle := f c.edge_start_angle,
    count := 0, edge_index := 0 }

/-- The cell of the rank kernel with the given start flag and start point. -/
def rank_cell (start_is_closed : Bool) (s : Nat) : Circle_arrangment_edge Rank_kernel :=
  { start_is_closed := start_is_closed, edge_start_angle := s, count := 0, edge_index := 0 }

/-- The number of the cells of the list that contain `d`, where every cell ends
at the start of the next cell of the list and the last cell ends at the start
of `t`. -/
def chain_count (K : Kernel) (d : K.Direction_2) :
    Circle_edges K → Circle_arrangment_edge K → Nat
  | [], _ => 0
  | [c], t => if pair_contains K (c, t) d then 1 else 0
  | c :: n :: rest, t =>
    (if pair_contains K (c, n) d then 1 else 0) + chain_count K d (n :: rest) t

/-- The number of the cells of a list, taken cyclically, that contain `d`. -/
def cyclic_count (K : Kernel) (d : K.Direction_2) : Circle_edges K → Nat
  | [] => 0
  | first :: rest => chain_count K d (first :: rest) first

/-- Every direction is in exactly one cell of the cyclic list. -/
def partitions (K : Kernel) (l : Circle_edges K) : Prop :=
  ∀ d : K.Direction_2, cyclic_count K d l = 1

/-! ## The unit square and the final arrangement of a polygon -/

/-- The values a pass of the `while` loop of `add_segment_outer_circle` works
with, after the pass has updated the iterators and the four locals: the locals
`is_start_closed_segment`, `is_end_closed_segment` and `edge`, the cell at `it`
and the cell at `next_it`.  The two flags and `edge` are what the pass hands to
`is_a_contained_in_b` when the count of the cell at `it` is not 2. -/
structure Pass (K : Kernel) where
  is_start_closed_segment : Bool
  is_end_closed_segment : Bool
  edge : Arc K
  it : Circle_arrangment_edge K
  next : Circle_arrangment_edge K

/-- The passes of the `while` loop of `add_segment_outer_circle` from the pass
that examines the head of the list on; the arguments are those of `add_loop`. -/
def add_loop_passes {K : Kernel} (first : Circle_arrangment_edge K) :
    Bool → K.Direction_2 → Circle_edges K → List (Pass K)
  | _, _, [] => []
  | is_end_closed_segment, edge_second, [it] =>
    [{ is_start_closed_segment := !is_end_closed_segment
       is_end_closed_segment := !first.start_is_closed
       edge := (edge_second, first.edge_start_angle), it := it, next := first }]
  | is_end_closed_segment, edge_second, it :: next :: rest =>
    { is_start_closed_segment := !is_end_closed_segment
      is_end_closed_segment := !next.start_is_closed
      edge := (edge_second, next.edge_start_angle), it := it, next := next } ::
      add_loop_passes first (!next.start_is_closed) next.edge_start_angle (next :: rest)

/-- The passes of the `while` loop of `add_segment_outer_circle` on a list of
cells, in order; the locals start as the source initialises them. -/
def loop_passes {K : Kernel} (edges : Circle_edges K) : List (Pass K) :=
  match edges with
  | [] => []
  | first :: rest =>
    add_loop_passes first first.start_is_closed first.edge_start_angle (first :: rest)

/-- What a pass does: the examined cell as the pass leaves it and the cells the
pass inserts before `next_it`. -/
def Pass.run {K : Kernel} (segment_outer_circle : Arc K) (edge_index : Nat) (p : Pass K) :
    Circle_arrangment_edge K × Circle_edges K :=
  loop_body segment_outer_circle edge_index p.is_start_closed_segment p.is_end_closed_segment
    p.edge p.it p.next

instance (K : Kernel) : DecidableEq (Pass K) := fun a b =>
  match a, b with
  | ⟨s1, e1, a1, i1, n1⟩, ⟨s2, e2, a2, i2, n2⟩ =>
    if h : s1 = s2 ∧ e1 = e2 ∧ a1 = a2 ∧ i1 = i2 ∧ n1 = n2 then
      isTrue (by rcases h with ⟨rfl, rfl, rfl, rfl, rfl⟩; rfl)
    else
      isFalse (by intro e; injection e with h1 h2 h3 h4 h5; exact h ⟨h1, h2, h3, h4, h5⟩)

/-- The first pass when the arc (north, south) is added to the arrangement of
the arc (east, west). -/
def first_pass_north : Pass Int_kernel :=
  { is_start_closed_segment := true, is_end_closed_segment := false, edge := (east, west)
    it := { start_is_closed := false, edge_start_angle := east, count := 1, edge_index := 0 }
    next := { start_is_closed := true, edge_start_angle := west, count := 0, edge_index := 0 } }

/-! ## The merge in the words of the specification -/

/-- Written from the words of the specification of the merge: a cell is erased
when its count is 2 and the cell before it in the list has count 2 as well, so
that it is not the first cell of a run of cells of count 2; the first cell of the
list has no cell before it. -/
def kept_by_merge {K : Kernel} (before : Option (Circle_arrangment_edge K))
    (c : Circle_arrangment_edge K) : Bool :=
  match before with
  | none => true
  | some b => !(decide (c.count = 2) && decide (b.count = 2))

/-- Written from the words of the specification of the merge: the cells of the
list that are kept, in their order; every cell is paired with the cell before it
in the list. -/
def merge_spec {K : Kernel} (l : Circle_edges K) : Circle_edges K :=
  ((l.zip (none :: l.map some)).filter fun p => kept_by_merge p.2 p.1).map Prod.fst

/-! ## The ends of a new arc and the cells they fall into -/

/-- The start of the arc `B` falls into the cell `p.1`, whose cyclically next cell
is `p.2`, as the loop of `add_segment_outer_circle` tests it (`is_start_contained`). -/
def start_falls_in (K : Kernel) (B : Arc K)
    (p : Circle_arrangment_edge K × Circle_arrangment_edge K) : Bool :=
  is_open_direction_contained_in_arc K B.1 true (p.1.edge_start_angle, p.2.edge_start_angle)

/-- The end of the arc `B` falls into the cell `p.1`, whose cyclically next cell
is `p.2`, as the loop of `add_segment_outer_circle` tests it (`is_end_contained`). -/
def end_falls_in (K : Kernel) (B : Arc K)
    (p : Circle_arrangment_edge K × Circle_arrangment_edge K) : Bool :=
  is_open_direction_contained_in_arc K B.2 false (p.1.edge_start_angle, p.2.edge_start_angle)

/-! ## The cells of a count of at least `m` -/

/-- The number of the cells of the list that contain `d` and have a count of at
least `m`, where every cell ends at the start of the next cell of the list and
the last cell ends at the start of `t`. -/
def chain_count_at_least (K : Kernel) (m : Nat) (d : K.Direction_2) :
    Circle_edges K → Circle_arrangment_edge K → Nat
  | [], _ => 0
  | [c], t => if pair_contains K (c, t) d = true ∧ m ≤ c.count then 1 else 0
  | c :: n :: rest, t =>
    (if pair_contains K (c, n) d = true ∧ m ≤ c.count then 1 else 0) +
      chain_count_at_least K m d (n :: rest) t

/-- The number of the cells of a list, taken cyclically, that contain `d` and
have a count of at least `m`. -/
def cyclic_count_at_least (K : Kernel) (m : Nat) (d : K.Direction_2) : Circle_edges K → Nat
  | [] => 0
  | first :: rest => chain_count_at_least K m d (first :: rest) first

/-- Every cell of the arrangement has a count of at most 2. -/
def counts_at_most_two {K : Kernel} (l : Circle_edges K) : Prop := ∀ c ∈ l, c.count ≤ 2

/-! ## Triangles, convex polygons and the relabelling of cells by ranks -/

/-- The direction north-west, `(-1, 1)`. -/
def north_west : Int_kernel.Direction_2 :=
  ({ dx := -1, dy := 1, lowest_terms := by decide } : Int_direction)
/-- The direction south-east, `(1, -1)`. -/
def south_east : Int_kernel.Direction_2 :=
  ({ dx := 1, dy := -1, lowest_terms := by decide } : Int_direction)

/-- Modelled from the spec: the directions of an exact kernel are dense in the
circle: strictly between two different directions, counterclockwise from the
first to the second, there is a direction. -/
structure Kernel.Dense (K : Kernel) : Prop where
  exists_between : ∀ d1 d2 : K.Direction_2, d1 ≠ d2 →
    ∃ d, K.counterclockwise_in_between d d1 d2 = true

/-- The directions strictly between `x` and `y`, counterclockwise, all belong to
the cell from `A.1` to `A.2` and none of them lies inside the open arc `B`: no
end of `A` or `B` is strictly between `x` and `y`, the ends of `A` differ, and
right after `x` one is inside `A` and not inside `B`. -/
def gap_escapes (K : Kernel) (A B : Arc K) (x y : K.Direction_2) : Bool :=
  decide (x ≠ y) &&
    ([A.1, A.2, B.1, B.2].all fun q => !K.counterclockwise_in_between q x y) &&
    decide (A.1 ≠ A.2) &&
    (decide (x = A.2) || K.counterclockwise_in_between x A.2 A.1) &&
    !(decide (x = B.2) || K.counterclockwise_in_between x B.2 B.1)

/-- The direction `d` belongs to the cell from `A.1` to `A.2` with the given
flags and does not lie inside the open arc `B`. -/
def escapes (K : Kernel) (sc ec : Bool) (A B : Arc K) (d : K.Direction_2) : Bool :=
  cell_contains K sc ec A.1 A.2 d && !in_open_arc K B d

/-! ## Cells that start where the next cell starts -/

/-- Written from the words of the specification of `insert_if_legal`: the cell
`x` may be followed by the cell `y`: when they start at the same point, `x` has a
closed start and `y` has an open start, so that `x` is the single direction at
that point. -/
def may_be_followed_by {K : Kernel} (x y : Circle_arrangment_edge K) : Prop :=
  x.edge_start_angle = y.edge_start_angle →
    x.start_is_closed = true ∧ y.start_is_closed = false

instance {K : Kernel} (x y : Circle_arrangment_edge K) : Decidable (may_be_followed_by x y) := by
  unfold may_be_followed_by; infer_instance

/-- The arcs of four calls of `add_segment_outer_circle` that, after the
constructor on the arc (east, west), leave two cells: the circle without west
and the single direction west. -/
def arcs_around_west : List (Arc Int_kernel) :=
  [(north_east, south_west), (north_west, south_east), (west, east), (south, north)]

/-- The arcs of four calls of `add_segment_outer_circle` that, after the
constructor on the arc (west, east), leave two cells: the circle without east
and the single direction east. -/
def arcs_around_east : List (Arc Int_kernel) :=
  [(south_west, north_east), (south_east, north_west), (east, west), (north, south)]

/-! ## A pass that examines a cell of count 2 -/

/-- The pass of the loop that examines the cell of count 2, from east to south,
of the arrangement of the arcs (east, west) and (north, south). -/
def covered_pass : Pass Int_kernel :=
  { is_start_closed_segment := false, is_end_closed_segment := false, edge := (east, south)
    it := { start_is_closed := false, edge_start_angle := east, count := 2, edge_index := 0 }
    next := { start_is_closed := true, edge_start_angle := south, count := 1, edge_index := 0 } }

/-! ## The loop of `add_segment_outer_circle` with its iterators -/

/-- The state of the `while` loop of `add_segment_outer_circle`: the list
`edges` of the arrangement and the locals of the function.  The iterators `it`
and `next_it` are positions in the list, `edges.begin()` is the position 0 and
`edges.end()` is the length of the list.  An iterator of a `std::list` stays on
its cell when a cell is inserted into the list, so its position grows by one
when the cell is inserted before its cell. -/
structure Loop_state (K : Kernel) where
  edges : Circle_edges K
  is_start_closed_segment : Bool
  is_end_closed_segment : Bool
  edge : Arc K
  next_it : Nat
  it : Nat
  done : Bool

namespace Loop_state

/-- The locals of `add_segment_outer_circle` as they are initialised before the
`while` loop.  On an empty list the source dereferences `edges.begin()`; the
embedding returns `none`. -/
def init {K : Kernel} (edges : Circle_edges K) : Option (Loop_state K) :=
  match edges[0]? with
  | none => none
  | some first =>
    some { edges := edges
           is_start_closed_segment := first.start_is_closed
           is_end_closed_segment := first.start_is_closed
           edge := (first.edge_start_angle, first.edge_start_angle)
           next_it := 0
           it := 0
           done := false }

/-- The first statements of the body of the `while` loop, up to the assignment
to `edge.second`: the iterators move on and the four locals are updated. -/
def advance {K : Kernel} (s : Loop_state K) : Option (Loop_state K) :=
  let it := s.next_it
  let next_it := it + 1
  let at_end := decide (next_it = s.edges.length)
  let done := if at_end then true else s.done
  let next_it := if at_end then 0 else next_it
  match s.edges[next_it]? with
  | none => none
  | some next =>
    some { edges := s.edges
           is_start_closed_segment := !s.is_end_closed_segment
           is_end_closed_segment := !next.start_is_closed
           edge := (s.edge.2, next.edge_start_angle)
           next_it := next_it
           it := it
           done := done }

/-- The calls `edges.insert(next_it, edge)` for the cells of a list, in order:
every cell is inserted before the cell at `next_it`, and the iterators stay on
their cells. -/
def insert_before_next_it {K : Kernel} (s : Loop_state K) (cells : Circle_edges K) :
    Loop_state K :=
  { s with edges := s.edges.take s.next_it ++ cells ++ s.edges.drop s.next_it
           next_it := s.next_it + cells.length
           it := if s.next_it ≤ s.it then s.it + cells.length else s.it }

/-- The call `this->insert_if_legal(it, next_it, edge)`. -/
def call_insert_if_legal {K : Kernel} (s : Loop_state K) (edge : Circle_arrangment_edge K) :
    Option (Loop_state K) :=
  match s.edges[s.it]?, s.edges[s.next_it]? with
  | some cur, some next => some (s.insert_before_next_it (insert_if_legal cur next edge))
  | _, _ => none

/-- The call `it->plusplus(edge_index)`. -/
def plusplus_it {K : Kernel} (s : Loop_state K) (edge_index : Nat) : Option (Loop_state K) :=
  match s.edges[s.it]? with
  | none => none
  | some c => some { s with edges := s.edges.set s.it (c.plusplus edge_index) }

/-- The rest of the body of the `while` loop, from the test `it->count == 2`
on.  Every `edge2 = *it` and `edge3 = *it` reads the cell at `it` in the list as
it is then. -/
def body {K : Kernel} (segment_outer_circle : Arc K) (edge_index : Nat) (s : Loop_state K) :
    Option (Loop_state K) :=
  match s.edges[s.it]? with
  | none => none
  | some c =>
    if c.count = 2 then some s
    else if is_a_contained_in_b K s.is_start_closed_segment s.is_end_closed_segment s.edge
        segment_outer_circle then s.plusplus_it edge_index
    else
      let is_start_contained :=
        is_open_direction_contained_in_arc K segment_outer_circle.1 true s.edge
      let is_end_contained :=
        is_open_direction_contained_in_arc K segment_outer_circle.2 false s.edge
      if is_start_contained then
        if is_end_contained then
          let isordered :=
            !K.counterclockwise_in_between segment_outer_circle.2 segment_outer_circle.1
              s.edge.2
          if isordered then
            let edge2 : Circle_arrangment_edge K :=
              ({ c with start_is_closed := false,
                        edge_start_angle := segment_outer_circle.1 } :
                Circle_arrangment_edge K).plusplus edge_index
            (s.call_insert_if_legal edge2).bind fun s1 =>
              s1.edges[s1.it]?.bind fun c1 =>
                let edge3 : Circle_arrangment_edge K :=
                  { c1 with start_is_closed := true,
                            edge_start_angle := segment_outer_circle.2 }
                s1.call_insert_if_legal edge3
          else
            let edge2 : Circle_arrangment_edge K :=
              { c with start_is_closed := true,
                       edge_start_angle := segment_outer_circle.2 }
            (s.call_insert_if_legal edge2).bind fun s1 =>
              s1.edges[s1.it]?.bind fun c1 =>
                let edge3 : Circle_arrangment_edge K :=
                  ({ c1 with start_is_closed := false,
                             edge_start_angle := segment_outer_circle.1 } :
                    Circle_arrangment_edge K).plusplus edge_index
                (s1.call_insert_if_legal edge3).bind fun s2 => s2.plusplus_it edge_index
        else
          let edge2 : Circle_arrangment_edge K :=
            ({ c with start_is_closed := false,
                      edge_start_angle := segment_outer_circle.1 } :
              Circle_arrangment_edge K).plusplus edge_index
          s.call_insert_if_legal edge2
      else
        if is_end_contained then
          let edge2 : Circle_arrangment_edge K :=
            { c with start_is_closed := true,
                     edge_start_angle := segment_outer_circle.2 }
          (s.plusplus_it edge_index).bind fun s1 => s1.call_insert_if_legal edge2
        else some s

end Loop_state

/-- The `while (!done)` loop of `add_segment_outer_circle`, run for at most
`fuel` passes: the states in which the passes examine their cell (after the
iterators and the locals are updated) and the state in which the loop ends;
`none` when the loop has not ended after `fuel` passes or an iterator is
dereferenced at `edges.end()`. -/
def while_loop {K : Kernel} (segment_outer_circle : Arc K) (edge_index : Nat) :
    Nat → Loop_state K → Option (List (Loop_state K) × Loop_state K)
  | 0, s => if s.done then some ([], s) else none
  | fuel + 1, s =>
    if s.done then some ([], s)
    else
      s.advance.bind fun s1 =>
        (s1.body segment_outer_circle edge_index).bind fun s2 =>
          (while_loop segment_outer_circle edge_index fuel s2).map fun r => (s1 :: r.1, r.2)

/-- The member function `add_segment_outer_circle(segment_outer_circle,
edge_index)` with the loop run on the list with its iterators, for at most
`fuel` passes. -/
def add_segment_outer_circle_with_iterators {K : Kernel} (fuel : Nat)
    (a : Circle_arrangment K) (segment_outer_circle : Arc K) (edge_index : Nat) :
    Option (Circle_arrangment K) :=
  (Loop_state.init a.edges).bind fun s =>
    (while_loop segment_outer_circle edge_index fuel s).map fun r =>
      { edges := merge_adjacent_2_edges_and_remove_empty r.2.edges }

/-- The state in which the cell at `it` is replaced by `x` and the cells of `l`
are inserted before the cell at `next_it`: what the body of a pass comes to. -/
def Loop_state.summary {K : Kernel} (s : Loop_state K) (x : Circle_arrangment_edge K)
    (l : Circle_edges K) : Loop_state K :=
  ({ s with edges := s.edges.set s.it x } : Loop_state K).insert_before_next_it l

/-- What a pass reads when it examines its cell: the locals
`is_start_closed_segment`, `is_end_closed_segment` and `edge`, and the cell at
`it`. -/
def Loop_state.examined {K : Kernel} (s : Loop_state K) :
    Bool × Bool × Arc K × Option (Circle_arrangment_edge K) :=
  (s.is_start_closed_segment, s.is_end_closed_segment, s.edge, s.edges[s.it]?)

/-- The non-empty suffixes of a list, the longest first. -/
def suffixes {α : Type} : List α → List (List α)
  | [] => []
  | a :: l => (a :: l) :: suffixes l

/-! ## The float traits of `leda_bigfloat` -/

/-- Modelled from the spec: the number types of the LEDA library, which
`Float_traits.h` uses and does not declare.  `leda_integer` is the type of the
integers of any size, here `Int`.  A `leda_bigfloat` has a significant and an
exponent, both of them a `leda_integer`; `make s e` is the constructor
`leda_bigfloat(s, e)`, and `get_significant` and `get_exponent` are the member
functions of these names.  `to_long` is the member function
`leda_integer::to_long()`, whose result has the machine type `long` of
`long_bits` bits. -/
structure Leda where
  /-- The type `leda_bigfloat`. -/
  leda_bigfloat : Type
  /-- The constructor `leda_bigfloat(s, e)`. -/
  make : Int → Int → leda_bigfloat
  /-- The member function `get_significant()`. -/
  get_significant : leda_bigfloat → Int
  /-- The member function `get_exponent()`. -/
  get_exponent : leda_bigfloat → Int
  /-- The number of bits of the machine type `long`. -/
  long_bits : Nat
  /-- The member function `leda_integer::to_long()`. -/
  to_long : Int → Int

/-- The integer `z` is a value of the signed machine type of `w` bits. -/
def is_long (w : Nat) (z : Int) : Prop := -(2 ^ (w - 1)) ≤ z ∧ z < 2 ^ (w - 1)

instance (w : Nat) (z : Int) : Decidable (is_long w z) := by
  unfold is_long; infer_instance

/-- Modelled from the spec: what the LEDA library guarantees.  The constructor
`leda_bigfloat(s, e)` keeps the significant and the exponent it is given; the
result of `to_long()` is a `long`, and it is the integer itself when that is a
`long`. -/
structure Leda.Lawful (L : Leda) : Prop where
  get_significant_make : ∀ s e : Int, L.get_significant (L.make s e) = s
  get_exponent_make : ∀ s e : Int, L.get_exponent (L.make s e) = e
  to_long_is_long : ∀ z : Int, is_long L.long_bits (L.to_long z)
  to_long_of_is_long : ∀ z : Int, is_long L.long_bits z → L.to_long z = z

/-- Modelled from the spec: the value of a bigfloat with significant `m` and
exponent `x`, the rational number `m * 2 ^ x`. -/
def Leda.value (L : Leda) (a : L.leda_bigfloat) : ℚ :=
  (L.get_significant a : ℚ) * (2 : ℚ) ^ L.get_exponent a

namespace Float_traits

/-- The functor `Float_traits<leda_bigfloat>::Get_mantissa`. -/
def Get_mantissa (L : Leda) (x : L.leda_bigfloat) : Int :=
  L.get_significant x

/-- The functor `Float_traits<leda_bigfloat>::Get_exponent`, whose result is a
`long`. -/
def Get_exponent (L : Leda) (x : L.leda_bigfloat) : Int :=
  L.to_long (L.get_exponent x)

/-- The functor `Float_traits<leda_bigfloat>::Mul_by_pow_of_2`. -/
def Mul_by_pow_of_2 (L : Leda) (a : L.leda_bigfloat) (e : Int) : L.leda_bigfloat :=
  L.make (L.get_significant a) (L.get_exponent a + e)

end Float_traits

/-- The value of the two's complement machine integer of `w` bits that has the
low `w` bits of `z`. -/
def to_long_wrap (w : Nat) (z : Int) : Int :=
  (z + 2 ^ (w - 1)) % 2 ^ w - 2 ^ (w - 1)

/-- The bigfloats as pairs of a significant and an exponent, with a `long` of 64
bits; `to_long()` keeps the low 64 bits. -/
def Pair_leda : Leda where
  leda_bigfloat := Int × Int
  make := fun s e => (s, e)
  get_significant := fun a => a.1
  get_exponent := fun a => a.2
  long_bits := 64
  to_long := to_long_wrap 64

/-! ## Theorems -/

/-! ### The depth at concrete arcs and polygons -/

/-- C1: at the arcs `a_0 = a_1 = (east, west)`, both open half-circles, the
direction south lies strictly inside both arcs, so the number of arcs that
cover it, capped at 2, is 2; but the arrangement after `Circle_arrangment(a_0)`
and `add_segment_outer_circle(a_1, 1)` is the one the constructor built, and the
one cell that contains south has count 1. -/
theorem C1_count_of_repeated_arc :
    is_half_circle Int_kernel (east, west) ∧
      (arrangement_of_arcs Int_kernel (east, west) [(east, west)]).edges =
        [{ start_is_closed := false, edge_start_angle := east, count := 1, edge_index := 0 },
         { start_is_closed := true, edge_start_angle := west, count := 0, edge_index := 0 }] ∧
      ((cells_containing (arrangement_of_arcs Int_kernel (east, west) [(east, west)])
        south).map fun c => c.count) = [1] ∧
      min 2 (covering_number Int_kernel [(east, west), (east, west)] south) = 2 := by
  decide

/-- C3: for the staircase polygon the driver emits the pair of edge 1 with the
cell that is the single direction east (in the final arrangement the cell that
contains east has count 1 and edge index 1), but east lies strictly inside the
outer half-circles of edge 1 and of edge 3, so edge 1 is not the only edge that
covers it. -/
theorem C3_staircase_emits_covered_direction :
    find_single_mold_translational_casting_2 staircase_polygon =
        some [(4, (north, north)), (1, (east, east)), (5, (west, west))] ∧
      ((cells_containing (arrangement_of_arcs Int_kernel (east, west)
          [(north, south), (east, west), (north, south), (west, east), (south, north)])
        east).map fun c => (c.count, c.edge_index)) = [(1, 1)] ∧
      outer_circles staircase_polygon =
        [(east, west), (north, south), (east, west), (north, south), (west, east),
          (south, north)] ∧
      (outer_circles staircase_polygon).map (fun a => in_open_arc Int_kernel a east) =
        [false, true, false, true, false, false] := by
  decide

/-- C4: for the notched polygon the driver emits nothing, but the direction
north lies strictly inside the outer half-circle of exactly one edge, edge 6. -/
theorem C4_notched_polygon_emits_nothing :
    find_single_mold_translational_casting_2 notched_polygon = some [] ∧
      (outer_circles notched_polygon).map (fun a => in_open_arc Int_kernel a north) =
        [false, false, false, false, false, false, true, false] ∧
      covering_number Int_kernel (outer_circles notched_polygon) north = 1 := by
  decide

/-! ### The list of cells and the driver -/

section lists

variable {K : Kernel}

theorem merge_loop_ne_nil (l : Circle_edges K) (h : l ≠ []) :
    merge_loop false l ≠ [] := by
  cases l with
  | nil => exact absurd rfl h
  | cons c rest =>
    unfold merge_loop
    split <;> simp

theorem merge_loop_true_of_covered (c : Circle_arrangment_edge K) (rest : Circle_edges K)
    (h : c.count = 2) : merge_loop false (c :: rest) = c :: merge_loop true rest := by
  simp [merge_loop, Circle_arrangment_edge.is_covered, h]

theorem merge_loop_of_not_covered (flag : Bool) (c : Circle_arrangment_edge K)
    (rest : Circle_edges K) (h : c.count ≠ 2) :
    merge_loop flag (c :: rest) = c :: merge_loop false rest := by
  simp [merge_loop, Circle_arrangment_edge.is_covered, h]

theorem merge_loop_singleton_count (l : Circle_edges K) (x : Circle_arrangment_edge K)
    (hlen : 2 ≤ l.length) (h : merge_loop false l = [x]) : x.count = 2 := by
  match l, hlen with
  | c :: c2 :: rest, _ =>
    by_cases hc : c.count = 2
    · rw [merge_loop_true_of_covered c _ hc] at h
      simp only [List.cons.injEq] at h
      rw [← h.1]; exact hc
    · rw [merge_loop_of_not_covered false c _ hc] at h
      simp only [List.cons.injEq] at h
      exact absurd h.2 (merge_loop_ne_nil (c2 :: rest) (by simp))

/-- After the merge no two consecutive cells of the list both have count 2; when
the loop starts inside a run of count 2, the first cell it keeps has another
count. -/
theorem merge_loop_chain (flag : Bool) (l : Circle_edges K) :
    List.Chain' (fun a b : Circle_arrangment_edge K => ¬ (a.count = 2 ∧ b.count = 2))
        (merge_loop flag l) ∧
      (flag = true → ∀ h ∈ (merge_loop flag l).head?, h.count ≠ 2) := by
  induction l generalizing flag with
  | nil => simp [merge_loop]
  | cons c rest ih =>
    by_cases hc : c.count = 2
    · cases flag with
      | true =>
        have e : merge_loop true (c :: rest) = merge_loop true rest := by
          simp [merge_loop, Circle_arrangment_edge.is_covered, hc]
        rw [e]; exact ih true
      | false =>
        rw [merge_loop_true_of_covered c rest hc]
        refine ⟨?_, by simp⟩
        rw [List.chain'_cons']
        refine ⟨?_, (ih true).1⟩
        intro y hy hcon
        exact (ih true).2 rfl y hy hcon.2
    · rw [merge_loop_of_not_covered flag c rest hc]
      refine ⟨?_, fun _ h hh => by simp at hh; rw [← hh]; exact hc⟩
      rw [List.chain'_cons']
      exact ⟨fun y _ hcon => hc hcon.1, (ih false).1⟩

theorem chain_all_covered_length
    (l : Circle_edges K)
    (hch : List.Chain' (fun a b : Circle_arrangment_edge K => ¬ (a.count = 2 ∧ b.count = 2)) l)
    (hall : ∀ c ∈ l, c.count = 2) : l.length ≤ 1 := by
  match l, hch, hall with
  | [], _, _ => simp
  | [_], _, _ => simp
  | a :: b :: rest, hch, hall =>
    rw [List.chain'_cons] at hch
    exact absurd ⟨hall a (by simp), hall b (by simp)⟩ hch.1

theorem add_loop_length (B : Arc K) (i : Nat) (first : Circle_arrangment_edge K)
    (flag : Bool) (sec : K.Direction_2) (l : Circle_edges K) :
    l.length ≤ (add_loop B i first flag sec l).2.length := by
  induction l generalizing flag sec with
  | nil => simp [add_loop]
  | cons c rest ih =>
    cases rest with
    | nil => simp [add_loop]
    | cons n rest2 =>
      have := ih (!n.start_is_closed) n.edge_start_angle
      simp only [add_loop, List.length_cons, List.length_append] at this ⊢
      omega

theorem add_segment_outer_circle_loop_length (l : Circle_edges K) (B : Arc K) (i : Nat) :
    l.length ≤ (Circle_arrangment.add_segment_outer_circle_loop l B i).length := by
  cases l with
  | nil => simp [Circle_arrangment.add_segment_outer_circle_loop]
  | cons c rest =>
    have := add_loop_length B i c c.start_is_closed c.edge_start_angle (c :: rest)
    simp only [Circle_arrangment.add_segment_outer_circle_loop, List.length_append]
    omega

theorem loop_body_of_covered (B : Arc K) (i : Nat) (sc ec : Bool) (edge : Arc K)
    (it next : Circle_arrangment_edge K) (h : it.count = 2) :
    loop_body B i sc ec edge it next = (it, []) := by
  simp [loop_body, h]

/-- A single cell of count 2 is left as it is by `add_segment_outer_circle`. -/
theorem add_single_covered (c : Circle_arrangment_edge K) (h : c.count = 2) (B : Arc K)
    (i : Nat) :
    (Circle_arrangment.mk [c]).add_segment_outer_circle B i = Circle_arrangment.mk [c] := by
  simp [Circle_arrangment.add_segment_outer_circle,
    Circle_arrangment.add_segment_outer_circle_loop, add_loop, loop_body_of_covered, h,
    merge_adjacent_2_edges_and_remove_empty, merge_loop, Circle_arrangment_edge.is_covered]

theorem list_invariant_ctor (arc : Arc K) : list_invariant (Circle_arrangment.ctor K arc) := by
  refine ⟨by simp [Circle_arrangment.ctor], by simp [Circle_arrangment.ctor], ?_⟩
  simp [Circle_arrangment.ctor, Circle_arrangment_edge.mk_edge]

theorem list_invariant_add (a : Circle_arrangment K) (h : list_invariant a) (B : Arc K)
    (i : Nat) : list_invariant (a.add_segment_outer_circle B i) := by
  obtain ⟨hne, hone, _⟩ := h
  have hlen := add_segment_outer_circle_loop_length a.edges B i
  have hpos : 0 < a.edges.length := List.length_pos.mpr hne
  refine ⟨?_, ?_, ?_⟩
  · apply merge_loop_ne_nil
    intro e
    have hzero : (Circle_arrangment.add_segment_outer_circle_loop a.edges B i).length = 0 := by
      rw [e]; rfl
    omega
  · intro c hc
    by_cases h1 : a.edges.length = 1
    · obtain ⟨c0, hc0⟩ := List.length_eq_one.mp h1
      have h2 := hone c0 hc0
      have e : a = Circle_arrangment.mk [c0] := by cases a; simp_all
      rw [e, add_single_covered c0 h2] at hc
      simp only [List.cons.injEq, and_true] at hc
      rw [← hc]; exact h2
    · exact merge_loop_singleton_count _ c (by omega) hc
  · exact (merge_loop_chain false _).1

theorem list_invariant_add_all (calls : List (Arc K × Nat)) (a : Circle_arrangment K)
    (h : list_invariant a) : list_invariant (add_all a calls) := by
  induction calls generalizing a with
  | nil => exact h
  | cons c rest ih => exact ih _ (list_invariant_add a h c.1 c.2)

end lists

section driver

variable {K : Kernel}

theorem get_all_1_edges_single_covered (c : Circle_arrangment_edge K) (h : c.count = 2) :
    (Circle_arrangment.mk [c]).get_all_1_edges = [] := by
  simp [Circle_arrangment.get_all_1_edges, Circle_arrangment.get_all_1_edges_loop, h]

theorem casting_loop_without_early_exit_single (o : Orientation)
    (c : Circle_arrangment_edge K) (h : c.count = 2) (i : Nat) (rest : List K.Segment_2) :
    casting_loop_without_early_exit o (Circle_arrangment.mk [c]) i rest = [] := by
  induction rest generalizing i with
  | nil => exact get_all_1_edges_single_covered c h
  | cons e rest ih =>
    simp only [casting_loop_without_early_exit]
    rw [add_single_covered c h]
    exact ih (i + 1)

theorem casting_loop_eq (o : Orientation) (a : Circle_arrangment K) (h : list_invariant a)
    (i : Nat) (rest : List K.Segment_2) :
    casting_loop o a i rest = casting_loop_without_early_exit o a i rest := by
  induction rest generalizing a i with
  | nil => rfl
  | cons e rest ih =>
    have hinv := list_invariant_add a h (get_segment_outer_circle K e o) i
    simp only [casting_loop, casting_loop_without_early_exit]
    split
    · rename_i hcov
      simp only [Circle_arrangment.all_is_covered_twice, decide_eq_true_eq] at hcov
      obtain ⟨c0, hc0⟩ := List.length_eq_one.mp hcov
      have h2 := hinv.2.1 c0 hc0
      have e2 : a.add_segment_outer_circle (get_segment_outer_circle K e o) i =
          Circle_arrangment.mk [c0] := by
        generalize a.add_segment_outer_circle (get_segment_outer_circle K e o) i = b at hc0
        cases b; simp_all
      rw [e2, casting_loop_without_early_exit_single o c0 h2]
    · exact ih _ hinv (i + 1)

end driver

/-- C5: the driver with the early exit writes the same sequence as the driver
that omits it, inserts every remaining edge and then calls `get_all_1_edges`;
and an arrangement that is a single cell of count 2 is left unchanged by every
further `add_segment_outer_circle`, and its extracted result is empty. -/
theorem C5_early_exit_is_an_optimisation (K : Kernel) :
    (∀ pgn : Polygon_2 K,
        find_single_mold_translational_casting_2 pgn = casting_without_early_exit pgn) ∧
      (∀ c : Circle_arrangment_edge K, c.count = 2 → ∀ (B : Arc K) (i : Nat),
        (Circle_arrangment.mk [c]).add_segment_outer_circle B i = Circle_arrangment.mk [c] ∧
          (Circle_arrangment.mk [c]).get_all_1_edges = []) := by
  constructor
  · intro pgn
    unfold find_single_mold_translational_casting_2 casting_without_early_exit
    split
    · rfl
    · simp only [Option.some.injEq]
      exact casting_loop_eq _ _ (list_invariant_ctor _) 1 _
  · intro c h B i
    exact ⟨add_single_covered c h B i, get_all_1_edges_single_covered c h⟩

/-- C6: after the constructor and any calls of `add_segment_outer_circle`,
`all_is_covered_twice()` is true exactly when every cell has count 2, and an
arrangement of exactly one cell holds a cell of count 2. -/
theorem C6_all_is_covered_twice_iff (K : Kernel) (a_0 : Arc K) (calls : List (Arc K × Nat)) :
    ((add_all (Circle_arrangment.ctor K a_0) calls).all_is_covered_twice = true ↔
        ∀ c ∈ (add_all (Circle_arrangment.ctor K a_0) calls).edges, c.count = 2) ∧
      ((add_all (Circle_arrangment.ctor K a_0) calls).edges.length = 1 →
        ∀ c ∈ (add_all (Circle_arrangment.ctor K a_0) calls).edges, c.count = 2) := by
  obtain ⟨hne, hone, hch⟩ := list_invariant_add_all calls _ (list_invariant_ctor a_0)
  have key : (add_all (Circle_arrangment.ctor K a_0) calls).edges.length = 1 →
      ∀ c ∈ (add_all (Circle_arrangment.ctor K a_0) calls).edges, c.count = 2 := by
    intro h1 c hc
    obtain ⟨c0, hc0⟩ := List.length_eq_one.mp h1
    rw [hc0] at hc
    simp only [List.mem_singleton] at hc
    rw [hc]; exact hone c0 hc0
  refine ⟨⟨fun h => key (by simpa [Circle_arrangment.all_is_covered_twice] using h), ?_⟩, key⟩
  intro hall
  have h1 := chain_all_covered_length _ hch hall
  have h2 : 0 < (add_all (Circle_arrangment.ctor K a_0) calls).edges.length :=
    List.length_pos.mpr hne
  simp only [Circle_arrangment.all_is_covered_twice, decide_eq_true_eq]
  omega

/-- C7: `get_segment_outer_circle` returns (backward, forward) for a CLOCKWISE
polygon and (forward, backward) for a COUNTERCLOCKWISE one, where forward is the
direction of the segment and backward its opposite; in both cases one end of the
arc is the opposite of the other. -/
theorem C7_get_segment_outer_circle (K : Kernel) (seg : K.Segment_2) :
    get_segment_outer_circle K seg Orientation.CLOCKWISE =
        (K.opposite (K.to_direction seg), K.to_direction seg) ∧
      get_segment_outer_circle K seg Orientation.COUNTERCLOCKWISE =
        (K.to_direction seg, K.opposite (K.to_direction seg)) ∧
      (get_segment_outer_circle K seg Orientation.CLOCKWISE).1 =
        K.opposite (get_segment_outer_circle K seg Orientation.CLOCKWISE).2 ∧
      (get_segment_outer_circle K seg Orientation.COUNTERCLOCKWISE).2 =
        K.opposite (get_segment_outer_circle K seg Orientation.COUNTERCLOCKWISE).1 := by
  simp [get_segment_outer_circle]

/-- C8: the constructor builds exactly two cells in this order: a cell that
starts at `s` with an open start, count 1 and edge index 0, and a cell that
starts at `e` with a closed start and count 0; so the first cell is open at both
ends (its directions are those strictly inside the arc) and the second is closed
at both ends (its directions are `e`, `s` and those strictly between). -/
theorem C8_constructor_cells (K : Kernel) (s e : K.Direction_2) :
    (Circle_arrangment.ctor K (s, e)).edges =
        [{ start_is_closed := false, edge_start_angle := s, count := 1, edge_index := 0 },
         { start_is_closed := true, edge_start_angle := e, count := 0, edge_index := 0 }] ∧
      (cyclic_pairs (Circle_arrangment.ctor K (s, e)).edges).map
          (fun p => (p.1.edge_start_angle, p.1.start_is_closed, p.2.edge_start_angle,
            !p.2.start_is_closed, p.1.count)) =
        [(s, false, e, false, 1), (e, true, s, true, 0)] ∧
      (∀ d, (cyclic_pairs (Circle_arrangment.ctor K (s, e)).edges).map
          (fun p => pair_contains K p d) =
        [in_open_arc K (s, e) d,
         if e = s then decide (d = e)
         else decide (d = e) || decide (d = s) || in_open_arc K (e, s) d]) := by
  refine ⟨rfl, rfl, ?_⟩
  intro d
  by_cases h : e = s <;>
    simp [Circle_arrangment.ctor, Circle_arrangment_edge.mk_edge, cyclic_pairs, cyclic_next,
      pair_contains, cell_contains, h]

/-- C10 fails as stated: after `Circle_arrangment((east, west))` and
`add_segment_outer_circle((west, east), 1)` the cell that is the single direction
east is followed by a cell that starts at east too (and the same for west).
After `Circle_arrangment((west, east))` and the calls with the half-circles
(south-west, north-east), (south-east, north-west), (east, west) and
(north, south) the arrangement has two cells that both start at east: the circle
without east and the single direction east. -/
theorem C10_equal_consecutive_starts :
    is_half_circle Int_kernel (east, west) ∧ is_half_circle Int_kernel (west, east) ∧
      (arrangement_of_arcs Int_kernel (east, west) [(west, east)]).edges =
        [{ start_is_closed := false, edge_start_angle := west, count := 1, edge_index := 1 },
         { start_is_closed := true, edge_start_angle := east, count := 0, edge_index := 0 },
         { start_is_closed := false, edge_start_angle := east, count := 1, edge_index := 0 },
         { start_is_closed := true, edge_start_angle := west, count := 0, edge_index := 0 }] ∧
      ¬ no_equal_consecutive_starts
        (arrangement_of_arcs Int_kernel (east, west) [(west, east)]) ∧
      (∀ a ∈ arcs_around_east, is_half_circle Int_kernel a) ∧
      (arrangement_of_arcs Int_kernel (west, east) arcs_around_east).edges =
        [{ start_is_closed := false, edge_start_angle := east, count := 2, edge_index := 3 },
         { start_is_closed := true, edge_start_angle := east, count := 1, edge_index := 4 }] ∧
      ¬ no_equal_consecutive_starts
        (arrangement_of_arcs Int_kernel (west, east) arcs_around_east) := by
  decide

/-! ## Every direction is in exactly one cell -/

theorem countP_lt_of_imp {α : Type} (p q : α → Bool) (l : List α)
    (himp : ∀ z ∈ l, p z = true → q z = true) (x : α) (hx : x ∈ l) (hq : q x = true)
    (hp : p x = false) : l.countP p < l.countP q := by
  induction l with
  | nil => simp at hx
  | cons a rest ih =>
    have hle : rest.countP p ≤ rest.countP q :=
      List.countP_mono_left fun z hz hpz => himp z (List.mem_cons_of_mem _ hz) hpz
    rcases List.mem_cons.mp hx with rfl | hmem
    · rw [List.countP_cons_of_neg _ _ (by simp [hp]), List.countP_cons_of_pos _ _ hq]
      omega
    · have hlt := ih (fun z hz => himp z (List.mem_cons_of_mem _ hz)) hmem
      by_cases hpa : p a = true
      · rw [List.countP_cons_of_pos _ _ hpa,
          List.countP_cons_of_pos _ _ (himp a (List.mem_cons_self _ _) hpa)]
        omega
      · rw [List.countP_cons_of_neg _ _ hpa]
        by_cases hqa : q a = true
        · rw [List.countP_cons_of_pos _ _ hqa]; omega
        · rw [List.countP_cons_of_neg _ _ hqa]; exact hlt

open Classical in
/-- In a lawful kernel finitely many directions compare like natural numbers
below their number: the rank of a direction is the number of directions of the
list with a smaller angle. -/
theorem Kernel.Lawful.rank {K : Kernel} (h : K.Lawful) (l : List K.Direction_2) :
    ∃ f : K.Direction_2 → Nat,
      (∀ x ∈ l, f x < l.length) ∧
      (∀ x ∈ l, ∀ y ∈ l, (x = y) = (f x = f y)) ∧
      (∀ x ∈ l, ∀ y ∈ l, ∀ z ∈ l, K.counterclockwise_in_between x y z =
        Rank_kernel.counterclockwise_in_between (f x) (f y) (f z)) := by
  obtain ⟨ang, hinj, -, -, hccw⟩ := h.exists_angle
  let f : K.Direction_2 → Nat := fun x => l.countP fun y => decide (ang y < ang x)
  have hlt : ∀ x ∈ l, ∀ y ∈ l, (f x < f y ↔ ang x < ang y) := by
    have key : ∀ x ∈ l, ∀ y, ang x < ang y → f x < f y := by
      intro x hx y hxy
      apply countP_lt_of_imp _ _ l _ x hx
      · simpa using hxy
      · simp
      · intro z _ hz
        simp only [decide_eq_true_eq] at hz ⊢
        exact lt_trans hz hxy
    intro x hx y hy
    constructor
    · intro hf
      by_contra hcon
      rcases lt_or_eq_of_le (not_lt.mp hcon) with h1 | h1
      · have := key y hy x h1; omega
      · have : f y = f x := by simp only [f, h1]
        omega
    · exact key x hx y
  have hle : ∀ x ∈ l, ∀ y ∈ l, (f x ≤ f y ↔ ang x ≤ ang y) := by
    intro x hx y hy
    rw [← not_lt, ← not_lt, hlt y hy x hx]
  refine ⟨f, ?_, ?_, ?_⟩
  · intro x hx
    have h1 : l.countP (fun y => decide (ang y < ang x)) < l.countP (fun _ => true) := by
      apply countP_lt_of_imp _ _ l _ x hx rfl
      · simp
      · intro z _ _; rfl
    have h2 : l.countP (fun _ => true) ≤ l.length := List.countP_le_length _
    exact lt_of_lt_of_le h1 h2
  · intro x hx y hy
    apply propext
    constructor
    · intro e; rw [e]
    · intro e
      apply hinj
      apply le_antisymm
      · exact (hle x hx y hy).mp (le_of_eq e)
      · exact (hle y hy x hx).mp (le_of_eq e.symm)
  · intro x hx y hy z hz
    rw [Bool.eq_iff_iff, hccw]
    simp only [Rank_kernel, ccw_nat]
    have e1 := hlt y hy x hx
    have e2 := hlt x hx z hz
    have e3 := hle z hz y hy
    by_cases c1 : ang y < ang x
    · have c1' := e1.mpr c1
      simp only [c1, c1', if_true, Bool.or_eq_true, decide_eq_true_eq, e2, e3]
    · have c1' : ¬ f y < f x := fun hh => c1 (e1.mp hh)
      simp only [c1, c1', if_false, Bool.and_eq_true, decide_eq_true_eq, e2, e3]

section chains

variable {K : Kernel}

theorem plusplus_start (c : Circle_arrangment_edge K) (i : Nat) :
    (c.plusplus i).edge_start_angle = c.edge_start_angle := by
  unfold Circle_arrangment_edge.plusplus; split_ifs <;> rfl

theorem plusplus_closed (c : Circle_arrangment_edge K) (i : Nat) :
    (c.plusplus i).start_is_closed = c.start_is_closed := by
  unfold Circle_arrangment_edge.plusplus; split_ifs <;> rfl

theorem pair_contains_congr (c c2 n n2 : Circle_arrangment_edge K) (d : K.Direction_2)
    (h1 : c.edge_start_angle = c2.edge_start_angle) (h2 : c.start_is_closed = c2.start_is_closed)
    (h3 : n.edge_start_angle = n2.edge_start_angle) (h4 : n.start_is_closed = n2.start_is_closed) :
    pair_contains K (c, n) d = pair_contains K (c2, n2) d := by
  simp only [pair_contains, h1, h2, h3, h4]

theorem chain_count_append (d : K.Direction_2) (xs : Circle_edges K)
    (y : Circle_arrangment_edge K) (ys : Circle_edges K) (t : Circle_arrangment_edge K) :
    chain_count K d (xs ++ y :: ys) t = chain_count K d xs y + chain_count K d (y :: ys) t := by
  induction xs with
  | nil => simp [chain_count]
  | cons a rest ih =>
    cases rest with
    | nil => simp [chain_count]
    | cons b rest2 =>
      have e : chain_count K d ((a :: b :: rest2) ++ y :: ys) t =
          (if pair_contains K (a, b) d then 1 else 0) +
            chain_count K d ((b :: rest2) ++ y :: ys) t := rfl
      rw [e, ih]
      simp only [chain_count]
      omega

theorem chain_count_congr_term (d : K.Direction_2) (l : Circle_edges K)
    (t t2 : Circle_arrangment_edge K) (h1 : t.edge_start_angle = t2.edge_start_angle)
    (h2 : t.start_is_closed = t2.start_is_closed) :
    chain_count K d l t = chain_count K d l t2 := by
  induction l with
  | nil => rfl
  | cons a rest ih =>
    cases rest with
    | nil => simp only [chain_count, pair_contains_congr a a t t2 d rfl rfl h1 h2]
    | cons b rest2 => simp only [chain_count, ih]

theorem chain_count_congr_head (d : K.Direction_2) (a a2 : Circle_arrangment_edge K)
    (rest : Circle_edges K) (t : Circle_arrangment_edge K)
    (h1 : a.edge_start_angle = a2.edge_start_angle)
    (h2 : a.start_is_closed = a2.start_is_closed) :
    chain_count K d (a :: rest) t = chain_count K d (a2 :: rest) t := by
  cases rest with
  | nil => simp only [chain_count, pair_contains_congr a a2 t t d h1 h2 rfl rfl]
  | cons b rest2 => simp only [chain_count, pair_contains_congr a a2 b b d h1 h2 rfl rfl]

theorem chain_count_eq_filter (d : K.Direction_2) (l : Circle_edges K)
    (t : Circle_arrangment_edge K) :
    ((l.zip (l.tail ++ [t])).filter fun p => pair_contains K p d).length =
      chain_count K d l t := by
  induction l with
  | nil => rfl
  | cons a rest ih =>
    cases rest with
    | nil =>
      by_cases h : pair_contains K (a, t) d = true <;> simp [chain_count, h]
    | cons b rest2 =>
      by_cases h : pair_contains K (a, b) d = true <;>
        simp [chain_count, h, List.filter_cons] at ih ⊢ <;> omega

/-- The number of cells of a cyclic list that contain `d`. -/
theorem cells_containing_length (a : Circle_arrangment K) (d : K.Direction_2) :
    (cells_containing a d).length = cyclic_count K d a.edges := by
  unfold cells_containing cyclic_count cyclic_pairs cyclic_next
  rw [List.length_map]
  cases h : a.edges with
  | nil => rfl
  | cons first rest => exact chain_count_eq_filter d (first :: rest) first

theorem cyclic_count_rotate (d : K.Direction_2) (xs ys : Circle_edges K) :
    cyclic_count K d (xs ++ ys) = cyclic_count K d (ys ++ xs) := by
  cases xs with
  | nil => simp
  | cons x xs2 =>
    cases ys with
    | nil => simp
    | cons y ys2 =>
      simp only [cyclic_count, List.cons_append]
      rw [← List.cons_append, chain_count_append, ← List.cons_append, chain_count_append]
      omega

end chains

section ranking

variable {K : Kernel} {l : List K.Direction_2} {f : K.Direction_2 → Nat}

theorem Ranking.cell_contains_eq (r : Ranking K l f) (sc ec : Bool) (s e d : K.Direction_2)
    (hs : s ∈ l) (he : e ∈ l) (hd : d ∈ l) :
    cell_contains K sc ec s e d = cell_contains Rank_kernel sc ec (f s) (f e) (f d) := by
  have e1 := r.eq_iff s hs e he
  have e2 := r.eq_iff d hd s hs
  have e3 := r.eq_iff d hd e he
  unfold cell_contains in_open_arc
  rw [r.ccw d hd e he s hs]
  simp only [e1, e2, e3]

theorem Ranking.pair_contains_eq (r : Ranking K l f) (c n : Circle_arrangment_edge K)
    (d : K.Direction_2) (hc : c.edge_start_angle ∈ l) (hn : n.edge_start_angle ∈ l)
    (hd : d ∈ l) :
    pair_contains K (c, n) d = pair_contains Rank_kernel (reshape f c, reshape f n) (f d) := by
  unfold pair_contains
  exact r.cell_contains_eq _ _ _ _ _ hc hn hd

theorem Ranking.chain_count_eq (r : Ranking K l f) (d : K.Direction_2) (hd : d ∈ l)
    (cells : Circle_edges K) (t : Circle_arrangment_edge K)
    (hcells : ∀ c ∈ cells, c.edge_start_angle ∈ l) (ht : t.edge_start_angle ∈ l) :
    chain_count K d cells t =
      chain_count Rank_kernel (f d) (cells.map (reshape f)) (reshape f t) := by
  induction cells with
  | nil => rfl
  | cons a rest ih =>
    have ha : a.edge_start_angle ∈ l := hcells a (List.mem_cons_self _ _)
    cases rest with
    | nil => simp only [chain_count, List.map, r.pair_contains_eq a t d ha ht hd]
    | cons b rest2 =>
      have hb : b.edge_start_angle ∈ l := hcells b (by simp)
      have ih2 := ih (fun c hc => hcells c (List.mem_cons_of_mem _ hc))
      simp only [List.map_cons] at ih2
      simp only [chain_count, List.map_cons, r.pair_contains_eq a b d ha hb hd, ih2]

theorem Ranking.insert_if_legal_eq (r : Ranking K l f) (cur next edge : Circle_arrangment_edge K)
    (hc : cur.edge_start_angle ∈ l) (hn : next.edge_start_angle ∈ l)
    (he : edge.edge_start_angle ∈ l) :
    (insert_if_legal cur next edge).map (reshape f) =
      insert_if_legal (reshape f cur) (reshape f next) (reshape f edge) := by
  have e1 := r.eq_iff _ he _ hn
  have e2 := r.eq_iff _ he _ hc
  unfold insert_if_legal
  simp only [ne_eq, e1, e2, reshape]
  split_ifs <;> rfl

theorem Ranking.is_open_direction_eq (r : Ranking K l f) (p : K.Direction_2) (cc : Bool)
    (s e : K.Direction_2) (hp : p ∈ l) (hs : s ∈ l) (he : e ∈ l) :
    is_open_direction_contained_in_arc K p cc (s, e) =
      is_open_direction_contained_in_arc Rank_kernel (f p) cc (f s, f e) := by
  have e1 := r.eq_iff p hp e he
  have e2 := r.eq_iff p hp s hs
  unfold is_open_direction_contained_in_arc
  rw [r.ccw p hp s hs e he]
  simp only [e1, e2]

end ranking

set_option synthInstance.maxHeartbeats 400000 in
set_option synthInstance.maxSize 4096 in
/-- On ranks below 5: when both ends of the new arc fall into the examined cell,
the start before the end, the cell and the cells inserted at the two ends contain
a direction as often as the cell alone did. -/
theorem rank_split_ordered : ∀ isc nsc : Bool, ∀ s : Nat, s < 5 → ∀ e : Nat, e < 5 →
    ∀ p1 : Nat, p1 < 5 → ∀ p2 : Nat, p2 < 5 → ∀ x : Nat, x < 5 → p1 ≠ p2 →
    is_open_direction_contained_in_arc Rank_kernel p1 true (s, e) = true →
    is_open_direction_contained_in_arc Rank_kernel p2 false (s, e) = true →
    Rank_kernel.counterclockwise_in_between p2 p1 e = false →
    chain_count Rank_kernel x (rank_cell isc s ::
      (insert_if_legal (rank_cell isc s) (rank_cell nsc e) (rank_cell false p1) ++
        insert_if_legal (rank_cell isc s) (rank_cell nsc e) (rank_cell true p2)))
        (rank_cell nsc e) =
      chain_count Rank_kernel x [rank_cell isc s] (rank_cell nsc e) := by
  decide!

set_option synthInstance.maxHeartbeats 400000 in
set_option synthInstance.maxSize 4096 in
/-- On ranks below 5: when both ends of the new arc fall into the examined cell,
the end before the start, the cell and the cells inserted at the two ends contain
a direction as often as the cell alone did. -/
theorem rank_split_round : ∀ isc nsc : Bool, ∀ s : Nat, s < 5 → ∀ e : Nat, e < 5 →
    ∀ p1 : Nat, p1 < 5 → ∀ p2 : Nat, p2 < 5 → ∀ x : Nat, x < 5 → p1 ≠ p2 →
    is_open_direction_contained_in_arc Rank_kernel p1 true (s, e) = true →
    is_open_direction_contained_in_arc Rank_kernel p2 false (s, e) = true →
    Rank_kernel.counterclockwise_in_between p2 p1 e = true →
    chain_count Rank_kernel x (rank_cell isc s ::
      (insert_if_legal (rank_cell isc s) (rank_cell nsc e) (rank_cell true p2) ++
        insert_if_legal (rank_cell isc s) (rank_cell nsc e) (rank_cell false p1)))
        (rank_cell nsc e) =
      chain_count Rank_kernel x [rank_cell isc s] (rank_cell nsc e) := by
  decide!

set_option synthInstance.maxHeartbeats 400000 in
set_option synthInstance.maxSize 4096 in
/-- On ranks below 5: when the start of the new arc falls into the examined
cell, the cell and the cell inserted at that start contain a direction as often
as the cell alone did. -/
theorem rank_split_start : ∀ isc nsc : Bool, ∀ s : Nat, s < 5 → ∀ e : Nat, e < 5 →
    ∀ p1 : Nat, p1 < 5 → ∀ x : Nat, x < 5 →
    is_open_direction_contained_in_arc Rank_kernel p1 true (s, e) = true →
    chain_count Rank_kernel x (rank_cell isc s ::
      insert_if_legal (rank_cell isc s) (rank_cell nsc e) (rank_cell false p1))
        (rank_cell nsc e) =
      chain_count Rank_kernel x [rank_cell isc s] (rank_cell nsc e) := by
  decide!

set_option synthInstance.maxHeartbeats 400000 in
set_option synthInstance.maxSize 4096 in
/-- On ranks below 5: when the end of the new arc falls into the examined cell,
the cell and the cell inserted at that end contain a direction as often as the
cell alone did. -/
theorem rank_split_end : ∀ isc nsc : Bool, ∀ s : Nat, s < 5 → ∀ e : Nat, e < 5 →
    ∀ p2 : Nat, p2 < 5 → ∀ x : Nat, x < 5 →
    is_open_direction_contained_in_arc Rank_kernel p2 false (s, e) = true →
    chain_count Rank_kernel x (rank_cell isc s ::
      insert_if_legal (rank_cell isc s) (rank_cell nsc e) (rank_cell true p2))
        (rank_cell nsc e) =
      chain_count Rank_kernel x [rank_cell isc s] (rank_cell nsc e) := by
  decide

section split

variable {K : Kernel}

theorem reshape_plusplus (f : K.Direction_2 → Nat) (c : Circle_arrangment_edge K) (i : Nat) :
    reshape f (c.plusplus i) = reshape f c := by
  simp only [reshape, plusplus_start, plusplus_closed]

theorem chain_count_singleton_plusplus (d : K.Direction_2) (it next : Circle_arrangment_edge K)
    (i : Nat) : chain_count K d [it.plusplus i] next = chain_count K d [it] next :=
  chain_count_congr_head d _ _ [] next (plusplus_start it i) (plusplus_closed it i)

theorem insert_if_legal_mem (cur next edge c : Circle_arrangment_edge K)
    (h : c ∈ insert_if_legal cur next edge) : c = edge := by
  unfold insert_if_legal at h
  split_ifs at h
  · exact List.mem_singleton.mp h
  · exact absurd h (List.not_mem_nil _)
  · exact absurd h (List.not_mem_nil _)

theorem Ranking.chain_count_inserted {l : List K.Direction_2} {f : K.Direction_2 → Nat}
    (r : Ranking K l f) (d : K.Direction_2) (hd : d ∈ l)
    (it it2 next e2 e3 : Circle_arrangment_edge K)
    (h1 : it2.edge_start_angle = it.edge_start_angle)
    (h2 : it2.start_is_closed = it.start_is_closed)
    (ms : it.edge_start_angle ∈ l) (me : next.edge_start_angle ∈ l)
    (m2 : e2.edge_start_angle ∈ l) (m3 : e3.edge_start_angle ∈ l) :
    chain_count K d (it2 :: (insert_if_legal it next e2 ++ insert_if_legal it next e3)) next =
      chain_count Rank_kernel (f d) (reshape f it ::
        (insert_if_legal (reshape f it) (reshape f next) (reshape f e2) ++
          insert_if_legal (reshape f it) (reshape f next) (reshape f e3))) (reshape f next) := by
  rw [chain_count_congr_head d it2 it _ next h1 h2, r.chain_count_eq d hd _ next (by
    intro c hc
    simp only [List.mem_cons, List.mem_append] at hc
    rcases hc with rfl | hc | hc
    · exact ms
    · rw [insert_if_legal_mem _ _ _ _ hc]; exact m2
    · rw [insert_if_legal_mem _ _ _ _ hc]; exact m3) me]
  simp only [List.map_cons, List.map_append, r.insert_if_legal_eq _ _ _ ms me m2,
    r.insert_if_legal_eq _ _ _ ms me m3]

theorem Ranking.chain_count_inserted_one {l : List K.Direction_2} {f : K.Direction_2 → Nat}
    (r : Ranking K l f) (d : K.Direction_2) (hd : d ∈ l)
    (it it2 next e2 : Circle_arrangment_edge K)
    (h1 : it2.edge_start_angle = it.edge_start_angle)
    (h2 : it2.start_is_closed = it.start_is_closed)
    (ms : it.edge_start_angle ∈ l) (me : next.edge_start_angle ∈ l)
    (m2 : e2.edge_start_angle ∈ l) :
    chain_count K d (it2 :: insert_if_legal it next e2) next =
      chain_count Rank_kernel (f d) (reshape f it ::
        insert_if_legal (reshape f it) (reshape f next) (reshape f e2)) (reshape f next) := by
  rw [chain_count_congr_head d it2 it _ next h1 h2, r.chain_count_eq d hd _ next (by
    intro c hc
    simp only [List.mem_cons] at hc
    rcases hc with rfl | hc
    · exact ms
    · rw [insert_if_legal_mem _ _ _ _ hc]; exact m2) me]
  simp only [List.map_cons, r.insert_if_legal_eq _ _ _ ms me m2]

/-- One pass of the loop replaces the examined cell by cells that contain the
same directions, each exactly as often. -/
theorem loop_body_chain_count (hK : K.Lawful) (B : Arc K) (hB : B.1 ≠ B.2) (i : Nat)
    (sc ec : Bool) (it next : Circle_arrangment_edge K) (d : K.Direction_2) :
    chain_count K d
        ((loop_body B i sc ec (it.edge_start_angle, next.edge_start_angle) it next).1 ::
          (loop_body B i sc ec (it.edge_start_angle, next.edge_start_angle) it next).2) next =
      chain_count K d [it] next := by
  obtain ⟨f, hb, he, hc⟩ :=
    hK.rank [it.edge_start_angle, next.edge_start_angle, B.1, B.2, d]
  have r : Ranking K _ f := ⟨hb, he, hc⟩
  have ms : it.edge_start_angle ∈
      [it.edge_start_angle, next.edge_start_angle, B.1, B.2, d] := by simp
  have me : next.edge_start_angle ∈
      [it.edge_start_angle, next.edge_start_angle, B.1, B.2, d] := by simp
  have m1 : B.1 ∈ [it.edge_start_angle, next.edge_start_angle, B.1, B.2, d] := by simp
  have m2 : B.2 ∈ [it.edge_start_angle, next.edge_start_angle, B.1, B.2, d] := by simp
  have md : d ∈ [it.edge_start_angle, next.edge_start_angle, B.1, B.2, d] := by simp
  have hB2 : f B.1 ≠ f B.2 := fun h => hB (by rw [r.eq_iff _ m1 _ m2]; exact h)
  have base : chain_count K d [it] next =
      chain_count Rank_kernel (f d) [rank_cell it.start_is_closed (f it.edge_start_angle)]
        (rank_cell next.start_is_closed (f next.edge_start_angle)) :=
    r.chain_count_eq d md [it] next (by intro c hc; rw [List.mem_singleton.mp hc]; exact ms) me
  have mF : (({ it with start_is_closed := false, edge_start_angle := B.1 } :
      Circle_arrangment_edge K).plusplus i).edge_start_angle ∈
      [it.edge_start_angle, next.edge_start_angle, B.1, B.2, d] := by
    rw [plusplus_start]; exact m1
  have mT : ({ it with start_is_closed := true, edge_start_angle := B.2 } :
      Circle_arrangment_edge K).edge_start_angle ∈
      [it.edge_start_angle, next.edge_start_angle, B.1, B.2, d] := m2
  unfold loop_body
  by_cases h1 : it.count = 2
  · simp only [h1, if_true]
  simp only [h1, if_false]
  by_cases h2 : is_a_contained_in_b K sc ec (it.edge_start_angle, next.edge_start_angle) B = true
  · simp only [h2, if_true]
    exact chain_count_singleton_plusplus d it next i
  simp only [h2, if_false]
  have n3 := r.is_open_direction_eq B.1 true _ _ m1 ms me
  have n4 := r.is_open_direction_eq B.2 false _ _ m2 ms me
  have n5 := r.ccw B.2 m2 B.1 m1 _ me
  by_cases h3 : is_open_direction_contained_in_arc K B.1 true
      (it.edge_start_angle, next.edge_start_angle) = true
  · by_cases h4 : is_open_direction_contained_in_arc K B.2 false
        (it.edge_start_angle, next.edge_start_angle) = true
    · by_cases h5 : K.counterclockwise_in_between B.2 B.1 next.edge_start_angle = true
      · simp only [h3, h4, h5, if_true, Bool.not_true, Bool.false_eq_true, if_false]
        rw [r.chain_count_inserted d md it _ next _ _ (plusplus_start it i)
          (plusplus_closed it i) ms me mT mF, base, reshape_plusplus]
        exact rank_split_round it.start_is_closed next.start_is_closed _ (hb _ ms) _ (hb _ me)
          _ (hb _ m1) _ (hb _ m2) _ (hb _ md) hB2 (n3 ▸ h3) (n4 ▸ h4) (n5 ▸ h5)
      · have h6 : K.counterclockwise_in_between B.2 B.1 next.edge_start_angle = false :=
          (Bool.not_eq_true _).mp h5
        simp only [h3, h4, h6, if_true, Bool.not_false, Bool.false_eq_true, if_false]
        rw [r.chain_count_inserted d md it _ next _ _ rfl rfl ms me mF mT, base,
          reshape_plusplus]
        exact rank_split_ordered it.start_is_closed next.start_is_closed _ (hb _ ms) _
          (hb _ me) _ (hb _ m1) _ (hb _ m2) _ (hb _ md) hB2 (n3 ▸ h3) (n4 ▸ h4) (n5 ▸ h6)
    · simp only [h3, h4, if_true, Bool.false_eq_true, if_false]
      rw [r.chain_count_inserted_one d md it _ next _ rfl rfl ms me mF, base, reshape_plusplus]
      exact rank_split_start it.start_is_closed next.start_is_closed _ (hb _ ms) _
        (hb _ me) _ (hb _ m1) _ (hb _ md) (n3 ▸ h3)
  · by_cases h4 : is_open_direction_contained_in_arc K B.2 false
        (it.edge_start_angle, next.edge_start_angle) = true
    · simp only [h3, h4, if_true, Bool.false_eq_true, if_false]
      rw [r.chain_count_inserted_one d md it _ next _ (plusplus_start it i)
        (plusplus_closed it i) ms me mT, base]
      exact rank_split_end it.start_is_closed next.start_is_closed _ (hb _ ms) _
        (hb _ me) _ (hb _ m2) _ (hb _ md) (n4 ▸ h4)
    · simp only [h3, h4, Bool.false_eq_true, if_false]

end split

set_option synthInstance.maxHeartbeats 400000 in
set_option synthInstance.maxSize 4096 in
/-- On ranks below 2: a single cell, which ends where it starts, contains every
direction. -/
theorem rank_single : ∀ sc : Bool, ∀ s : Nat, s < 2 → ∀ d : Nat, d < 2 →
    chain_count Rank_kernel d [rank_cell sc s] (rank_cell sc s) = 1 := by
  decide!

set_option synthInstance.maxHeartbeats 400000 in
set_option synthInstance.maxSize 4096 in
/-- On ranks below 3: the two cells of the constructor contain every direction
exactly once when the two ends of the arc differ. -/
theorem rank_ctor : ∀ s : Nat, s < 3 → ∀ e : Nat, e < 3 → ∀ d : Nat, d < 3 → s ≠ e →
    chain_count Rank_kernel d [rank_cell false s, rank_cell true e] (rank_cell false s) = 1 := by
  decide!

section partition

variable {K : Kernel}

/-- A pass of the loop changes neither the start point nor the start flag of
the examined cell. -/
theorem loop_body_fst_start (B : Arc K) (i : Nat) (sc ec : Bool) (edge : Arc K)
    (it next : Circle_arrangment_edge K) :
    (loop_body B i sc ec edge it next).1.edge_start_angle = it.edge_start_angle ∧
      (loop_body B i sc ec edge it next).1.start_is_closed = it.start_is_closed := by
  simp only [loop_body]
  split_ifs <;> simp only [plusplus_start, plusplus_closed, and_self]

/-- The loop of `add_segment_outer_circle` keeps, for every direction, the number
of cells that contain it: the examined cells with the cells inserted after them,
followed by the cells inserted before the first cell, contain a direction as
often as the cells the loop started from. -/
theorem add_loop_chain_count (hK : K.Lawful) (B : Arc K) (hB : B.1 ≠ B.2) (i : Nat)
    (first : Circle_arrangment_edge K) (d : K.Direction_2) (rest : Circle_edges K) :
    ∀ (c : Circle_arrangment_edge K) (flag : Bool),
      (∃ h tl, (add_loop B i first flag c.edge_start_angle (c :: rest)).2 = h :: tl ∧
        h.edge_start_angle = c.edge_start_angle ∧ h.start_is_closed = c.start_is_closed) ∧
      chain_count K d ((add_loop B i first flag c.edge_start_angle (c :: rest)).2 ++
        (add_loop B i first flag c.edge_start_angle (c :: rest)).1) first =
        chain_count K d (c :: rest) first := by
  induction rest with
  | nil =>
    intro c flag
    have hs := loop_body_fst_start B i (!flag) (!first.start_is_closed)
      (c.edge_start_angle, first.edge_start_angle) c first
    refine ⟨⟨_, [], rfl, hs.1, hs.2⟩, ?_⟩
    simp only [add_loop, List.singleton_append]
    exact loop_body_chain_count hK B hB i _ _ c first d
  | cons n rest2 ih =>
    intro c flag
    obtain ⟨⟨h, tl, e1, e2, e3⟩, e4⟩ := ih n (!n.start_is_closed)
    have hs := loop_body_fst_start B i (!flag) (!n.start_is_closed)
      (c.edge_start_angle, n.edge_start_angle) c n
    refine ⟨⟨_, _, rfl, hs.1, hs.2⟩, ?_⟩
    simp only [add_loop]
    rw [e1] at e4 ⊢
    have e5 : ((loop_body B i (!flag) (!n.start_is_closed)
          (c.edge_start_angle, n.edge_start_angle) c n).1 ::
        ((loop_body B i (!flag) (!n.start_is_closed)
          (c.edge_start_angle, n.edge_start_angle) c n).2 ++ h :: tl)) ++
        (add_loop B i first (!n.start_is_closed) n.edge_start_angle (n :: rest2)).1 =
        ((loop_body B i (!flag) (!n.start_is_closed)
          (c.edge_start_angle, n.edge_start_angle) c n).1 ::
        (loop_body B i (!flag) (!n.start_is_closed)
          (c.edge_start_angle, n.edge_start_angle) c n).2) ++ h ::
        (tl ++ (add_loop B i first (!n.start_is_closed) n.edge_start_angle (n :: rest2)).1) := by
      simp
    rw [e5, chain_count_append, chain_count_congr_term d _ h n e2 e3,
      loop_body_chain_count hK B hB i _ _ c n d]
    have e6 : chain_count K d (h :: (tl ++
        (add_loop B i first (!n.start_is_closed) n.edge_start_angle (n :: rest2)).1)) first =
        chain_count K d (n :: rest2) first := by
      rw [← e4]; rfl
    rw [e6]
    rfl

/-- The loop of `add_segment_outer_circle` keeps, for every direction, the
number of cells of the cyclic list that contain it. -/
theorem add_segment_outer_circle_loop_count (hK : K.Lawful) (B : Arc K) (hB : B.1 ≠ B.2)
    (i : Nat) (l : Circle_edges K) (d : K.Direction_2) :
    cyclic_count K d (Circle_arrangment.add_segment_outer_circle_loop l B i) =
      cyclic_count K d l := by
  cases l with
  | nil => rfl
  | cons first rest =>
    obtain ⟨⟨h, tl, e1, e2, e3⟩, e4⟩ :=
      add_loop_chain_count hK B hB i first d rest first first.start_is_closed
    simp only [Circle_arrangment.add_segment_outer_circle_loop]
    rw [cyclic_count_rotate]
    rw [e1] at e4 ⊢
    simp only [List.cons_append, cyclic_count] at e4 ⊢
    rw [chain_count_congr_term d _ h first e2 e3]
    exact e4

end partition

set_option synthInstance.maxHeartbeats 400000 in
set_option synthInstance.maxSize 4096 in
/-- On ranks below 5: when three consecutive cells have no direction in common
among their start points, the start point of the cell after them and `d`, the
first cell extended to the start of the third contains `d` exactly when the
first or the second cell does. -/
theorem rank_merge : ∀ xsc ysc zsc wsc : Bool, ∀ xs : Nat, xs < 5 → ∀ ys : Nat, ys < 5 →
    ∀ zs : Nat, zs < 5 → ∀ ws : Nat, ws < 5 → ∀ d : Nat, d < 5 →
    chain_count Rank_kernel xs [rank_cell xsc xs, rank_cell ysc ys, rank_cell zsc zs]
      (rank_cell wsc ws) ≤ 1 →
    chain_count Rank_kernel ys [rank_cell xsc xs, rank_cell ysc ys, rank_cell zsc zs]
      (rank_cell wsc ws) ≤ 1 →
    chain_count Rank_kernel zs [rank_cell xsc xs, rank_cell ysc ys, rank_cell zsc zs]
      (rank_cell wsc ws) ≤ 1 →
    chain_count Rank_kernel ws [rank_cell xsc xs, rank_cell ysc ys, rank_cell zsc zs]
      (rank_cell wsc ws) ≤ 1 →
    chain_count Rank_kernel d [rank_cell xsc xs, rank_cell ysc ys, rank_cell zsc zs]
      (rank_cell wsc ws) ≤ 1 →
    chain_count Rank_kernel d [rank_cell xsc xs, rank_cell zsc zs] (rank_cell wsc ws) =
      chain_count Rank_kernel d [rank_cell xsc xs, rank_cell ysc ys, rank_cell zsc zs]
        (rank_cell wsc ws) := by
  decide!

section merging

variable {K : Kernel}

theorem merge_three (hK : K.Lawful) (x y z w : Circle_arrangment_edge K)
    (h : ∀ t, chain_count K t [x, y, z] w ≤ 1) (d : K.Direction_2) :
    chain_count K d [x, z] w = chain_count K d [x, y, z] w := by
  obtain ⟨f, hb, he, hc⟩ := hK.rank [x.edge_start_angle, y.edge_start_angle,
    z.edge_start_angle, w.edge_start_angle, d]
  have r : Ranking K _ f := ⟨hb, he, hc⟩
  have mx : x.edge_start_angle ∈ [x.edge_start_angle, y.edge_start_angle,
    z.edge_start_angle, w.edge_start_angle, d] := by simp
  have my : y.edge_start_angle ∈ [x.edge_start_angle, y.edge_start_angle,
    z.edge_start_angle, w.edge_start_angle, d] := by simp
  have mz : z.edge_start_angle ∈ [x.edge_start_angle, y.edge_start_angle,
    z.edge_start_angle, w.edge_start_angle, d] := by simp
  have mw : w.edge_start_angle ∈ [x.edge_start_angle, y.edge_start_angle,
    z.edge_start_angle, w.edge_start_angle, d] := by simp
  have md : d ∈ [x.edge_start_angle, y.edge_start_angle,
    z.edge_start_angle, w.edge_start_angle, d] := by simp
  have m3 : ∀ c ∈ [x, y, z], c.edge_start_angle ∈ [x.edge_start_angle, y.edge_start_angle,
      z.edge_start_angle, w.edge_start_angle, d] := by
    intro c hc
    simp only [List.mem_cons, List.mem_singleton, List.not_mem_nil, or_false] at hc
    rcases hc with rfl | rfl | rfl
    · exact mx
    · exact my
    · exact mz
  have m2 : ∀ c ∈ [x, z], c.edge_start_angle ∈ [x.edge_start_angle, y.edge_start_angle,
      z.edge_start_angle, w.edge_start_angle, d] := by
    intro c hc
    simp only [List.mem_cons, List.mem_singleton, List.not_mem_nil, or_false] at hc
    rcases hc with rfl | rfl
    · exact mx
    · exact mz
  have tr : ∀ t ∈ [x.edge_start_angle, y.edge_start_angle,
      z.edge_start_angle, w.edge_start_angle, d],
      chain_count Rank_kernel (f t) [rank_cell x.start_is_closed (f x.edge_start_angle),
        rank_cell y.start_is_closed (f y.edge_start_angle),
        rank_cell z.start_is_closed (f z.edge_start_angle)]
        (rank_cell w.start_is_closed (f w.edge_start_angle)) ≤ 1 := by
    intro t ht
    have e := r.chain_count_eq t ht [x, y, z] w m3 mw
    have h1 := h t
    rw [e] at h1
    exact h1
  rw [r.chain_count_eq d md [x, z] w m2 mw, r.chain_count_eq d md [x, y, z] w m3 mw]
  exact rank_merge x.start_is_closed y.start_is_closed z.start_is_closed w.start_is_closed
    _ (hb _ mx) _ (hb _ my) _ (hb _ mz) _ (hb _ mw) _ (hb _ md)
    (tr _ mx) (tr _ my) (tr _ mz) (tr _ mw) (tr _ md)

theorem single_cell_count (hK : K.Lawful) (x : Circle_arrangment_edge K) (d : K.Direction_2) :
    chain_count K d [x] x = 1 := by
  obtain ⟨f, hb, he, hc⟩ := hK.rank [x.edge_start_angle, d]
  have r : Ranking K _ f := ⟨hb, he, hc⟩
  have mx : x.edge_start_angle ∈ [x.edge_start_angle, d] := by simp
  have md : d ∈ [x.edge_start_angle, d] := by simp
  rw [r.chain_count_eq d md [x] x (by intro c hc; rw [List.mem_singleton.mp hc]; exact mx) mx]
  exact rank_single x.start_is_closed _ (hb _ mx) _ (hb _ md)

/-- Erasing the second cell of a list whose cells partition the circle leaves a
list whose cells partition the circle: the first cell now ends where the erased
cell ended. -/
theorem partitions_erase_second (hK : K.Lawful) (x y : Circle_arrangment_edge K)
    (rest : Circle_edges K) (h : partitions K (x :: y :: rest)) :
    partitions K (x :: rest) := by
  intro d
  match rest, h with
  | [], _ => exact single_cell_count hK x d
  | [z], h =>
    have key := merge_three hK x y z x (fun t => le_of_eq (h t)) d
    have e := h d
    simp only [cyclic_count] at e ⊢
    rw [key]; exact e
  | z :: w :: rest2, h =>
    have split : ∀ t, cyclic_count K t (x :: y :: z :: w :: rest2) =
        chain_count K t [x, y, z] w + chain_count K t (w :: rest2) x := fun t =>
      chain_count_append t [x, y, z] w rest2 x
    have key := merge_three hK x y z w (fun t => by
      have := h t; rw [split t] at this; omega) d
    have e := h d
    rw [split d] at e
    have split2 : cyclic_count K d (x :: z :: w :: rest2) =
        chain_count K d [x, z] w + chain_count K d (w :: rest2) x :=
      chain_count_append d [x, z] w rest2 x
    rw [split2, key]; exact e

theorem partitions_erase (hK : K.Lawful) (pre : Circle_edges K)
    (x y : Circle_arrangment_edge K) (post : Circle_edges K)
    (h : partitions K (pre ++ x :: y :: post)) : partitions K (pre ++ x :: post) := by
  have h1 : partitions K (x :: y :: (post ++ pre)) := by
    intro d
    have := h d
    rw [cyclic_count_rotate] at this
    exact this
  have h2 := partitions_erase_second hK x y _ h1
  intro d
  rw [cyclic_count_rotate]
  exact h2 d

theorem partitions_sublist (hK : K.Lawful) (t1 t2 : Circle_edges K) (hsub : t2.Sublist t1) :
    ∀ (pre : Circle_edges K) (x : Circle_arrangment_edge K),
      partitions K (pre ++ x :: t1) → partitions K (pre ++ x :: t2) := by
  induction hsub with
  | slnil => intro pre x h; exact h
  | cons a _ ih =>
    intro pre x h
    exact ih pre x (partitions_erase hK pre x a _ h)
  | cons₂ a _ ih =>
    intro pre x h
    have h1 := ih (pre ++ [x]) a (by simpa using h)
    simpa using h1

theorem merge_loop_sublist (flag : Bool) (l : Circle_edges K) :
    (merge_loop flag l).Sublist l := by
  induction l generalizing flag with
  | nil => simp [merge_loop]
  | cons c rest ih =>
    unfold merge_loop
    split_ifs
    · exact List.Sublist.cons _ (ih _)
    · exact List.Sublist.cons₂ _ (ih _)
    · exact List.Sublist.cons₂ _ (ih _)

theorem merge_loop_false_cons (c : Circle_arrangment_edge K) (rest : Circle_edges K) :
    ∃ flag, merge_loop false (c :: rest) = c :: merge_loop flag rest := by
  by_cases hc : c.count = 2
  · exact ⟨true, merge_loop_true_of_covered c rest hc⟩
  · exact ⟨false, merge_loop_of_not_covered false c rest hc⟩

/-- The merge keeps the partition of the circle. -/
theorem partitions_merge (hK : K.Lawful) (l : Circle_edges K) (h : partitions K l) :
    partitions K (merge_adjacent_2_edges_and_remove_empty l) := by
  cases l with
  | nil => exact h
  | cons c rest =>
    obtain ⟨flag, e⟩ := merge_loop_false_cons c rest
    unfold merge_adjacent_2_edges_and_remove_empty
    rw [e]
    exact partitions_sublist hK rest _ (merge_loop_sublist flag rest) [] c h

theorem Kernel.Lawful.opposite_ne (hK : K.Lawful) (d : K.Direction_2) : d ≠ K.opposite d := by
  obtain ⟨ang, -, -, hopp, -⟩ := hK.exists_angle
  intro e
  rcases hopp d with h | h <;> rw [← e] at h <;> linarith

/-- The two cells of the constructor partition the circle when the two ends of
the arc differ. -/
theorem partitions_ctor (hK : K.Lawful) (arc : Arc K) (h : arc.1 ≠ arc.2) :
    partitions K (Circle_arrangment.ctor K arc).edges := by
  intro d
  obtain ⟨f, hb, he, hc⟩ := hK.rank [arc.1, arc.2, d]
  have r : Ranking K _ f := ⟨hb, he, hc⟩
  have m1 : arc.1 ∈ [arc.1, arc.2, d] := by simp
  have m2 : arc.2 ∈ [arc.1, arc.2, d] := by simp
  have md : d ∈ [arc.1, arc.2, d] := by simp
  simp only [Circle_arrangment.ctor, Circle_arrangment_edge.mk_edge, cyclic_count]
  rw [r.chain_count_eq d md _ _ (by
    intro c hc
    simp only [List.mem_cons, List.mem_singleton, List.not_mem_nil, or_false] at hc
    rcases hc with rfl | rfl
    · exact m1
    · exact m2) m1]
  exact rank_ctor _ (hb _ m1) _ (hb _ m2) _ (hb _ md)
    (fun e => h (by rw [r.eq_iff _ m1 _ m2]; exact e))

/-- A call of `add_segment_outer_circle` with an arc of two different ends keeps
the partition of the circle. -/
theorem partitions_add (hK : K.Lawful) (a : Circle_arrangment K) (h : partitions K a.edges)
    (B : Arc K) (hB : B.1 ≠ B.2) (i : Nat) :
    partitions K (a.add_segment_outer_circle B i).edges := by
  apply partitions_merge hK
  intro d
  rw [add_segment_outer_circle_loop_count hK B hB i a.edges d]
  exact h d

theorem partitions_add_all (hK : K.Lawful) (calls : List (Arc K × Nat))
    (hcalls : ∀ c ∈ calls, is_half_circle K c.1) (a : Circle_arrangment K)
    (h : partitions K a.edges) : partitions K (add_all a calls).edges := by
  induction calls generalizing a with
  | nil => exact h
  | cons c rest ih =>
    have hc : is_half_circle K c.1 := hcalls c (List.mem_cons_self _ _)
    have hne : c.1.1 ≠ c.1.2 := by
      rw [hc]; exact hK.opposite_ne _
    exact ih (fun c2 h2 => hcalls c2 (List.mem_cons_of_mem _ h2)) _
      (partitions_add hK a h c.1 hne c.2)

end merging

/-- C2: in a lawful kernel, after the constructor and any number of calls of
`add_segment_outer_circle`, all with half-circle arcs, every direction belongs to
exactly one cell of the arrangement. -/
theorem C2_every_direction_in_exactly_one_cell (K : Kernel) (hK : K.Lawful) (a_0 : Arc K)
    (calls : List (Arc K × Nat)) (h0 : is_half_circle K a_0)
    (hcalls : ∀ c ∈ calls, is_half_circle K c.1) (d : K.Direction_2) :
    (cells_containing (add_all (Circle_arrangment.ctor K a_0) calls) d).length = 1 := by
  rw [cells_containing_length]
  have hne : a_0.1 ≠ a_0.2 := by
    rw [h0]; exact hK.opposite_ne _
  exact partitions_add_all hK calls hcalls _ (partitions_ctor hK a_0 hne) d

set_option synthInstance.maxHeartbeats 400000 in
set_option synthInstance.maxSize 4096 in
/-- On ranks below 4: when three consecutive cells have no direction in common
among their start points, the start point of the cell after them and a
direction `q` other than the start of the first, and the first two start at the
same point, then their start flags differ. -/
theorem rank_no_empty_cell : ∀ csc nsc msc wsc : Bool, ∀ p : Nat, p < 4 → ∀ ms : Nat, ms < 4 →
    ∀ ws : Nat, ws < 4 → ∀ q : Nat, q < 4 → q ≠ p →
    chain_count Rank_kernel p [rank_cell csc p, rank_cell nsc p, rank_cell msc ms]
      (rank_cell wsc ws) ≤ 1 →
    chain_count Rank_kernel ms [rank_cell csc p, rank_cell nsc p, rank_cell msc ms]
      (rank_cell wsc ws) ≤ 1 →
    chain_count Rank_kernel ws [rank_cell csc p, rank_cell nsc p, rank_cell msc ms]
      (rank_cell wsc ws) ≤ 1 →
    chain_count Rank_kernel q [rank_cell csc p, rank_cell nsc p, rank_cell msc ms]
      (rank_cell wsc ws) ≤ 1 →
    csc ≠ nsc := by
  decide!

set_option synthInstance.maxHeartbeats 400000 in
set_option synthInstance.maxSize 4096 in
/-- Two cells that make up the whole list, start at the same point and have no
direction in common have different start flags. -/
theorem rank_no_empty_cell_of_two : ∀ csc nsc : Bool, ∀ p : Nat, p < 1 →
    chain_count Rank_kernel p [rank_cell csc p, rank_cell nsc p] (rank_cell csc p) ≤ 1 →
    csc ≠ nsc := by
  decide

section no_empty_cell

variable {K : Kernel}

theorem zip_tail_mem (c n t : Circle_arrangment_edge K) (l : Circle_edges K)
    (h : (c, n) ∈ l.zip (l.tail ++ [t])) :
    (∃ pre post, l = pre ++ c :: n :: post) ∨ (n = t ∧ ∃ pre, l = pre ++ [c]) := by
  induction l with
  | nil => simp at h
  | cons a rest ih =>
    cases rest with
    | nil =>
      simp only [List.tail_cons, List.nil_append, List.zip_cons_cons, List.zip_nil_right,
        List.mem_singleton, Prod.mk.injEq] at h
      exact Or.inr ⟨h.2, [], by rw [h.1]; rfl⟩
    | cons b rest2 =>
      simp only [List.tail_cons, List.cons_append, List.zip_cons_cons, List.mem_cons,
        Prod.mk.injEq] at h ih
      rcases h with ⟨rfl, rfl⟩ | h
      · exact Or.inl ⟨[], rest2, rfl⟩
      · rcases ih h with ⟨pre, post, e⟩ | ⟨e1, pre, e⟩
        · exact Or.inl ⟨a :: pre, post, by rw [e]; rfl⟩
        · exact Or.inr ⟨e1, a :: pre, by rw [e]; rfl⟩

theorem cyclic_pairs_rotate (l : Circle_edges K) (hlen : l.length ≠ 1)
    (c n : Circle_arrangment_edge K) (h : (c, n) ∈ cyclic_pairs l) :
    ∃ xs ys rest, l = xs ++ ys ∧ ys ++ xs = c :: n :: rest := by
  cases l with
  | nil => simp [cyclic_pairs, cyclic_next] at h
  | cons first tl =>
    simp only [cyclic_pairs, cyclic_next] at h
    rcases zip_tail_mem c n first (first :: tl) h with ⟨pre, post, e⟩ | ⟨e1, pre, e⟩
    · exact ⟨pre, c :: n :: post, post ++ pre, e, rfl⟩
    · cases pre with
      | nil =>
        rw [e] at hlen
        simp at hlen
      | cons a pre2 =>
        have ha : first = a := by
          have := congrArg List.head? e
          simpa using this
        refine ⟨a :: pre2, [c], pre2, e, ?_⟩
        rw [e1, ha]; rfl

theorem partitions_rotate (xs ys : Circle_edges K) (h : partitions K (xs ++ ys)) :
    partitions K (ys ++ xs) := by
  intro d
  rw [cyclic_count_rotate]
  exact h d

theorem no_empty_cell_front (hK : K.Lawful) (c n : Circle_arrangment_edge K)
    (rest : Circle_edges K) (h : partitions K (c :: n :: rest))
    (hs : c.edge_start_angle = n.edge_start_angle) :
    c.start_is_closed ≠ n.start_is_closed := by
  match rest, h with
  | [], h =>
    obtain ⟨f, hb, he, hc⟩ := hK.rank [c.edge_start_angle]
    have r : Ranking K _ f := ⟨hb, he, hc⟩
    have mc : c.edge_start_angle ∈ [c.edge_start_angle] := by simp
    have h1 := h c.edge_start_angle
    simp only [cyclic_count] at h1
    rw [r.chain_count_eq _ mc [c, n] c (by
      intro x hx
      simp only [List.mem_cons, List.mem_singleton, List.not_mem_nil, or_false] at hx
      rcases hx with rfl | rfl
      · exact mc
      · rw [← hs]; exact mc) mc] at h1
    simp only [List.map_cons, List.map_nil, reshape, ← hs] at h1
    exact rank_no_empty_cell_of_two _ _ _ (hb _ mc) (le_of_eq h1)
  | [m], h =>
    obtain ⟨f, hb, he, hc⟩ := hK.rank [c.edge_start_angle, m.edge_start_angle,
      c.edge_start_angle, K.opposite c.edge_start_angle]
    have r : Ranking K _ f := ⟨hb, he, hc⟩
    have mc : c.edge_start_angle ∈ [c.edge_start_angle, m.edge_start_angle,
      c.edge_start_angle, K.opposite c.edge_start_angle] := by simp
    have mm : m.edge_start_angle ∈ [c.edge_start_angle, m.edge_start_angle,
      c.edge_start_angle, K.opposite c.edge_start_angle] := by simp
    have mq : K.opposite c.edge_start_angle ∈ [c.edge_start_angle, m.edge_start_angle,
      c.edge_start_angle, K.opposite c.edge_start_angle] := by simp
    have m3 : ∀ x ∈ [c, n, m], x.edge_start_angle ∈ [c.edge_start_angle, m.edge_start_angle,
        c.edge_start_angle, K.opposite c.edge_start_angle] := by
      intro x hx
      simp only [List.mem_cons, List.mem_singleton, List.not_mem_nil, or_false] at hx
      rcases hx with rfl | rfl | rfl
      · exact mc
      · rw [← hs]; exact mc
      · exact mm
    have tr : ∀ t ∈ [c.edge_start_angle, m.edge_start_angle,
        c.edge_start_angle, K.opposite c.edge_start_angle],
        chain_count Rank_kernel (f t) [rank_cell c.start_is_closed (f c.edge_start_angle),
          rank_cell n.start_is_closed (f c.edge_start_angle),
          rank_cell m.start_is_closed (f m.edge_start_angle)]
          (rank_cell c.start_is_closed (f c.edge_start_angle)) ≤ 1 := by
      intro t ht
      have h1 := h t
      simp only [cyclic_count] at h1
      rw [r.chain_count_eq t ht [c, n, m] c m3 mc] at h1
      simp only [List.map_cons, List.map_nil, reshape, ← hs] at h1
      exact le_of_eq h1
    exact rank_no_empty_cell _ _ _ _ _ (hb _ mc) _ (hb _ mm) _ (hb _ mc) _ (hb _ mq)
      (fun e => hK.opposite_ne c.edge_start_angle (by rw [r.eq_iff _ mc _ mq]; exact e.symm))
      (tr _ mc) (tr _ mm) (tr _ mc) (tr _ mq)
  | m :: w :: rest2, h =>
    obtain ⟨f, hb, he, hc⟩ := hK.rank [c.edge_start_angle, m.edge_start_angle,
      w.edge_start_angle, K.opposite c.edge_start_angle]
    have r : Ranking K _ f := ⟨hb, he, hc⟩
    have mc : c.edge_start_angle ∈ [c.edge_start_angle, m.edge_start_angle,
      w.edge_start_angle, K.opposite c.edge_start_angle] := by simp
    have mm : m.edge_start_angle ∈ [c.edge_start_angle, m.edge_start_angle,
      w.edge_start_angle, K.opposite c.edge_start_angle] := by simp
    have mw : w.edge_start_angle ∈ [c.edge_start_angle, m.edge_start_angle,
      w.edge_start_angle, K.opposite c.edge_start_angle] := by simp
    have mq : K.opposite c.edge_start_angle ∈ [c.edge_start_angle, m.edge_start_angle,
      w.edge_start_angle, K.opposite c.edge_start_angle] := by simp
    have m3 : ∀ x ∈ [c, n, m], x.edge_start_angle ∈ [c.edge_start_angle, m.edge_start_angle,
        w.edge_start_angle, K.opposite c.edge_start_angle] := by
      intro x hx
      simp only [List.mem_cons, List.mem_singleton, List.not_mem_nil, or_false] at hx
      rcases hx with rfl | rfl | rfl
      · exact mc
      · rw [← hs]; exact mc
      · exact mm
    have tr : ∀ t ∈ [c.edge_start_angle, m.edge_start_angle,
        w.edge_start_angle, K.opposite c.edge_start_angle],
        chain_count Rank_kernel (f t) [rank_cell c.start_is_closed (f c.edge_start_angle),
          rank_cell n.start_is_closed (f c.edge_start_angle),
          rank_cell m.start_is_closed (f m.edge_start_angle)]
          (rank_cell w.start_is_closed (f w.edge_start_angle)) ≤ 1 := by
      intro t ht
      have h1 := h t
      have split : cyclic_count K t (c :: n :: m :: w :: rest2) =
          chain_count K t [c, n, m] w + chain_count K t (w :: rest2) c :=
        chain_count_append t [c, n, m] w rest2 c
      rw [split] at h1
      have h2 : chain_count K t [c, n, m] w ≤ 1 := by omega
      rw [r.chain_count_eq t ht [c, n, m] w m3 mw] at h2
      simp only [List.map_cons, List.map_nil, reshape, ← hs] at h2
      exact h2
    exact rank_no_empty_cell _ _ _ _ _ (hb _ mc) _ (hb _ mm) _ (hb _ mw) _ (hb _ mq)
      (fun e => hK.opposite_ne c.edge_start_angle (by rw [r.eq_iff _ mc _ mq]; exact e.symm))
      (tr _ mc) (tr _ mm) (tr _ mw) (tr _ mq)

/-- In a list of at least two cells that partition the circle, two cyclically
consecutive cells with the same start point have different start flags. -/
theorem no_empty_cell (hK : K.Lawful) (l : Circle_edges K) (h : partitions K l)
    (hlen : l.length ≠ 1) :
    ∀ p ∈ cyclic_pairs l, p.1.edge_start_angle = p.2.edge_start_angle →
      p.1.start_is_closed ≠ p.2.start_is_closed := by
  intro p hp hs
  obtain ⟨xs, ys, rest, e1, e2⟩ := cyclic_pairs_rotate l hlen p.1 p.2 hp
  have h2 : partitions K (p.1 :: p.2 :: rest) := by
    rw [← e2]; apply partitions_rotate; rw [← e1]; exact h
  exact no_empty_cell_front hK p.1 p.2 rest h2 hs

end no_empty_cell

/-! ## The kernel with integer coordinates is lawful -/

namespace Int_direction

theorem ne_zero (d : Int_direction) : d.dx ≠ 0 ∨ d.dy ≠ 0 := by
  by_contra h
  push_neg at h
  have := d.lowest_terms
  rw [h.1, h.2] at this
  simp at this

theorem quadrant_den_pos (d : Int_direction) : 0 < d.quadrant_den := by
  have := d.ne_zero
  unfold quadrant_den
  split_ifs <;> omega

theorem quadrant_cases (d : Int_direction) :
    (d.quadrant = 1 ∧ 0 ≤ d.quadrant_num ∧ d.quadrant_num ≤ d.quadrant_den) ∨
      (d.quadrant = 2 ∧ 0 < d.quadrant_num ∧ d.quadrant_num ≤ d.quadrant_den) ∨
      (d.quadrant = 3 ∧ 0 < d.quadrant_num ∧ d.quadrant_num < d.quadrant_den) ∨
      (d.quadrant = 4 ∧ 0 ≤ d.quadrant_num ∧ d.quadrant_num < d.quadrant_den) := by
  have hz := d.ne_zero
  unfold quadrant quadrant_num quadrant_den
  split_ifs
  · left; exact ⟨rfl, by omega, by omega⟩
  · right; right; right; exact ⟨rfl, by omega, by omega⟩
  · right; left; exact ⟨rfl, by omega, by omega⟩
  · right; right; left; exact ⟨rfl, by omega, by omega⟩

theorem same_quadrant_det (d1 d2 : Int_direction) (h : d1.quadrant = d2.quadrant) :
    d1.quadrant_num * d2.quadrant_den - d2.quadrant_num * d1.quadrant_den =
      -(d1.dx * d2.dy - d2.dx * d1.dy) := by
  unfold quadrant at h
  unfold quadrant_num quadrant_den
  split_ifs at h ⊢ <;> first | (exfalso; omega) | ring1

/-- The quadrant of a direction with the bounds of its position inside the
quadrant, a rational in `[0, 1]`: the quadrants are half-open. -/
theorem frac_cases (d : Int_direction) :
    (d.quadrant = 1 ∧ 0 ≤ (d.quadrant_num : ℚ) / (d.quadrant_den : ℚ) ∧
        (d.quadrant_num : ℚ) / (d.quadrant_den : ℚ) ≤ 1) ∨
      (d.quadrant = 2 ∧ 0 < (d.quadrant_num : ℚ) / (d.quadrant_den : ℚ) ∧
        (d.quadrant_num : ℚ) / (d.quadrant_den : ℚ) ≤ 1) ∨
      (d.quadrant = 3 ∧ 0 < (d.quadrant_num : ℚ) / (d.quadrant_den : ℚ) ∧
        (d.quadrant_num : ℚ) / (d.quadrant_den : ℚ) < 1) ∨
      (d.quadrant = 4 ∧ 0 ≤ (d.quadrant_num : ℚ) / (d.quadrant_den : ℚ) ∧
        (d.quadrant_num : ℚ) / (d.quadrant_den : ℚ) < 1) := by
  have hd : (0 : ℚ) < d.quadrant_den := by exact_mod_cast d.quadrant_den_pos
  rcases quadrant_cases d with ⟨h, l, u⟩ | ⟨h, l, u⟩ | ⟨h, l, u⟩ | ⟨h, l, u⟩
  · exact Or.inl ⟨h, div_nonneg (by exact_mod_cast l) hd.le,
      (div_le_one hd).mpr (by exact_mod_cast u)⟩
  · exact Or.inr (Or.inl ⟨h, div_pos (by exact_mod_cast l) hd,
      (div_le_one hd).mpr (by exact_mod_cast u)⟩)
  · exact Or.inr (Or.inr (Or.inl ⟨h, div_pos (by exact_mod_cast l) hd,
      (div_lt_one hd).mpr (by exact_mod_cast u)⟩))
  · exact Or.inr (Or.inr (Or.inr ⟨h, div_nonneg (by exact_mod_cast l) hd.le,
      (div_lt_one hd).mpr (by exact_mod_cast u)⟩))

/-- The comparison of directions by quadrant and determinant is the comparison
of their angles along the square. -/
theorem angle_lt_iff (d1 d2 : Int_direction) :
    angle_lt d1 d2 = true ↔ d1.square_angle < d2.square_angle := by
  have hd1 : (0 : ℚ) < d1.quadrant_den := by exact_mod_cast d1.quadrant_den_pos
  have hd2 : (0 : ℚ) < d2.quadrant_den := by exact_mod_cast d2.quadrant_den_pos
  have same : d1.quadrant = d2.quadrant →
      ((d1.quadrant_num : ℚ) / d1.quadrant_den < (d2.quadrant_num : ℚ) / d2.quadrant_den ↔
        0 < d1.dx * d2.dy - d2.dx * d1.dy) := by
    intro h
    rw [div_lt_div_iff₀ hd1 hd2]
    have e := same_quadrant_det d1 d2 h
    have e2 : ((d1.quadrant_num : ℚ) * d2.quadrant_den - d2.quadrant_num * d1.quadrant_den) =
        -(((d1.dx * d2.dy - d2.dx * d1.dy : ℤ)) : ℚ) := by
      exact_mod_cast e
    constructor
    · intro hlt
      have : (0 : ℚ) < ((d1.dx * d2.dy - d2.dx * d1.dy : ℤ) : ℚ) := by linarith
      exact_mod_cast this
    · intro hpos
      have : (0 : ℚ) < ((d1.dx * d2.dy - d2.dx * d1.dy : ℤ) : ℚ) := by exact_mod_cast hpos
      linarith
  unfold angle_lt square_angle
  rcases frac_cases d1 with ⟨h1, l1, u1⟩ | ⟨h1, l1, u1⟩ | ⟨h1, l1, u1⟩ | ⟨h1, l1, u1⟩ <;>
  rcases frac_cases d2 with ⟨h2, l2, u2⟩ | ⟨h2, l2, u2⟩ | ⟨h2, l2, u2⟩ | ⟨h2, l2, u2⟩ <;>
  simp only [h1, h2, Nat.lt_irrefl, if_false, if_true, Nat.reduceLT, Bool.false_eq_true,
    false_iff, true_iff, not_lt, decide_eq_true_eq, Nat.cast_ofNat, Nat.cast_one] <;>
  first
  | linarith
  | (rw [← same (h1.trans h2.symm)]; constructor <;> intro h <;> linarith)

end Int_direction

namespace Int_direction

theorem quadrant_eq_signs (d1 d2 : Int_direction) (h : d1.quadrant = d2.quadrant) :
    (0 ≤ d1.dx ↔ 0 ≤ d2.dx) ∧ (0 ≤ d1.dy ↔ 0 ≤ d2.dy) := by
  unfold quadrant at h
  split_ifs at h <;> first | (exfalso; omega) | (constructor <;> constructor <;> intro <;> omega)

theorem eq_of_dvd_dvd_of_sign (a b : Int) (h1 : a ∣ b) (h2 : b ∣ a) (hs : 0 ≤ a ↔ 0 ≤ b) :
    a = b := by
  rcases Int.natAbs_eq_natAbs_iff.mp (Int.natAbs_eq_of_dvd_dvd h1 h2) with h | h
  · exact h
  · by_cases ha : 0 ≤ a
    · have := hs.mp ha; omega
    · have : ¬ 0 ≤ b := fun hb => ha (hs.mpr hb)
      omega

theorem eq_of_same_quadrant_of_det (d1 d2 : Int_direction) (h : d1.quadrant = d2.quadrant)
    (hdet : d1.dx * d2.dy - d2.dx * d1.dy = 0) : d1 = d2 := by
  obtain ⟨sx, sy⟩ := quadrant_eq_signs d1 d2 h
  have e : d1.dx * d2.dy = d2.dx * d1.dy := by linarith
  have g1 := d1.lowest_terms
  have g2 := d2.lowest_terms
  have x12 : d1.dx ∣ d2.dx :=
    Int.dvd_of_dvd_mul_left_of_gcd_one (Dvd.intro _ e) g1
  have x21 : d2.dx ∣ d1.dx :=
    Int.dvd_of_dvd_mul_left_of_gcd_one (Dvd.intro _ e.symm) g2
  have y12 : d1.dy ∣ d2.dy :=
    Int.dvd_of_dvd_mul_right_of_gcd_one (Dvd.intro_left _ e.symm) (by rw [Int.gcd_comm]; exact g1)
  have y21 : d2.dy ∣ d1.dy :=
    Int.dvd_of_dvd_mul_right_of_gcd_one (Dvd.intro_left _ e) (by rw [Int.gcd_comm]; exact g2)
  have ex := eq_of_dvd_dvd_of_sign _ _ x12 x21 sx
  have ey := eq_of_dvd_dvd_of_sign _ _ y12 y21 sy
  cases d1; cases d2
  simp only at ex ey
  subst ex ey
  rfl

/-- A direction in lowest terms is determined by its angle along the square. -/
theorem square_angle_injective : Function.Injective square_angle := by
  intro d1 d2 h
  have n1 : ¬ angle_lt d1 d2 = true := by rw [angle_lt_iff, h]; exact lt_irrefl _
  have n2 : ¬ angle_lt d2 d1 = true := by rw [angle_lt_iff, h]; exact lt_irrefl _
  unfold angle_lt at n1 n2
  have hq : d1.quadrant = d2.quadrant := by
    by_contra hne
    rcases Nat.lt_or_gt_of_ne hne with hlt | hlt
    · simp [hlt, Nat.lt_asymm hlt] at n1
    · simp [hlt, Nat.lt_asymm hlt] at n2
  simp only [hq, Nat.lt_irrefl, if_false, decide_eq_true_eq, not_lt] at n1 n2
  exact eq_of_same_quadrant_of_det d1 d2 hq (by linarith)

theorem square_angle_range (d : Int_direction) : 0 ≤ d.square_angle ∧ d.square_angle < 1 := by
  unfold square_angle
  rcases frac_cases d with ⟨h1, l1, u1⟩ | ⟨h1, l1, u1⟩ | ⟨h1, l1, u1⟩ | ⟨h1, l1, u1⟩ <;>
    simp only [h1, Nat.cast_ofNat, Nat.cast_one] <;>
    constructor <;> linarith

theorem opposite_cases (d : Int_direction) :
    ((opposite d).quadrant = d.quadrant + 2 ∧ (opposite d).quadrant_num = d.quadrant_num ∧
        (opposite d).quadrant_den = d.quadrant_den) ∨
      ((opposite d).quadrant + 2 = d.quadrant ∧ (opposite d).quadrant_num = d.quadrant_num ∧
        (opposite d).quadrant_den = d.quadrant_den) ∨
      ((opposite d).quadrant = d.quadrant + 1 ∧ d.quadrant_num = 0 ∧
        (opposite d).quadrant_num = (opposite d).quadrant_den) ∨
      ((opposite d).quadrant = d.quadrant + 3 ∧ d.quadrant_num = d.quadrant_den ∧
        (opposite d).quadrant_num = 0) ∨
      ((opposite d).quadrant + 1 = d.quadrant ∧ d.quadrant_num = d.quadrant_den ∧
        (opposite d).quadrant_num = 0) ∨
      ((opposite d).quadrant + 3 = d.quadrant ∧ d.quadrant_num = 0 ∧
        (opposite d).quadrant_num = (opposite d).quadrant_den) := by
  have hz := d.ne_zero
  unfold quadrant quadrant_num quadrant_den opposite
  simp only
  split_ifs <;> omega

/-- The opposite direction is half a turn away. -/
theorem square_angle_opposite (d : Int_direction) :
    (opposite d).square_angle = d.square_angle + 1 / 2 ∨
      (opposite d).square_angle = d.square_angle - 1 / 2 := by
  have hd : ((d.quadrant_den : ℤ) : ℚ) ≠ 0 := by
    exact_mod_cast (ne_of_gt d.quadrant_den_pos)
  have hd2 : (((opposite d).quadrant_den : ℤ) : ℚ) ≠ 0 := by
    exact_mod_cast (ne_of_gt (opposite d).quadrant_den_pos)
  unfold square_angle
  rcases opposite_cases d with ⟨h1, h2, h3⟩ | ⟨h1, h2, h3⟩ | ⟨h1, h2, h3⟩ | ⟨h1, h2, h3⟩ |
    ⟨h1, h2, h3⟩ | ⟨h1, h2, h3⟩
  · left; rw [h1, h2, h3]; push_cast; ring
  · right; rw [← h1, h2, h3]; push_cast; ring
  · left; rw [h1, h2, h3, div_self hd2]; push_cast; ring
  · left; rw [h1, h2, h3, div_self hd]; push_cast; ring
  · right; rw [← h1, h2, h3, div_self hd]; push_cast; ring
  · right; rw [← h1, h2, h3, div_self hd2]; push_cast; ring

end Int_direction

/-- The kernel with integer coordinates is lawful: the angle of a direction is
its angle along the square, `square_angle`. -/
theorem Int_kernel_lawful : Int_kernel.Lawful := by
  refine ⟨fun d => ((Int_direction.square_angle d : ℚ) : ℝ), ?_, ?_, ?_, ?_⟩
  · intro d1 d2 h
    exact Int_direction.square_angle_injective (Rat.cast_injective h)
  · intro d
    obtain ⟨h1, h2⟩ := Int_direction.square_angle_range d
    constructor
    · show (0 : ℝ) ≤ ((Int_direction.square_angle d : ℚ) : ℝ)
      exact_mod_cast h1
    · show ((Int_direction.square_angle d : ℚ) : ℝ) < 1
      exact_mod_cast h2
  · intro d
    rcases Int_direction.square_angle_opposite d with h | h
    · left
      show ((Int_direction.square_angle (Int_direction.opposite d) : ℚ) : ℝ) = _
      rw [h]; push_cast; ring
    · right
      show ((Int_direction.square_angle (Int_direction.opposite d) : ℚ) : ℝ) = _
      rw [h]; push_cast; ring
  · intro d d1 d2
    show Int_direction.counterclockwise_in_between d d1 d2 = true ↔ _
    unfold Int_direction.counterclockwise_in_between
    have e1 := Int_direction.angle_lt_iff d1 d
    have e2 := Int_direction.angle_lt_iff d d2
    have e3 := Int_direction.angle_lt_iff d1 d2
    simp only [Rat.cast_lt, Rat.cast_le]
    by_cases c1 : Int_direction.angle_lt d1 d = true
    · simp only [c1, if_true, e1.mp c1, Bool.or_eq_true, Bool.not_eq_true', ← e2]
      rw [← not_lt, ← e3, Bool.not_eq_true]
    · have c2 : ¬ d1.square_angle < d.square_angle := fun h => c1 (e1.mpr h)
      simp only [c1, c2, if_false, Bool.and_eq_true, Bool.not_eq_true', ← e2,
        Bool.false_eq_true]
      rw [← not_lt, ← e3, Bool.not_eq_true]

/-- Witness of C2: the integer kernel, the arcs (east, west) and (north, south),
the direction north. -/
theorem C2_witness :
    Int_kernel.Lawful ∧ is_half_circle Int_kernel (east, west) ∧
      (∀ c ∈ ([((north, south), 1)] : List (Arc Int_kernel × Nat)),
        is_half_circle Int_kernel c.1) ∧
      (cells_containing
        (add_all (Circle_arrangment.ctor Int_kernel (east, west)) [((north, south), 1)])
        north).length = 1 :=
  ⟨Int_kernel_lawful, by decide, by decide,
    C2_every_direction_in_exactly_one_cell Int_kernel Int_kernel_lawful (east, west)
      [((north, south), 1)] (by decide) (by decide) north⟩

/-- Witness of C5: the integer kernel, the notched polygon, and the single cell
of count 2 that starts at east. -/
theorem C5_witness :
    find_single_mold_translational_casting_2 notched_polygon =
        casting_without_early_exit notched_polygon ∧
      ((Circle_arrangment.mk [covered_cell_east]).add_segment_outer_circle (north, south) 5 =
          Circle_arrangment.mk [covered_cell_east] ∧
        (Circle_arrangment.mk [covered_cell_east]).get_all_1_edges = []) :=
  ⟨(C5_early_exit_is_an_optimisation Int_kernel).1 notched_polygon,
    (C5_early_exit_is_an_optimisation Int_kernel).2 covered_cell_east rfl (north, south) 5⟩

/-- Witness of C6: the integer kernel and six half-circle arcs after which the
arrangement is one cell. -/
theorem C6_witness :
    (add_all (Circle_arrangment.ctor Int_kernel (south, north))
        (numbered 1 [(west, east), (south, north), (west, east), (east, west),
          (east, west)])).edges.length = 1 ∧
      ∀ c ∈ (add_all (Circle_arrangment.ctor Int_kernel (south, north))
        (numbered 1 [(west, east), (south, north), (west, east), (east, west),
          (east, west)])).edges, c.count = 2 :=
  ⟨by decide, (C6_all_is_covered_twice_iff Int_kernel (south, north)
    (numbered 1 [(west, east), (south, north), (west, east), (east, west),
      (east, west)])).2 (by decide)⟩

/-! ## The unit square -/

section passes

variable {K : Kernel}

theorem add_loop_eq_passes (B : Arc K) (i : Nat) (first : Circle_arrangment_edge K)
    (flag : Bool) (sec : K.Direction_2) (l : Circle_edges K) :
    (add_loop B i first flag sec l).2 ++ (add_loop B i first flag sec l).1 =
      (add_loop_passes first flag sec l).flatMap fun p => (p.run B i).1 :: (p.run B i).2 := by
  induction l generalizing flag sec with
  | nil => rfl
  | cons c rest ih =>
    cases rest with
    | nil => simp [add_loop, add_loop_passes, Pass.run]
    | cons n rest2 =>
      have := ih (!n.start_is_closed) n.edge_start_angle
      simp only [add_loop, add_loop_passes, List.flatMap_cons, List.cons_append,
        List.append_assoc, Pass.run] at this ⊢
      rw [this]

theorem add_loop_passes_pairs (first : Circle_arrangment_edge K) (flag : Bool)
    (sec : K.Direction_2) (l : Circle_edges K) :
    (add_loop_passes first flag sec l).map (fun p => (p.it, p.next)) =
      l.zip (l.tail ++ [first]) := by
  induction l generalizing flag sec with
  | nil => rfl
  | cons c rest ih =>
    cases rest with
    | nil => simp [add_loop_passes]
    | cons n rest2 =>
      have := ih (!n.start_is_closed) n.edge_start_angle
      simp only [add_loop_passes, List.map_cons, List.tail_cons, List.cons_append,
        List.zip_cons_cons] at this ⊢
      rw [this]

theorem loop_passes_pairs (l : Circle_edges K) :
    (loop_passes l).map (fun p => (p.it, p.next)) = cyclic_pairs l := by
  cases l with
  | nil => rfl
  | cons first rest => exact add_loop_passes_pairs first _ _ _

theorem add_loop_passes_edge (first : Circle_arrangment_edge K) (flag : Bool)
    (c : Circle_arrangment_edge K) (rest : Circle_edges K) :
    ∀ p ∈ add_loop_passes first flag c.edge_start_angle (c :: rest),
      p.edge = (p.it.edge_start_angle, p.next.edge_start_angle) ∧
        p.is_end_closed_segment = !p.next.start_is_closed := by
  induction rest generalizing flag c with
  | nil => intro p hp; simp only [add_loop_passes, List.mem_singleton] at hp; rw [hp]; exact ⟨rfl, rfl⟩
  | cons n rest2 ih =>
    intro p hp
    simp only [add_loop_passes, List.mem_cons] at hp
    rcases hp with rfl | hp
    · exact ⟨rfl, rfl⟩
    · exact ih _ n p hp

theorem add_loop_passes_start_flags (first : Circle_arrangment_edge K) (flag : Bool)
    (sec : K.Direction_2) (c : Circle_arrangment_edge K) (rest : Circle_edges K) :
    (add_loop_passes first flag sec (c :: rest)).map (fun p => p.is_start_closed_segment) =
      (!flag) :: rest.map fun x => x.start_is_closed := by
  induction rest generalizing flag sec c with
  | nil => simp [add_loop_passes]
  | cons n rest2 ih =>
    have := ih (!n.start_is_closed) n.edge_start_angle n
    simp only [add_loop_passes, List.map_cons, Bool.not_not] at this ⊢
    rw [this]

end passes

/-! ## The increment, the merge, the flags of the passes and the inserted cells -/

section passes_claims

variable {K : Kernel}

theorem merge_loop_eq_spec (l : Circle_edges K) :
    ∀ (flag : Bool) (before : Option (Circle_arrangment_edge K)),
      (flag = true ↔ ∃ b, before = some b ∧ b.count = 2) →
      merge_loop flag l =
        ((l.zip (before :: l.map some)).filter fun p => kept_by_merge p.2 p.1).map Prod.fst := by
  induction l with
  | nil => intro flag before _; rfl
  | cons c rest ih =>
    intro flag before hflag
    by_cases hc : c.count = 2
    · have ih1 := ih true (some c) (by simp [hc])
      cases flag with
      | true =>
        obtain ⟨b, rfl, hb⟩ := hflag.mp rfl
        simp only [merge_loop, Circle_arrangment_edge.is_covered, hc, decide_True, if_true,
          List.map_cons, List.zip_cons_cons, List.filter_cons, kept_by_merge, hb,
          Bool.and_self, Bool.not_true, Bool.false_eq_true, if_false]
        exact ih1
      | false =>
        have hk : kept_by_merge before c = true := by
          cases before with
          | none => rfl
          | some b =>
            have hb : b.count ≠ 2 := fun hb => by
              have := hflag.mpr ⟨b, rfl, hb⟩
              exact absurd this (by simp)
            simp [kept_by_merge, hb]
        simp only [merge_loop, Circle_arrangment_edge.is_covered, hc, decide_True, if_true,
          Bool.false_eq_true, if_false, List.map_cons, List.zip_cons_cons, List.filter_cons, hk]
        rw [ih1]
    · have ih1 := ih false (some c) (by simp [hc])
      have hk : kept_by_merge before c = true := by
        cases before with
        | none => rfl
        | some b => simp [kept_by_merge, hc]
      simp only [merge_loop, Circle_arrangment_edge.is_covered, hc, decide_False,
        Bool.false_eq_true, if_false, List.map_cons, List.zip_cons_cons, List.filter_cons, hk,
        if_true]
      rw [ih1]

/-- C14: `plusplus(k)` turns a cell of count 0 into the cell of count 1 with
edge index `k`, a cell of count 1 into the cell of count 2 with its edge index
unchanged, and leaves a cell of count 2 as it is.  So the count after the call is
at most 2 when it was before, the edge index is written only when the count was
0, and the start point and the start flag are never changed. -/
theorem C14_plusplus (K : Kernel) (start_is_closed : Bool) (s : K.Direction_2)
    (owner k : Nat) (c : Circle_arrangment_edge K) :
    Circle_arrangment_edge.plusplus
        { start_is_closed := start_is_closed, edge_start_angle := s, count := 0,
          edge_index := owner } k =
        { start_is_closed := start_is_closed, edge_start_angle := s, count := 1,
          edge_index := k } ∧
      Circle_arrangment_edge.plusplus
        { start_is_closed := start_is_closed, edge_start_angle := s, count := 1,
          edge_index := owner } k =
        { start_is_closed := start_is_closed, edge_start_angle := s, count := 2,
          edge_index := owner } ∧
      Circle_arrangment_edge.plusplus
        { start_is_closed := start_is_closed, edge_start_angle := s, count := 2,
          edge_index := owner } k =
        { start_is_closed := start_is_closed, edge_start_angle := s, count := 2,
          edge_index := owner } ∧
      (c.plusplus k).count = (if c.count = 0 then 1 else if c.count = 1 then 2 else c.count) ∧
      (c.plusplus k).count ≤ max 2 c.count ∧
      (c.plusplus k).edge_index = (if c.count = 0 then k else c.edge_index) ∧
      (c.plusplus k).edge_start_angle = c.edge_start_angle ∧
      (c.plusplus k).start_is_closed = c.start_is_closed := by
  refine ⟨rfl, rfl, rfl, ?_, ?_, ?_, plusplus_start c k, plusplus_closed c k⟩
  · unfold Circle_arrangment_edge.plusplus; split_ifs <;> rfl
  · unfold Circle_arrangment_edge.plusplus; split_ifs <;> simp
  · unfold Circle_arrangment_edge.plusplus; split_ifs <;> rfl

/-- C17: `merge_adjacent_2_edges_and_remove_empty` keeps, unmodified and in
their order, the cells whose count is not 2 and the cells of count 2 that are
first in the list or follow a cell of another count, and erases every other
cell; afterwards no two consecutive cells of the list both have count 2.  A run
that wraps from the last cell to the first is not merged: a list of three cells
of counts 2, 1, 2 is left as it is. -/
theorem C17_merge_keeps_first_of_each_run (K : Kernel) (l : Circle_edges K)
    (x y z : Circle_arrangment_edge K) :
    merge_adjacent_2_edges_and_remove_empty l = merge_spec l ∧
      List.Chain' (fun a b : Circle_arrangment_edge K => ¬ (a.count = 2 ∧ b.count = 2))
        (merge_adjacent_2_edges_and_remove_empty l) ∧
      (merge_adjacent_2_edges_and_remove_empty l).Sublist l ∧
      merge_adjacent_2_edges_and_remove_empty
          [{ x with count := 2 }, { y with count := 1 }, { z with count := 2 }] =
        [{ x with count := 2 }, { y with count := 1 }, { z with count := 2 }] := by
  refine ⟨?_, (merge_loop_chain false l).1, merge_loop_sublist false l, ?_⟩
  · exact merge_loop_eq_spec l false none (by simp)
  · simp [merge_adjacent_2_edges_and_remove_empty, merge_loop,
      Circle_arrangment_edge.is_covered]

/-- C18: the passes of the loop examine the cells of the list in order, each
with its cyclically next cell; the end flag of every pass is the negation of the
`start_is_closed` of the next cell; the start flag of every pass but the first is
the `start_is_closed` of the examined cell, and the start flag of the first pass
is the negation of the `start_is_closed` of the first cell.  When the arc
(east, west) is added to the arrangement of the arc (east, west), the first cell
has an open start and the first pass hands a closed start to
`is_a_contained_in_b`, which answers false where it answers true for the open
start. -/
theorem C18_start_flag_of_the_first_pass (K : Kernel) (first : Circle_arrangment_edge K)
    (rest : Circle_edges K) :
    (loop_passes (first :: rest)).map (fun p => (p.it, p.next)) =
        cyclic_pairs (first :: rest) ∧
      (loop_passes (first :: rest)).map (fun p => p.is_start_closed_segment) =
        (!first.start_is_closed) :: rest.map (fun c => c.start_is_closed) ∧
      (loop_passes (first :: rest)).map (fun p => p.is_end_closed_segment) =
        (cyclic_pairs (first :: rest)).map (fun p => !p.2.start_is_closed) ∧
      (loop_passes (Circle_arrangment.ctor Int_kernel (east, west)).edges).map
          (fun p => (p.it.start_is_closed, p.is_start_closed_segment,
            is_a_contained_in_b Int_kernel p.is_start_closed_segment p.is_end_closed_segment
              p.edge (east, west),
            is_a_contained_in_b Int_kernel p.it.start_is_closed p.is_end_closed_segment
              p.edge (east, west))) =
        [(false, true, false, true), (true, true, false, false)] := by
  refine ⟨loop_passes_pairs _, add_loop_passes_start_flags _ _ _ _ _, ?_, by decide⟩
  rw [← loop_passes_pairs, List.map_map]
  apply List.map_congr_left
  intro p hp
  exact (add_loop_passes_edge first _ first rest p hp).2

theorem loop_body_inserted (B : Arc K) (k : Nat) (sc ec : Bool) (edge : Arc K)
    (it next x : Circle_arrangment_edge K) (hx : x ∈ (loop_body B k sc ec edge it next).2) :
    x = { start_is_closed := false, edge_start_angle := B.1, count := (it.plusplus k).count,
          edge_index := (it.plusplus k).edge_index } ∨
      x = { start_is_closed := true, edge_start_angle := B.2, count := it.count,
            edge_index := it.edge_index } := by
  have e1 : (({ it with start_is_closed := false, edge_start_angle := B.1 } :
      Circle_arrangment_edge K).plusplus k) =
      { start_is_closed := false, edge_start_angle := B.1, count := (it.plusplus k).count,
        edge_index := (it.plusplus k).edge_index } := by
    unfold Circle_arrangment_edge.plusplus; split_ifs <;> rfl
  simp only [loop_body] at hx
  split_ifs at hx <;>
    simp only [List.mem_append, List.not_mem_nil] at hx <;>
    first
    | exact absurd hx id
    | (rcases hx with hx | hx <;>
        first
        | exact Or.inl ((insert_if_legal_mem _ _ _ _ hx).trans e1)
        | exact Or.inr (insert_if_legal_mem _ _ _ _ hx))
    | exact Or.inl ((insert_if_legal_mem _ _ _ _ hx).trans e1)
    | exact Or.inr (insert_if_legal_mem _ _ _ _ hx)

theorem loop_body_examined (B : Arc K) (k : Nat) (sc ec : Bool) (edge : Arc K)
    (it next : Circle_arrangment_edge K) :
    (loop_body B k sc ec edge it next).1 = it ∨
      (loop_body B k sc ec edge it next).1 = it.plusplus k := by
  simp only [loop_body]
  split_ifs <;> first | exact Or.inl rfl | exact Or.inr rfl

theorem loop_passes_rotated (B : Arc K) (k : Nat) (edges : Circle_edges K) :
    (Circle_arrangment.add_segment_outer_circle_loop edges B k).IsRotated
      ((loop_passes edges).flatMap fun p => (p.run B k).1 :: (p.run B k).2) := by
  cases edges with
  | nil => exact List.IsRotated.refl _
  | cons first rest =>
    simp only [Circle_arrangment.add_segment_outer_circle_loop, loop_passes]
    rw [← add_loop_eq_passes]
    exact List.isRotated_append

theorem loop_passes_it (edges : Circle_edges K) :
    (loop_passes edges).map (fun p => p.it) = edges := by
  have h := congrArg (List.map Prod.fst) (loop_passes_pairs edges)
  rw [List.map_map] at h
  rw [show (fun p : Pass K => p.it) = Prod.fst ∘ fun p => (p.it, p.next) from rfl, h]
  cases edges with
  | nil => rfl
  | cons first rest =>
    simp only [cyclic_pairs, cyclic_next]
    rw [List.map_fst_zip]
    simp

/-- C20: the list after the loop of `add_segment_outer_circle((s, e), k)` is,
up to the place where the list begins, made of the examined cell and the
inserted cells of every pass, and the passes examine the cells of the list
before the call in order.  The examined cell is left as it was or incremented
once by `plusplus(k)`.  Every inserted cell either starts at `s` with an open
start and has the count and the edge index of the examined cell incremented once
by `plusplus(k)`, or starts at `e` with a closed start and has the count and the
edge index the examined cell had before the call. -/
theorem C20_inserted_cells (K : Kernel) (edges : Circle_edges K) (s e : K.Direction_2)
    (k : Nat) :
    (Circle_arrangment.add_segment_outer_circle_loop edges (s, e) k).IsRotated
        ((loop_passes edges).flatMap fun p => (p.run (s, e) k).1 :: (p.run (s, e) k).2) ∧
      (loop_passes edges).map (fun p => p.it) = edges ∧
      ∀ p ∈ loop_passes edges,
        ((p.run (s, e) k).1 = p.it ∨ (p.run (s, e) k).1 = p.it.plusplus k) ∧
        ∀ x ∈ (p.run (s, e) k).2,
          x = { start_is_closed := false, edge_start_angle := s,
                count := (p.it.plusplus k).count,
                edge_index := (p.it.plusplus k).edge_index } ∨
          x = { start_is_closed := true, edge_start_angle := e, count := p.it.count,
                edge_index := p.it.edge_index } := by
  refine ⟨loop_passes_rotated _ _ _, loop_passes_it _, ?_⟩
  intro p _
  exact ⟨loop_body_examined _ _ _ _ _ _ _, fun x hx => loop_body_inserted _ _ _ _ _ _ _ x hx⟩

/-- Witness of C20: the first pass when the arc (north, south) is added to the
arrangement of the arc (east, west) inserts a cell that starts at south with a
closed start and has the count 1 and the edge index 0 of the examined cell. -/
theorem C20_witness :
    first_pass_north ∈ loop_passes (Circle_arrangment.ctor Int_kernel (east, west)).edges ∧
      ({ start_is_closed := true, edge_start_angle := south, count := 1, edge_index := 0 } :
        Circle_arrangment_edge Int_kernel) ∈ (first_pass_north.run (north, south) 1).2 ∧
      (({ start_is_closed := true, edge_start_angle := south, count := 1, edge_index := 0 } :
          Circle_arrangment_edge Int_kernel) =
          { start_is_closed := false, edge_start_angle := north,
            count := (first_pass_north.it.plusplus 1).count,
            edge_index := (first_pass_north.it.plusplus 1).edge_index } ∨
        ({ start_is_closed := true, edge_start_angle := south, count := 1, edge_index := 0 } :
          Circle_arrangment_edge Int_kernel) =
          { start_is_closed := true, edge_start_angle := south,
            count := first_pass_north.it.count,
            edge_index := first_pass_north.it.edge_index }) :=
  ⟨by decide, by decide,
    ((C20_inserted_cells Int_kernel (Circle_arrangment.ctor Int_kernel (east, west)).edges
      north south 1).2.2 first_pass_north (by decide)).2 _ (by decide)⟩

end passes_claims

/-! ## One call adds at most two cells -/

set_option synthInstance.maxHeartbeats 400000 in
set_option synthInstance.maxSize 4096 in
/-- On ranks below 3: a cell into which the direction `p` falls as the start of
an arc contains `p`, or starts at `p` with an open start; and then the next cell
does not start at `p` with an open start. -/
theorem rank_start_charge : ∀ csc nsc : Bool, ∀ s : Nat, s < 3 → ∀ e : Nat, e < 3 →
    ∀ p : Nat, p < 3 →
    (if is_open_direction_contained_in_arc Rank_kernel p true (s, e) = true then 1 else 0) +
        (if p = e ∧ nsc = false then 1 else 0) ≤
      (if pair_contains Rank_kernel (rank_cell csc s, rank_cell nsc e) p = true then 1 else 0) +
        (if p = s ∧ csc = false then 1 else 0) := by
  decide

set_option synthInstance.maxHeartbeats 400000 in
set_option synthInstance.maxSize 4096 in
/-- On ranks below 3: a cell into which the direction `q` falls as the end of an
arc contains `q`, or its next cell starts at `q` with a closed start; and then
the cell itself does not start at `q` with a closed start. -/
theorem rank_end_charge : ∀ csc nsc : Bool, ∀ s : Nat, s < 3 → ∀ e : Nat, e < 3 →
    ∀ q : Nat, q < 3 →
    (if is_open_direction_contained_in_arc Rank_kernel q false (s, e) = true then 1 else 0) +
        (if q = s ∧ csc = true then 1 else 0) ≤
      (if pair_contains Rank_kernel (rank_cell csc s, rank_cell nsc e) q = true then 1 else 0) +
        (if q = e ∧ nsc = true then 1 else 0) := by
  decide

section growth

variable {K : Kernel}

theorem start_charge (hK : K.Lawful) (c n : Circle_arrangment_edge K) (p : K.Direction_2) :
    (if is_open_direction_contained_in_arc K p true
          (c.edge_start_angle, n.edge_start_angle) = true then 1 else 0) +
        (if p = n.edge_start_angle ∧ n.start_is_closed = false then 1 else 0) ≤
      (if pair_contains K (c, n) p = true then 1 else 0) +
        (if p = c.edge_start_angle ∧ c.start_is_closed = false then 1 else 0) := by
  obtain ⟨f, hb, he, hc⟩ := hK.rank [c.edge_start_angle, n.edge_start_angle, p]
  have r : Ranking K _ f := ⟨hb, he, hc⟩
  have ms : c.edge_start_angle ∈ [c.edge_start_angle, n.edge_start_angle, p] := by simp
  have me : n.edge_start_angle ∈ [c.edge_start_angle, n.edge_start_angle, p] := by simp
  have mp : p ∈ [c.edge_start_angle, n.edge_start_angle, p] := by simp
  rw [r.is_open_direction_eq p true _ _ mp ms me, r.pair_contains_eq c n p ms me mp]
  simp only [r.eq_iff p mp _ me, r.eq_iff p mp _ ms]
  exact rank_start_charge c.start_is_closed n.start_is_closed _ (hb _ ms) _ (hb _ me) _ (hb _ mp)

theorem end_charge (hK : K.Lawful) (c n : Circle_arrangment_edge K) (q : K.Direction_2) :
    (if is_open_direction_contained_in_arc K q false
          (c.edge_start_angle, n.edge_start_angle) = true then 1 else 0) +
        (if q = c.edge_start_angle ∧ c.start_is_closed = true then 1 else 0) ≤
      (if pair_contains K (c, n) q = true then 1 else 0) +
        (if q = n.edge_start_angle ∧ n.start_is_closed = true then 1 else 0) := by
  obtain ⟨f, hb, he, hc⟩ := hK.rank [c.edge_start_angle, n.edge_start_angle, q]
  have r : Ranking K _ f := ⟨hb, he, hc⟩
  have ms : c.edge_start_angle ∈ [c.edge_start_angle, n.edge_start_angle, q] := by simp
  have me : n.edge_start_angle ∈ [c.edge_start_angle, n.edge_start_angle, q] := by simp
  have mp : q ∈ [c.edge_start_angle, n.edge_start_angle, q] := by simp
  rw [r.is_open_direction_eq q false _ _ mp ms me, r.pair_contains_eq c n q ms me mp]
  simp only [r.eq_iff q mp _ me, r.eq_iff q mp _ ms]
  exact rank_end_charge c.start_is_closed n.start_is_closed _ (hb _ ms) _ (hb _ me) _ (hb _ mp)

/-- Along a chain of cells, the cells into which the start of an arc falls are
at most as many as the cells that contain it, up to the two ends of the chain. -/
theorem start_falls_in_chain (hK : K.Lawful) (B : Arc K) (rest : Circle_edges K) :
    ∀ (c t : Circle_arrangment_edge K),
      ((c :: rest).zip (rest ++ [t])).countP (start_falls_in K B) +
          (if B.1 = t.edge_start_angle ∧ t.start_is_closed = false then 1 else 0) ≤
        chain_count K B.1 (c :: rest) t +
          (if B.1 = c.edge_start_angle ∧ c.start_is_closed = false then 1 else 0) := by
  induction rest with
  | nil =>
    intro c t
    have h := start_charge hK c t B.1
    by_cases h1 : start_falls_in K B (c, t) = true
    · have h2 : is_open_direction_contained_in_arc K B.1 true
          (c.edge_start_angle, t.edge_start_angle) = true := h1
      simp only [List.nil_append, List.zip_cons_cons, List.zip_nil_right,
        List.countP_cons_of_pos _ _ h1, List.countP_nil, chain_count]
      simp only [h2, if_true] at h
      omega
    · have h2 : ¬ is_open_direction_contained_in_arc K B.1 true
          (c.edge_start_angle, t.edge_start_angle) = true := h1
      simp only [List.nil_append, List.zip_cons_cons, List.zip_nil_right,
        List.countP_cons_of_neg _ _ h1, List.countP_nil, chain_count]
      simp only [h2, if_false] at h
      omega
  | cons n rest2 ih =>
    intro c t
    have h := start_charge hK c n B.1
    have h3 := ih n t
    by_cases h1 : start_falls_in K B (c, n) = true
    · have h2 : is_open_direction_contained_in_arc K B.1 true
          (c.edge_start_angle, n.edge_start_angle) = true := h1
      simp only [List.cons_append, List.zip_cons_cons,
        List.countP_cons_of_pos _ _ h1, chain_count] at h3 ⊢
      simp only [h2, if_true] at h
      omega
    · have h2 : ¬ is_open_direction_contained_in_arc K B.1 true
          (c.edge_start_angle, n.edge_start_angle) = true := h1
      simp only [List.cons_append, List.zip_cons_cons,
        List.countP_cons_of_neg _ _ h1, chain_count] at h3 ⊢
      simp only [h2, if_false] at h
      omega

theorem end_falls_in_chain (hK : K.Lawful) (B : Arc K) (rest : Circle_edges K) :
    ∀ (c t : Circle_arrangment_edge K),
      ((c :: rest).zip (rest ++ [t])).countP (end_falls_in K B) +
          (if B.2 = c.edge_start_angle ∧ c.start_is_closed = true then 1 else 0) ≤
        chain_count K B.2 (c :: rest) t +
          (if B.2 = t.edge_start_angle ∧ t.start_is_closed = true then 1 else 0) := by
  induction rest with
  | nil =>
    intro c t
    have h := end_charge hK c t B.2
    by_cases h1 : end_falls_in K B (c, t) = true
    · have h2 : is_open_direction_contained_in_arc K B.2 false
          (c.edge_start_angle, t.edge_start_angle) = true := h1
      simp only [List.nil_append, List.zip_cons_cons, List.zip_nil_right,
        List.countP_cons_of_pos _ _ h1, List.countP_nil, chain_count]
      simp only [h2, if_true] at h
      omega
    · have h2 : ¬ is_open_direction_contained_in_arc K B.2 false
          (c.edge_start_angle, t.edge_start_angle) = true := h1
      simp only [List.nil_append, List.zip_cons_cons, List.zip_nil_right,
        List.countP_cons_of_neg _ _ h1, List.countP_nil, chain_count]
      simp only [h2, if_false] at h
      omega
  | cons n rest2 ih =>
    intro c t
    have h := end_charge hK c n B.2
    have h3 := ih n t
    by_cases h1 : end_falls_in K B (c, n) = true
    · have h2 : is_open_direction_contained_in_arc K B.2 false
          (c.edge_start_angle, n.edge_start_angle) = true := h1
      simp only [List.cons_append, List.zip_cons_cons,
        List.countP_cons_of_pos _ _ h1, chain_count] at h3 ⊢
      simp only [h2, if_true] at h
      omega
    · have h2 : ¬ is_open_direction_contained_in_arc K B.2 false
          (c.edge_start_angle, n.edge_start_angle) = true := h1
      simp only [List.cons_append, List.zip_cons_cons,
        List.countP_cons_of_neg _ _ h1, chain_count] at h3 ⊢
      simp only [h2, if_false] at h
      omega

/-- When the cells partition the circle, the start of an arc falls into at most
one cell, and so does its end. -/
theorem falls_in_at_most_one (hK : K.Lawful) (B : Arc K) (l : Circle_edges K)
    (h : partitions K l) :
    (cyclic_pairs l).countP (start_falls_in K B) ≤ 1 ∧
      (cyclic_pairs l).countP (end_falls_in K B) ≤ 1 := by
  cases l with
  | nil => simp [cyclic_pairs, cyclic_next]
  | cons first rest =>
    have h1 := start_falls_in_chain hK B rest first first
    have h2 := end_falls_in_chain hK B rest first first
    have h3 := h B.1
    have h4 := h B.2
    simp only [cyclic_count] at h3 h4
    simp only [cyclic_pairs, cyclic_next]
    constructor <;> omega

theorem insert_if_legal_length (cur next edge : Circle_arrangment_edge K) :
    (insert_if_legal cur next edge).length ≤ 1 := by
  unfold insert_if_legal
  split_ifs <;> simp

/-- A pass inserts a cell only at an end of the arc that falls into the examined
cell. -/
theorem loop_body_inserted_length (B : Arc K) (k : Nat) (sc ec : Bool) (edge : Arc K)
    (it next : Circle_arrangment_edge K) :
    (loop_body B k sc ec edge it next).2.length ≤
      (if is_open_direction_contained_in_arc K B.1 true edge = true then 1 else 0) +
        (if is_open_direction_contained_in_arc K B.2 false edge = true then 1 else 0) := by
  have a1 := fun e => insert_if_legal_length it next e
  simp only [loop_body]
  split_ifs <;> simp only [List.length_nil, List.length_append, Nat.zero_le] <;>
    first
    | omega
    | exact a1 _
    | exact Nat.add_le_add (a1 _) (a1 _)

theorem add_loop_total_length (B : Arc K) (i : Nat) (first : Circle_arrangment_edge K)
    (rest : Circle_edges K) :
    ∀ (c : Circle_arrangment_edge K) (flag : Bool),
      (add_loop B i first flag c.edge_start_angle (c :: rest)).1.length +
          (add_loop B i first flag c.edge_start_angle (c :: rest)).2.length ≤
        (c :: rest).length + ((c :: rest).zip (rest ++ [first])).countP (start_falls_in K B) +
          ((c :: rest).zip (rest ++ [first])).countP (end_falls_in K B) := by
  induction rest with
  | nil =>
    intro c flag
    have h := loop_body_inserted_length B i (!flag) (!first.start_is_closed)
      (c.edge_start_angle, first.edge_start_angle) c first
    simp only [add_loop, List.length_singleton, List.nil_append, List.zip_cons_cons,
      List.zip_nil_right, List.countP_cons, List.countP_nil, start_falls_in, end_falls_in]
    omega
  | cons n rest2 ih =>
    intro c flag
    have h := loop_body_inserted_length B i (!flag) (!n.start_is_closed)
      (c.edge_start_angle, n.edge_start_angle) c n
    have h2 := ih n (!n.start_is_closed)
    simp only [add_loop, List.length_cons, List.length_append, List.cons_append,
      List.zip_cons_cons, List.countP_cons, start_falls_in, end_falls_in] at h2 ⊢
    omega

/-- When the cells partition the circle, the loop of `add_segment_outer_circle`
inserts at most two cells. -/
theorem add_segment_outer_circle_loop_growth (hK : K.Lawful) (B : Arc K) (i : Nat)
    (l : Circle_edges K) (h : partitions K l) :
    (Circle_arrangment.add_segment_outer_circle_loop l B i).length ≤ l.length + 2 := by
  have h1 := falls_in_at_most_one hK B l h
  cases l with
  | nil => simp [Circle_arrangment.add_segment_outer_circle_loop]
  | cons first rest =>
    have h2 := add_loop_total_length B i first rest first first.start_is_closed
    simp only [cyclic_pairs, cyclic_next] at h1
    simp only [Circle_arrangment.add_segment_outer_circle_loop, List.length_append]
    omega

theorem add_segment_outer_circle_growth (hK : K.Lawful) (a : Circle_arrangment K)
    (h : partitions K a.edges) (B : Arc K) (i : Nat) :
    (a.add_segment_outer_circle B i).edges.length ≤ a.edges.length + 2 := by
  have h1 := add_segment_outer_circle_loop_growth hK B i a.edges h
  have h2 := (merge_loop_sublist false
    (Circle_arrangment.add_segment_outer_circle_loop a.edges B i)).length_le
  simp only [Circle_arrangment.add_segment_outer_circle, merge_adjacent_2_edges_and_remove_empty]
  omega

theorem add_all_growth (hK : K.Lawful) (calls : List (Arc K × Nat))
    (hcalls : ∀ c ∈ calls, is_half_circle K c.1) (a : Circle_arrangment K)
    (h : partitions K a.edges) :
    (add_all a calls).edges.length ≤ a.edges.length + 2 * calls.length := by
  induction calls generalizing a with
  | nil => exact Nat.le_refl _
  | cons c rest ih =>
    have hc : is_half_circle K c.1 := hcalls c (List.mem_cons_self _ _)
    have hne : c.1.1 ≠ c.1.2 := by
      rw [hc]; exact hK.opposite_ne _
    have h1 := ih (fun c2 h2 => hcalls c2 (List.mem_cons_of_mem _ h2)) _
      (partitions_add hK a h c.1 hne c.2)
    have h2 := add_segment_outer_circle_growth hK a h c.1 c.2
    simp only [add_all, List.foldl_cons, List.length_cons] at h1 ⊢
    omega

end growth

/-- C16: in a lawful kernel, after the constructor and any number of calls of
`add_segment_outer_circle` with half-circle arcs, the start of any arc falls into
at most one cell and so does its end; so one more call, with any arc and so with
every open half-circle, leaves at most two cells more than there were; and after
the constructor and `k` calls the arrangement has at most `2 (k + 1)` cells. -/
theorem C16_at_most_two_new_cells (K : Kernel) (hK : K.Lawful) (a_0 : Arc K)
    (calls : List (Arc K × Nat)) (h0 : is_half_circle K a_0)
    (hcalls : ∀ c ∈ calls, is_half_circle K c.1) (B : Arc K) (k : Nat) :
    ((add_all (Circle_arrangment.ctor K a_0) calls).add_segment_outer_circle B k).edges.length ≤
        (add_all (Circle_arrangment.ctor K a_0) calls).edges.length + 2 ∧
      (add_all (Circle_arrangment.ctor K a_0) calls).edges.length ≤ 2 * (calls.length + 1) ∧
      (cyclic_pairs (add_all (Circle_arrangment.ctor K a_0) calls).edges).countP
          (start_falls_in K B) ≤ 1 ∧
      (cyclic_pairs (add_all (Circle_arrangment.ctor K a_0) calls).edges).countP
          (end_falls_in K B) ≤ 1 := by
  have hne : a_0.1 ≠ a_0.2 := by
    rw [h0]; exact hK.opposite_ne _
  have hp := partitions_ctor hK a_0 hne
  have hq := partitions_add_all hK calls hcalls _ hp
  refine ⟨add_segment_outer_circle_growth hK _ hq B k, ?_, falls_in_at_most_one hK B _ hq⟩
  have h1 := add_all_growth hK calls hcalls _ hp
  have h2 : (Circle_arrangment.ctor K a_0).edges.length = 2 := rfl
  omega

/-- Witness of C16: the integer kernel, the arrangement of the arcs (east, west)
and (north, south), and the arc (west, east). -/
theorem C16_witness :
    Int_kernel.Lawful ∧ is_half_circle Int_kernel (east, west) ∧
      (∀ c ∈ ([((north, south), 1)] : List (Arc Int_kernel × Nat)),
        is_half_circle Int_kernel c.1) ∧
      ((add_all (Circle_arrangment.ctor Int_kernel (east, west))
          [((north, south), 1)]).add_segment_outer_circle (west, east) 2).edges.length ≤
        (add_all (Circle_arrangment.ctor Int_kernel (east, west))
          [((north, south), 1)]).edges.length + 2 :=
  ⟨Int_kernel_lawful, by decide, by decide,
    (C16_at_most_two_new_cells Int_kernel Int_kernel_lawful (east, west)
      [((north, south), 1)] (by decide) (by decide) (west, east) 2).1⟩

/-! ## The depth never decreases -/

section monotone

variable {K : Kernel}

theorem chain_count_at_least_append (m : Nat) (d : K.Direction_2) (xs : Circle_edges K)
    (y : Circle_arrangment_edge K) (ys : Circle_edges K) (t : Circle_arrangment_edge K) :
    chain_count_at_least K m d (xs ++ y :: ys) t =
      chain_count_at_least K m d xs y + chain_count_at_least K m d (y :: ys) t := by
  induction xs with
  | nil => simp [chain_count_at_least]
  | cons a rest ih =>
    cases rest with
    | nil => simp [chain_count_at_least]
    | cons b rest2 =>
      have e : chain_count_at_least K m d ((a :: b :: rest2) ++ y :: ys) t =
          (if pair_contains K (a, b) d = true ∧ m ≤ a.count then 1 else 0) +
            chain_count_at_least K m d ((b :: rest2) ++ y :: ys) t := rfl
      rw [e, ih]
      simp only [chain_count_at_least]
      omega

theorem chain_count_at_least_congr_term (m : Nat) (d : K.Direction_2) (l : Circle_edges K)
    (t t2 : Circle_arrangment_edge K) (h1 : t.edge_start_angle = t2.edge_start_angle)
    (h2 : t.start_is_closed = t2.start_is_closed) :
    chain_count_at_least K m d l t = chain_count_at_least K m d l t2 := by
  induction l with
  | nil => rfl
  | cons a rest ih =>
    cases rest with
    | nil => simp only [chain_count_at_least, pair_contains_congr a a t t2 d rfl rfl h1 h2]
    | cons b rest2 => simp only [chain_count_at_least, ih]

theorem chain_count_at_least_le (m : Nat) (d : K.Direction_2) (l : Circle_edges K)
    (t : Circle_arrangment_edge K) :
    chain_count_at_least K m d l t ≤ chain_count K d l t := by
  induction l with
  | nil => exact Nat.le_refl _
  | cons a rest ih =>
    cases rest with
    | nil =>
      simp only [chain_count_at_least, chain_count]
      split_ifs <;> simp_all
    | cons b rest2 =>
      simp only [chain_count_at_least, chain_count]
      have : (if pair_contains K (a, b) d = true ∧ m ≤ a.count then 1 else 0) ≤
          (if pair_contains K (a, b) d = true then 1 else 0) := by
        split_ifs <;> simp_all
      omega

/-- Where every cell has a count of at least `m`, the cells that contain `d` all
count. -/
theorem chain_count_at_least_eq (m : Nat) (d : K.Direction_2) (l : Circle_edges K)
    (t : Circle_arrangment_edge K) (h : ∀ c ∈ l, m ≤ c.count) :
    chain_count_at_least K m d l t = chain_count K d l t := by
  induction l with
  | nil => rfl
  | cons a rest ih =>
    have ha : m ≤ a.count := h a (List.mem_cons_self _ _)
    cases rest with
    | nil => simp only [chain_count_at_least, chain_count, ha, and_true]
    | cons b rest2 =>
      simp only [chain_count_at_least, chain_count, ha, and_true,
        ih (fun c hc => h c (List.mem_cons_of_mem _ hc))]

theorem plusplus_count_le (c : Circle_arrangment_edge K) (k : Nat) :
    c.count ≤ (c.plusplus k).count := by
  unfold Circle_arrangment_edge.plusplus
  split_ifs <;> simp <;> omega

/-- A pass leaves the examined cell and the cells it inserts with a count that is
at least the count the examined cell had. -/
theorem loop_body_count_le (B : Arc K) (k : Nat) (sc ec : Bool) (edge : Arc K)
    (it next : Circle_arrangment_edge K) :
    ∀ x ∈ (loop_body B k sc ec edge it next).1 :: (loop_body B k sc ec edge it next).2,
      it.count ≤ x.count := by
  intro x hx
  rcases List.mem_cons.mp hx with rfl | hx
  · rcases loop_body_examined B k sc ec edge it next with h | h
    · rw [h]
    · rw [h]; exact plusplus_count_le it k
  · rcases loop_body_inserted B k sc ec edge it next x hx with h | h
    · rw [h]; exact plusplus_count_le it k
    · rw [h]

theorem loop_body_chain_count_at_least (hK : K.Lawful) (B : Arc K) (hB : B.1 ≠ B.2) (i : Nat)
    (sc ec : Bool) (it next : Circle_arrangment_edge K) (m : Nat) (d : K.Direction_2) :
    chain_count_at_least K m d [it] next ≤
      chain_count_at_least K m d
        ((loop_body B i sc ec (it.edge_start_angle, next.edge_start_angle) it next).1 ::
          (loop_body B i sc ec (it.edge_start_angle, next.edge_start_angle) it next).2) next := by
  by_cases h : m ≤ it.count
  · rw [chain_count_at_least_eq m d _ next (fun c hc =>
      Nat.le_trans h (loop_body_count_le B i sc ec _ it next c hc)),
      loop_body_chain_count hK B hB i sc ec it next d]
    exact chain_count_at_least_le m d [it] next
  · simp only [chain_count_at_least, h, and_false, if_false, Nat.zero_le]

theorem add_loop_chain_count_at_least (hK : K.Lawful) (B : Arc K) (hB : B.1 ≠ B.2) (i : Nat)
    (first : Circle_arrangment_edge K) (m : Nat) (d : K.Direction_2) (rest : Circle_edges K) :
    ∀ (c : Circle_arrangment_edge K) (flag : Bool),
      chain_count_at_least K m d (c :: rest) first ≤
        chain_count_at_least K m d ((add_loop B i first flag c.edge_start_angle (c :: rest)).2 ++
          (add_loop B i first flag c.edge_start_angle (c :: rest)).1) first := by
  induction rest with
  | nil =>
    intro c flag
    simp only [add_loop, List.singleton_append]
    exact loop_body_chain_count_at_least hK B hB i _ _ c first m d
  | cons n rest2 ih =>
    intro c flag
    obtain ⟨⟨h, tl, e1, e2, e3⟩, -⟩ :=
      add_loop_chain_count hK B hB i first d rest2 n (!n.start_is_closed)
    have e4 := ih n (!n.start_is_closed)
    simp only [add_loop]
    rw [e1] at e4 ⊢
    have e5 : ((loop_body B i (!flag) (!n.start_is_closed)
          (c.edge_start_angle, n.edge_start_angle) c n).1 ::
        ((loop_body B i (!flag) (!n.start_is_closed)
          (c.edge_start_angle, n.edge_start_angle) c n).2 ++ h :: tl)) ++
        (add_loop B i first (!n.start_is_closed) n.edge_start_angle (n :: rest2)).1 =
        ((loop_body B i (!flag) (!n.start_is_closed)
          (c.edge_start_angle, n.edge_start_angle) c n).1 ::
        (loop_body B i (!flag) (!n.start_is_closed)
          (c.edge_start_angle, n.edge_start_angle) c n).2) ++ h ::
        (tl ++ (add_loop B i first (!n.start_is_closed) n.edge_start_angle (n :: rest2)).1) := by
      simp
    rw [e5, chain_count_at_least_append, chain_count_at_least_congr_term m d _ h n e2 e3]
    have e6 := loop_body_chain_count_at_least hK B hB i (!flag) (!n.start_is_closed) c n m d
    have e7 : chain_count_at_least K m d (c :: n :: rest2) first =
        chain_count_at_least K m d [c] n + chain_count_at_least K m d (n :: rest2) first := rfl
    rw [e7]
    exact Nat.add_le_add e6 e4

theorem cyclic_count_at_least_rotate (m : Nat) (d : K.Direction_2) (xs ys : Circle_edges K) :
    cyclic_count_at_least K m d (xs ++ ys) = cyclic_count_at_least K m d (ys ++ xs) := by
  cases xs with
  | nil => simp
  | cons x xs2 =>
    cases ys with
    | nil => simp
    | cons y ys2 =>
      simp only [cyclic_count_at_least, List.cons_append]
      rw [← List.cons_append, chain_count_at_least_append, ← List.cons_append,
        chain_count_at_least_append]
      omega

/-- The loop of `add_segment_outer_circle` does not lower the number of the cells
that contain `d` and have a count of at least `m`. -/
theorem add_segment_outer_circle_loop_count_at_least (hK : K.Lawful) (B : Arc K)
    (hB : B.1 ≠ B.2) (i : Nat) (l : Circle_edges K) (m : Nat) (d : K.Direction_2) :
    cyclic_count_at_least K m d l ≤
      cyclic_count_at_least K m d (Circle_arrangment.add_segment_outer_circle_loop l B i) := by
  cases l with
  | nil => exact Nat.le_refl _
  | cons first rest =>
    obtain ⟨⟨h, tl, e1, e2, e3⟩, -⟩ :=
      add_loop_chain_count hK B hB i first d rest first first.start_is_closed
    have e4 := add_loop_chain_count_at_least hK B hB i first m d rest first
      first.start_is_closed
    simp only [Circle_arrangment.add_segment_outer_circle_loop]
    rw [cyclic_count_at_least_rotate]
    rw [e1] at e4 ⊢
    simp only [List.cons_append, cyclic_count_at_least] at e4 ⊢
    rw [chain_count_at_least_congr_term m d _ h first e2 e3]
    exact e4

theorem chain_count_at_least_pos (m : Nat) (d : K.Direction_2) (l : Circle_edges K)
    (t : Circle_arrangment_edge K) :
    0 < chain_count_at_least K m d l t ↔
      ∃ p ∈ l.zip (l.tail ++ [t]), pair_contains K p d = true ∧ m ≤ p.1.count := by
  induction l with
  | nil => simp [chain_count_at_least]
  | cons a rest ih =>
    cases rest with
    | nil =>
      simp only [chain_count_at_least, List.tail_cons, List.nil_append, List.zip_cons_cons,
        List.zip_nil_right, List.mem_singleton, exists_eq_left]
      split_ifs with h
      · simp [h]
      · simp [h]
    | cons b rest2 =>
      simp only [chain_count_at_least, List.tail_cons, List.cons_append, List.zip_cons_cons,
        List.mem_cons, exists_eq_or_imp] at ih ⊢
      rw [← ih]
      split_ifs with h
      · simp [h]
      · simp [h]

theorem cyclic_count_at_least_pos (m : Nat) (d : K.Direction_2) (l : Circle_edges K) :
    0 < cyclic_count_at_least K m d l ↔
      ∃ p ∈ cyclic_pairs l, pair_contains K p d = true ∧ m ≤ p.1.count := by
  cases l with
  | nil => simp [cyclic_count_at_least, cyclic_pairs, cyclic_next]
  | cons first rest => exact chain_count_at_least_pos m d (first :: rest) first

theorem zip_tail_mem_cons (a t : Circle_arrangment_edge K) (rest : Circle_edges K)
    (p : Circle_arrangment_edge K × Circle_arrangment_edge K)
    (h : p ∈ rest.zip (rest.tail ++ [t])) : p ∈ (a :: rest).zip (rest ++ [t]) := by
  cases rest with
  | nil => simp at h
  | cons b rest2 =>
    simp only [List.cons_append, List.zip_cons_cons, List.mem_cons, List.tail_cons] at h ⊢
    exact Or.inr h

theorem merge_loop_head (c : Circle_arrangment_edge K) (rest : Circle_edges K) :
    (merge_loop false (c :: rest)).head? = some c := by
  obtain ⟨flag, e⟩ := merge_loop_false_cons c rest
  rw [e]; rfl

/-- A cell that the merge keeps and whose count is not 2 has the same next cell
after the merge as before. -/
theorem merge_loop_pairs (t : Circle_arrangment_edge K)
    (p : Circle_arrangment_edge K × Circle_arrangment_edge K) (hp : p.1.count ≠ 2)
    (l : Circle_edges K) :
    ∀ flag : Bool, p ∈ (merge_loop flag l).zip ((merge_loop flag l).tail ++ [t]) →
      p ∈ l.zip (l.tail ++ [t]) := by
  induction l with
  | nil => intro flag h; simp [merge_loop] at h
  | cons a rest ih =>
    intro flag h
    by_cases hc : a.count = 2
    · cases flag with
      | true =>
        have e : merge_loop true (a :: rest) = merge_loop true rest := by
          simp [merge_loop, Circle_arrangment_edge.is_covered, hc]
        rw [e] at h
        exact zip_tail_mem_cons a t rest p (ih true h)
      | false =>
        rw [merge_loop_true_of_covered a rest hc] at h
        cases hM : merge_loop true rest with
        | nil =>
          rw [hM] at h
          simp only [List.tail_cons, List.nil_append, List.zip_cons_cons, List.zip_nil_right,
            List.mem_singleton] at h
          rw [h] at hp
          exact absurd hc hp
        | cons b M2 =>
          rw [hM] at h
          simp only [List.tail_cons, List.cons_append, List.zip_cons_cons, List.mem_cons] at h
          rcases h with h | h
          · rw [h] at hp
            exact absurd hc hp
          · apply zip_tail_mem_cons a t rest p
            apply ih true
            rw [hM]
            exact h
    · rw [merge_loop_of_not_covered flag a rest hc] at h
      cases rest with
      | nil =>
        simpa [merge_loop] using h
      | cons b rest2 =>
        have hh := merge_loop_head b rest2
        cases hM : merge_loop false (b :: rest2) with
        | nil => rw [hM] at hh; simp at hh
        | cons b2 M2 =>
          rw [hM] at hh h
          simp only [List.head?_cons, Option.some.injEq] at hh
          simp only [List.tail_cons, List.cons_append, List.zip_cons_cons, List.mem_cons] at h ⊢
          rcases h with h | h
          · left; rw [h, hh]
          · right
            have := ih false (by rw [hM]; exact h)
            simpa using this

theorem merge_cyclic_pairs (l : Circle_edges K)
    (p : Circle_arrangment_edge K × Circle_arrangment_edge K) (hp : p.1.count ≠ 2)
    (h : p ∈ cyclic_pairs (merge_adjacent_2_edges_and_remove_empty l)) : p ∈ cyclic_pairs l := by
  cases l with
  | nil => simpa [merge_adjacent_2_edges_and_remove_empty, merge_loop] using h
  | cons c rest =>
    obtain ⟨flag, e⟩ := merge_loop_false_cons c rest
    have key := merge_loop_pairs c p hp (c :: rest) false
    unfold merge_adjacent_2_edges_and_remove_empty at h
    rw [e] at h key
    exact key h

/-- When the cells partition the circle, two cells that contain `d` are the same
cell. -/
theorem partitions_unique (l : Circle_edges K) (h : partitions K l) (d : K.Direction_2)
    (p q : Circle_arrangment_edge K × Circle_arrangment_edge K)
    (hp : p ∈ cyclic_pairs l) (hq : q ∈ cyclic_pairs l)
    (hpd : pair_contains K p d = true) (hqd : pair_contains K q d = true) : p = q := by
  have h1 : ((cyclic_pairs l).filter fun x => pair_contains K x d).length = 1 := by
    have := cells_containing_length (Circle_arrangment.mk l) d
    simp only [cells_containing, List.length_map] at this
    rw [this]; exact h d
  obtain ⟨x, hx⟩ := List.length_eq_one.mp h1
  have m1 : p ∈ (cyclic_pairs l).filter fun x => pair_contains K x d :=
    List.mem_filter.mpr ⟨hp, hpd⟩
  have m2 : q ∈ (cyclic_pairs l).filter fun x => pair_contains K x d :=
    List.mem_filter.mpr ⟨hq, hqd⟩
  rw [hx, List.mem_singleton] at m1 m2
  rw [m1, m2]

theorem counts_at_most_two_loop (B : Arc K) (k : Nat) (l : Circle_edges K)
    (h : counts_at_most_two l) :
    counts_at_most_two (Circle_arrangment.add_segment_outer_circle_loop l B k) := by
  intro x hx
  have hx2 := (loop_passes_rotated B k l).mem_iff.mp hx
  obtain ⟨p, hp, hxp⟩ := List.mem_flatMap.mp hx2
  have hit : p.it ∈ l := by
    have := List.mem_map_of_mem (fun p : Pass K => p.it) hp
    rw [loop_passes_it] at this
    exact this
  have h2 := h p.it hit
  have hpp : (p.it.plusplus k).count ≤ 2 := by
    unfold Circle_arrangment_edge.plusplus
    split_ifs
    · exact Nat.le_succ 1
    · exact Nat.le_refl 2
    · exact h2
  rcases List.mem_cons.mp hxp with rfl | hx3
  · rcases loop_body_examined B k _ _ p.edge p.it p.next with e | e
    · exact (congrArg (fun c => c.count) e).le.trans h2
    · exact (congrArg (fun c => c.count) e).le.trans hpp
  · rcases loop_body_inserted B k _ _ p.edge p.it p.next x hx3 with e | e
    · rw [e]; exact hpp
    · rw [e]; exact h2

theorem counts_at_most_two_add (a : Circle_arrangment K) (h : counts_at_most_two a.edges)
    (B : Arc K) (k : Nat) : counts_at_most_two (a.add_segment_outer_circle B k).edges := by
  intro x hx
  exact counts_at_most_two_loop B k a.edges h x ((merge_loop_sublist false _).subset hx)

theorem counts_at_most_two_add_all (calls : List (Arc K × Nat)) (a : Circle_arrangment K)
    (h : counts_at_most_two a.edges) : counts_at_most_two (add_all a calls).edges := by
  induction calls generalizing a with
  | nil => exact h
  | cons c rest ih => exact ih _ (counts_at_most_two_add a h c.1 c.2)

theorem counts_at_most_two_ctor (arc : Arc K) :
    counts_at_most_two (Circle_arrangment.ctor K arc).edges := by
  intro x hx
  simp only [Circle_arrangment.ctor, Circle_arrangment_edge.mk_edge, List.mem_cons,
    List.mem_singleton, List.not_mem_nil, or_false] at hx
  rcases hx with rfl | rfl <;> simp

theorem mem_cells_containing (a : Circle_arrangment K) (d : K.Direction_2)
    (c : Circle_arrangment_edge K) (h : c ∈ cells_containing a d) :
    ∃ p ∈ cyclic_pairs a.edges, pair_contains K p d = true ∧ p.1 = c := by
  simp only [cells_containing, List.mem_map, List.mem_filter] at h
  obtain ⟨p, ⟨h1, h2⟩, h3⟩ := h
  exact ⟨p, h1, h2, h3⟩

/-- A call of `add_segment_outer_circle` on cells that partition the circle and
have counts of at most 2 does not lower the count of the cell that contains
`d`. -/
theorem add_segment_outer_circle_monotone (hK : K.Lawful) (a : Circle_arrangment K)
    (hp : partitions K a.edges) (h2 : counts_at_most_two a.edges) (B : Arc K)
    (hB : B.1 ≠ B.2) (k : Nat) (d : K.Direction_2) (c c2 : Circle_arrangment_edge K)
    (hc : c ∈ cells_containing a d)
    (hc2 : c2 ∈ cells_containing (a.add_segment_outer_circle B k) d) :
    c.count ≤ c2.count := by
  obtain ⟨p, hp1, hp2, rfl⟩ := mem_cells_containing a d c hc
  obtain ⟨q, hq1, hq2, rfl⟩ := mem_cells_containing _ d c2 hc2
  by_cases hcov : q.1.count = 2
  · rw [hcov]
    exact h2 p.1 (List.of_mem_zip (show (p.1, p.2) ∈ a.edges.zip (cyclic_next a.edges) from hp1)).1
  · have hq3 : q ∈ cyclic_pairs (Circle_arrangment.add_segment_outer_circle_loop a.edges B k) :=
      merge_cyclic_pairs _ q hcov hq1
    have h3 : 0 < cyclic_count_at_least K p.1.count d a.edges :=
      (cyclic_count_at_least_pos _ d _).mpr ⟨p, hp1, hp2, Nat.le_refl _⟩
    have h4 := add_segment_outer_circle_loop_count_at_least hK B hB k a.edges p.1.count d
    obtain ⟨r, hr1, hr2, hr3⟩ := (cyclic_count_at_least_pos _ d _).mp (Nat.lt_of_lt_of_le h3 h4)
    have hpart : partitions K (Circle_arrangment.add_segment_outer_circle_loop a.edges B k) := by
      intro x
      rw [add_segment_outer_circle_loop_count hK B hB k a.edges x]
      exact hp x
    have e := partitions_unique _ hpart d r q hr1 hq3 hr2 hq2
    rw [← e]; exact hr3

end monotone

/-- C15: in a lawful kernel, after the constructor and any number of calls of
`add_segment_outer_circle` with half-circle arcs, one more call with a
half-circle arc does not lower the depth at any direction `d`: exactly one cell
contains `d` before the call and exactly one after it, and the count of the
second is at least the count of the first.  In particular every pass leaves the
examined cell and the cells it inserts with at least the count the examined cell
had. -/
theorem C15_depth_is_monotone (K : Kernel) (hK : K.Lawful) (a_0 : Arc K)
    (calls : List (Arc K × Nat)) (h0 : is_half_circle K a_0)
    (hcalls : ∀ c ∈ calls, is_half_circle K c.1) (B : Arc K) (hB : is_half_circle K B)
    (k : Nat) (d : K.Direction_2) :
    (cells_containing (add_all (Circle_arrangment.ctor K a_0) calls) d).length = 1 ∧
      (cells_containing
        ((add_all (Circle_arrangment.ctor K a_0) calls).add_segment_outer_circle B k)
        d).length = 1 ∧
      (∀ c ∈ cells_containing (add_all (Circle_arrangment.ctor K a_0) calls) d,
        ∀ c2 ∈ cells_containing
            ((add_all (Circle_arrangment.ctor K a_0) calls).add_segment_outer_circle B k) d,
          c.count ≤ c2.count) ∧
      (∀ p ∈ loop_passes (add_all (Circle_arrangment.ctor K a_0) calls).edges,
        ∀ x ∈ (p.run B k).1 :: (p.run B k).2, p.it.count ≤ x.count) := by
  have hne : a_0.1 ≠ a_0.2 := by
    rw [h0]; exact hK.opposite_ne _
  have hBne : B.1 ≠ B.2 := by
    rw [hB]; exact hK.opposite_ne _
  have hp := partitions_add_all hK calls hcalls _ (partitions_ctor hK a_0 hne)
  refine ⟨?_, ?_, fun c hc c2 hc2 => add_segment_outer_circle_monotone hK _ hp
    (counts_at_most_two_add_all calls _ (counts_at_most_two_ctor a_0)) B hBne k d c c2 hc hc2, ?_⟩
  · rw [cells_containing_length]; exact hp d
  · rw [cells_containing_length]; exact partitions_add hK _ hp B hBne k d
  · intro p _ x hx
    exact loop_body_count_le B k _ _ p.edge p.it p.next x hx

/-- Witness of C15: the integer kernel, the arrangement of the arc (east, west),
the arc (south, north) and the direction west, at which the count goes from 0
to 1. -/
theorem C15_witness :
    Int_kernel.Lawful ∧ is_half_circle Int_kernel (east, west) ∧
      is_half_circle Int_kernel (south, north) ∧
      cells_containing (add_all (Circle_arrangment.ctor Int_kernel (east, west)) []) west =
        [{ start_is_closed := true, edge_start_angle := west, count := 0, edge_index := 0 }] ∧
      cells_containing ((add_all (Circle_arrangment.ctor Int_kernel (east, west))
          []).add_segment_outer_circle (south, north) 1) west =
        [{ start_is_closed := true, edge_start_angle := west, count := 1, edge_index := 1 }] ∧
      (0 : Nat) ≤ 1 :=
  ⟨Int_kernel_lawful, by decide, by decide, by decide, by decide,
    (C15_depth_is_monotone Int_kernel Int_kernel_lawful (east, west) [] (by decide)
      (by decide) (south, north) (by decide) 1 west).2.2.1
      { start_is_closed := true, edge_start_angle := west, count := 0, edge_index := 0 }
      (by decide)
      { start_is_closed := true, edge_start_angle := west, count := 1, edge_index := 1 }
      (by decide)⟩

/-! ## Convex polygons: the triangle -/

section relabelling

variable {K : Kernel} {l : List K.Direction_2} {f : K.Direction_2 → Nat}

theorem Ranking.is_a_contained_in_b_eq (r : Ranking K l f) (sc ec : Bool) (A B : Arc K)
    (h1 : A.1 ∈ l) (h2 : A.2 ∈ l) (h3 : B.1 ∈ l) (h4 : B.2 ∈ l) :
    is_a_contained_in_b K sc ec A B =
      is_a_contained_in_b Rank_kernel sc ec (f A.1, f A.2) (f B.1, f B.2) := by
  have e1 := r.eq_iff _ h1 _ h3
  have e2 := r.eq_iff _ h2 _ h4
  have e3 := r.eq_iff _ h1 _ h4
  have e4 := r.eq_iff _ h3 _ h2
  have e5 := r.eq_iff _ h1 _ h2
  unfold is_a_contained_in_b
  rw [r.ccw _ h1 _ h3 _ h4, r.ccw _ h2 _ h3 _ h4, r.ccw _ h1 _ h3 _ h2]
  simp only [ne_eq, e1, e2, e3, e4, e5]

end relabelling

section turning

variable {K : Kernel}

end turning

section triangle

variable {K : Kernel}

end triangle

set_option synthInstance.maxHeartbeats 4000000 in
set_option synthInstance.maxSize 100000 in
/-- On ranks below 5: when `is_a_contained_in_b` answers true for a cell with two
different ends or a single closed point and an open arc with two different ends,
no direction of the cell is outside the open arc. -/
theorem rank_contained_sound : ∀ sc ec : Bool, ∀ a1 : Nat, a1 < 5 → ∀ a2 : Nat, a2 < 5 →
    ∀ b1 : Nat, b1 < 5 → ∀ b2 : Nat, b2 < 5 → ∀ d : Nat, d < 5 →
    (decide (b1 ≠ b2) && (decide (a1 ≠ a2) || (sc && ec)) &&
      is_a_contained_in_b Rank_kernel sc ec (a1, a2) (b1, b2)) = true →
    escapes Rank_kernel sc ec (a1, a2) (b1, b2) d = false := by
  decide!

set_option synthInstance.maxHeartbeats 4000000 in
set_option synthInstance.maxSize 100000 in
/-- On ranks below 4: when `is_a_contained_in_b` answers false, an end of the
cell belongs to the cell and is not inside the open arc, or between two of the
four ends there is a gap all of whose directions belong to the cell and are not
inside the open arc. -/
theorem rank_not_contained : ∀ sc ec : Bool, ∀ a1 : Nat, a1 < 4 → ∀ a2 : Nat, a2 < 4 →
    ∀ b1 : Nat, b1 < 4 → ∀ b2 : Nat, b2 < 4 →
    (decide (b1 ≠ b2) && (decide (a1 ≠ a2) || (sc && ec)) &&
      !is_a_contained_in_b Rank_kernel sc ec (a1, a2) (b1, b2)) = true →
    (escapes Rank_kernel sc ec (a1, a2) (b1, b2) a1 ||
      escapes Rank_kernel sc ec (a1, a2) (b1, b2) a2 ||
      [a1, a2, b1, b2].any fun x => [a1, a2, b1, b2].any fun y =>
        gap_escapes Rank_kernel (a1, a2) (b1, b2) x y) = true := by
  decide!

set_option maxRecDepth 100000 in
set_option synthInstance.maxHeartbeats 4000000 in
set_option synthInstance.maxSize 100000 in
/-- On ranks below 5: a direction in a gap that escapes is strictly inside the
cell and not inside the open arc. -/
theorem rank_gap_escapes : ∀ a1 : Nat, a1 < 5 → ∀ a2 : Nat, a2 < 5 →
    ∀ b1 : Nat, b1 < 5 → ∀ b2 : Nat, b2 < 5 → ∀ x : Nat, x < 5 → ∀ y : Nat, y < 5 →
    gap_escapes Rank_kernel (a1, a2) (b1, b2) x y = true →
    ∀ d : Nat, d < 5 → Rank_kernel.counterclockwise_in_between d x y = true →
    (decide (a1 ≠ a2) && in_open_arc Rank_kernel (a1, a2) d &&
      !in_open_arc Rank_kernel (b1, b2) d) = true := by
  decide!

section containment

variable {K : Kernel} {l : List K.Direction_2} {f : K.Direction_2 → Nat}

theorem Ranking.in_open_arc_eq (r : Ranking K l f) (s e d : K.Direction_2)
    (hs : s ∈ l) (he : e ∈ l) (hd : d ∈ l) :
    in_open_arc K (s, e) d = in_open_arc Rank_kernel (f s, f e) (f d) := by
  unfold in_open_arc
  exact r.ccw d hd e he s hs

theorem Ranking.escapes_eq (r : Ranking K l f) (sc ec : Bool) (A B : Arc K)
    (d : K.Direction_2) (h1 : A.1 ∈ l) (h2 : A.2 ∈ l) (h3 : B.1 ∈ l) (h4 : B.2 ∈ l)
    (hd : d ∈ l) :
    escapes K sc ec A B d = escapes Rank_kernel sc ec (f A.1, f A.2) (f B.1, f B.2) (f d) := by
  unfold escapes
  rw [r.cell_contains_eq sc ec _ _ _ h1 h2 hd, r.in_open_arc_eq B.1 B.2 d h3 h4 hd]

theorem Ranking.gap_escapes_eq (r : Ranking K l f) (A B : Arc K) (x y : K.Direction_2)
    (h1 : A.1 ∈ l) (h2 : A.2 ∈ l) (h3 : B.1 ∈ l) (h4 : B.2 ∈ l) (hx : x ∈ l) (hy : y ∈ l) :
    gap_escapes K A B x y = gap_escapes Rank_kernel (f A.1, f A.2) (f B.1, f B.2) (f x) (f y) := by
  have e1 := r.eq_iff _ hx _ hy
  have e2 := r.eq_iff _ h1 _ h2
  have e3 := r.eq_iff _ hx _ h2
  have e4 := r.eq_iff _ hx _ h4
  unfold gap_escapes
  simp only [List.all_cons, List.all_nil, Bool.and_true, ne_eq]
  rw [r.ccw _ h1 _ hx _ hy, r.ccw _ h2 _ hx _ hy, r.ccw _ h3 _ hx _ hy, r.ccw _ h4 _ hx _ hy,
    r.ccw _ hx _ h2 _ h1, r.ccw _ hx _ h4 _ h3]
  simp only [e1, e2, e3, e4]

/-- When `is_a_contained_in_b` answers true, every direction of the cell lies
inside the open arc. -/
theorem contained_sound (hK : K.Lawful) (sc ec : Bool) (A B : Arc K) (hB : B.1 ≠ B.2)
    (hA : A.1 ≠ A.2 ∨ (sc = true ∧ ec = true))
    (h : is_a_contained_in_b K sc ec A B = true) (d : K.Direction_2)
    (hd : cell_contains K sc ec A.1 A.2 d = true) : in_open_arc K B d = true := by
  obtain ⟨f, hb, he, hc⟩ := hK.rank [A.1, A.2, B.1, B.2, d]
  have r : Ranking K _ f := ⟨hb, he, hc⟩
  have m1 : A.1 ∈ [A.1, A.2, B.1, B.2, d] := by simp
  have m2 : A.2 ∈ [A.1, A.2, B.1, B.2, d] := by simp
  have m3 : B.1 ∈ [A.1, A.2, B.1, B.2, d] := by simp
  have m4 : B.2 ∈ [A.1, A.2, B.1, B.2, d] := by simp
  have md : d ∈ [A.1, A.2, B.1, B.2, d] := by simp
  have hB2 : f B.1 ≠ f B.2 := fun e => hB (by rw [r.eq_iff _ m3 _ m4]; exact e)
  have hA2 : f A.1 ≠ f A.2 ∨ (sc = true ∧ ec = true) := by
    rcases hA with hA | hA
    · exact Or.inl fun e => hA (by rw [r.eq_iff _ m1 _ m2]; exact e)
    · exact Or.inr hA
  rw [r.is_a_contained_in_b_eq sc ec A B m1 m2 m3 m4] at h
  have key := rank_contained_sound sc ec _ (hb _ m1) _ (hb _ m2) _ (hb _ m3) _ (hb _ m4) _
    (hb _ md) (by
      simp only [Bool.and_eq_true, Bool.or_eq_true, decide_eq_true_eq]
      exact ⟨⟨hB2, hA2⟩, h⟩)
  rw [← r.escapes_eq sc ec A B d m1 m2 m3 m4 md] at key
  unfold escapes at key
  rw [hd] at key
  simpa using key

/-- When `is_a_contained_in_b` answers false in a dense kernel, some direction of
the cell does not lie inside the open arc. -/
theorem not_contained_escapes (hK : K.Lawful) (hD : K.Dense) (sc ec : Bool) (A B : Arc K)
    (hB : B.1 ≠ B.2) (hA : A.1 ≠ A.2 ∨ (sc = true ∧ ec = true))
    (h : is_a_contained_in_b K sc ec A B = false) :
    ∃ d, cell_contains K sc ec A.1 A.2 d = true ∧ in_open_arc K B d = false := by
  obtain ⟨f, hb, he, hc⟩ := hK.rank [A.1, A.2, B.1, B.2]
  have r : Ranking K _ f := ⟨hb, he, hc⟩
  have m1 : A.1 ∈ [A.1, A.2, B.1, B.2] := by simp
  have m2 : A.2 ∈ [A.1, A.2, B.1, B.2] := by simp
  have m3 : B.1 ∈ [A.1, A.2, B.1, B.2] := by simp
  have m4 : B.2 ∈ [A.1, A.2, B.1, B.2] := by simp
  have hB2 : f B.1 ≠ f B.2 := fun e => hB (by rw [r.eq_iff _ m3 _ m4]; exact e)
  have hA2 : f A.1 ≠ f A.2 ∨ (sc = true ∧ ec = true) := by
    rcases hA with hA | hA
    · exact Or.inl fun e => hA (by rw [r.eq_iff _ m1 _ m2]; exact e)
    · exact Or.inr hA
  rw [r.is_a_contained_in_b_eq sc ec A B m1 m2 m3 m4] at h
  have key := rank_not_contained sc ec _ (hb _ m1) _ (hb _ m2) _ (hb _ m3) _ (hb _ m4) (by
      simp only [Bool.and_eq_true, Bool.or_eq_true, decide_eq_true_eq, Bool.not_eq_true']
      exact ⟨⟨hB2, hA2⟩, h⟩)
  have of_escapes : ∀ d, escapes K sc ec A B d = true →
      ∃ d, cell_contains K sc ec A.1 A.2 d = true ∧ in_open_arc K B d = false := by
    intro d hd
    unfold escapes at hd
    simp only [Bool.and_eq_true, Bool.not_eq_true'] at hd
    exact ⟨d, hd⟩
  simp only [Bool.or_eq_true] at key
  rcases key with (key | key) | key
  · rw [← r.escapes_eq sc ec A B A.1 m1 m2 m3 m4 m1] at key
    exact of_escapes _ key
  · rw [← r.escapes_eq sc ec A B A.2 m1 m2 m3 m4 m2] at key
    exact of_escapes _ key
  · have e : [f A.1, f A.2, f B.1, f B.2] = [A.1, A.2, B.1, B.2].map f := rfl
    rw [e] at key
    simp only [List.any_eq_true, List.mem_map] at key
    obtain ⟨_, ⟨x, hx, rfl⟩, _, ⟨y, hy, rfl⟩, hg⟩ := key
    rw [← r.gap_escapes_eq A B x y m1 m2 m3 m4 hx hy] at hg
    have hxy : x ≠ y := by
      unfold gap_escapes at hg
      simp only [Bool.and_eq_true, decide_eq_true_eq] at hg
      exact hg.1.1.1.1
    obtain ⟨d, hd⟩ := hD.exists_between x y hxy
    obtain ⟨g, gb, ge, gc⟩ := hK.rank [A.1, A.2, B.1, B.2, d]
    have r2 : Ranking K _ g := ⟨gb, ge, gc⟩
    have sub : ∀ z ∈ [A.1, A.2, B.1, B.2], z ∈ [A.1, A.2, B.1, B.2, d] := by
      intro z hz
      simp only [List.mem_cons, List.mem_singleton, List.not_mem_nil, or_false] at hz ⊢
      tauto
    have md : d ∈ [A.1, A.2, B.1, B.2, d] := by simp
    rw [r2.gap_escapes_eq A B x y (sub _ m1) (sub _ m2) (sub _ m3) (sub _ m4) (sub _ hx)
      (sub _ hy)] at hg
    rw [r2.ccw d md x (sub _ hx) y (sub _ hy)] at hd
    have k2 := rank_gap_escapes _ (gb _ (sub _ m1)) _ (gb _ (sub _ m2)) _ (gb _ (sub _ m3)) _
      (gb _ (sub _ m4)) _ (gb _ (sub _ hx)) _ (gb _ (sub _ hy)) hg _ (gb _ md) hd
    rw [← r2.in_open_arc_eq A.1 A.2 d (sub _ m1) (sub _ m2) md,
      ← r2.in_open_arc_eq B.1 B.2 d (sub _ m3) (sub _ m4) md] at k2
    simp only [Bool.and_eq_true, decide_eq_true_eq, Bool.not_eq_true'] at k2
    have hne : g A.1 ≠ g A.2 := k2.1.1
    have hne2 : A.1 ≠ A.2 := fun e => hne (by rw [e])
    refine ⟨d, ?_, k2.2⟩
    unfold cell_contains
    have hin : in_open_arc K (A.1, A.2) d = true := k2.1.2
    simp only [hne2, false_and, if_false, hin, Bool.or_true]

end containment

/-- C19: in a lawful and dense kernel, for a cell `A` with two different ends or
a single closed point (both flags closed) and an open half-circle `B`,
`is_a_contained_in_b` answers true exactly when every direction of the cell (the
clockwise sweep from the start of `A` to its end, with an end exactly when its
flag is closed) lies strictly inside `B`. -/
theorem C19_is_a_contained_in_b (K : Kernel) (hK : K.Lawful) (hD : K.Dense) (sc ec : Bool)
    (A B : Arc K) (hB : is_half_circle K B) (hA : A.1 ≠ A.2 ∨ (sc = true ∧ ec = true)) :
    is_a_contained_in_b K sc ec A B = true ↔
      ∀ d : K.Direction_2, cell_contains K sc ec A.1 A.2 d = true → in_open_arc K B d = true := by
  have hBne : B.1 ≠ B.2 := by
    rw [hB]; exact hK.opposite_ne _
  constructor
  · intro h d hd
    exact contained_sound hK sc ec A B hBne hA h d hd
  · intro h
    by_contra hc
    obtain ⟨d, h1, h2⟩ := not_contained_escapes hK hD sc ec A B hBne hA
      ((Bool.not_eq_true _).mp hc)
    rw [h d h1] at h2
    exact absurd h2 (by simp)

/-! ## The kernel with integer coordinates is dense -/

namespace Int_direction

theorem gcd_of_coprime (n D : Int) (h : IsCoprime n D) (a b : Int)
    (ha : a = D - n ∨ a = n - D) (hb : b = n ∨ b = -n) : Int.gcd a b = 1 := by
  rw [← Int.isCoprime_iff_gcd_eq_one]
  have h1 : IsCoprime (D - n) n := by
    have := h.symm.add_mul_left_left (-1)
    simpa [sub_eq_add_neg] using this
  rcases ha with rfl | rfl <;> rcases hb with rfl | rfl
  · exact h1
  · exact h1.neg_right
  · have := h1.neg_left; simpa using this
  · have := h1.neg_left.neg_right; simpa using this

/-- The angle along the square of a direction in a known quadrant. -/
theorem square_angle_q1 (d : Int_direction) (hx : 0 ≤ d.dx) (hy : 0 ≤ d.dy) :
    d.square_angle = ((d.dy : ℚ) / ((d.dx : ℚ) + (d.dy : ℚ))) / 4 := by
  unfold square_angle quadrant quadrant_num quadrant_den
  simp only [hx, hy, if_true]
  push_cast
  ring

theorem square_angle_q2 (d : Int_direction) (hx : d.dx < 0) (hy : 0 ≤ d.dy) :
    d.square_angle = (1 + (-(d.dx : ℚ)) / ((d.dy : ℚ) - (d.dx : ℚ))) / 4 := by
  unfold square_angle quadrant quadrant_num quadrant_den
  simp only [not_le.mpr hx, hy, if_true, if_false]
  push_cast
  ring

theorem square_angle_q3 (d : Int_direction) (hx : d.dx < 0) (hy : d.dy < 0) :
    d.square_angle = (2 + (-(d.dy : ℚ)) / (-(d.dx : ℚ) - (d.dy : ℚ))) / 4 := by
  unfold square_angle quadrant quadrant_num quadrant_den
  simp only [not_le.mpr hx, not_le.mpr hy, if_false]
  push_cast
  ring

theorem square_angle_q4 (d : Int_direction) (hx : 0 ≤ d.dx) (hy : d.dy < 0) :
    d.square_angle = (3 + (d.dx : ℚ) / ((d.dx : ℚ) - (d.dy : ℚ))) / 4 := by
  unfold square_angle quadrant quadrant_num quadrant_den
  simp only [hx, not_le.mpr hy, if_true, if_false]
  push_cast
  ring

/-- Every rational number in `[0, 1)` is the angle along the square of a
direction. -/
theorem square_angle_surjective (m : ℚ) (h0 : 0 ≤ m) (h1 : m < 1) :
    ∃ d : Int_direction, d.square_angle = m := by
  have key : ∀ (k : ℚ) (t : ℚ), 0 ≤ t → t < 1 → m = (k + t) / 4 →
      ∃ n D : Int, 0 ≤ n ∧ n < D ∧ IsCoprime n D ∧ m = (k + (n : ℚ) / (D : ℚ)) / 4 := by
    intro k t ht0 ht1 hm
    refine ⟨t.num, (t.den : Int), Rat.num_nonneg.mpr ht0, ?_, ?_, ?_⟩
    · exact (Rat.lt_one_iff_num_lt_denom).mp ht1
    · rw [Int.isCoprime_iff_gcd_eq_one]
      exact t.reduced
    · rw [hm]
      congr 2
      exact (Rat.num_div_den t).symm
  by_cases c1 : m < 1 / 4
  · obtain ⟨n, D, hn, hD, hc, hm⟩ := key 0 (4 * m) (by linarith) (by linarith) (by ring)
    refine ⟨⟨D - n, n, gcd_of_coprime n D hc _ _ (Or.inl rfl) (Or.inl rfl)⟩, ?_⟩
    rw [square_angle_q1 _ (by show 0 ≤ D - n; omega) (by show 0 ≤ n; omega), hm]
    push_cast
    ring_nf
  by_cases c2 : m < 1 / 2
  · obtain ⟨n, D, hn, hD, hc, hm⟩ := key 1 (4 * m - 1) (by linarith) (by linarith) (by ring)
    by_cases hz : n = 0
    · refine ⟨⟨0, 1, by decide⟩, ?_⟩
      rw [square_angle_q1 _ (by show (0 : Int) ≤ 0; omega) (by show (0 : Int) ≤ 1; omega), hm,
        hz]
      norm_num
    · refine ⟨⟨-n, D - n, by
        rw [Int.gcd_comm]
        exact gcd_of_coprime n D hc _ _ (Or.inl rfl) (Or.inr rfl)⟩, ?_⟩
      rw [square_angle_q2 _ (by show -n < 0; omega) (by show 0 ≤ D - n; omega), hm]
      push_cast
      ring_nf
  by_cases c3 : m < 3 / 4
  · obtain ⟨n, D, hn, hD, hc, hm⟩ := key 2 (4 * m - 2) (by linarith) (by linarith) (by ring)
    by_cases hz : n = 0
    · refine ⟨⟨-1, 0, by decide⟩, ?_⟩
      rw [square_angle_q2 _ (by show (-1 : Int) < 0; omega) (by show (0 : Int) ≤ 0; omega), hm,
        hz]
      norm_num
    · refine ⟨⟨n - D, -n, gcd_of_coprime n D hc _ _ (Or.inr rfl) (Or.inr rfl)⟩, ?_⟩
      rw [square_angle_q3 _ (by show n - D < 0; omega) (by show -n < 0; omega), hm]
      push_cast
      ring_nf
  · obtain ⟨n, D, hn, hD, hc, hm⟩ := key 3 (4 * m - 3) (by linarith) (by linarith) (by ring)
    refine ⟨⟨n, n - D, by
      rw [Int.gcd_comm]
      exact gcd_of_coprime n D hc _ _ (Or.inr rfl) (Or.inl rfl)⟩, ?_⟩
    rw [square_angle_q4 _ (by show 0 ≤ n; omega) (by show n - D < 0; omega), hm]
    push_cast
    ring_nf

end Int_direction

/-- The kernel with integer coordinates is dense: between two directions there
is the direction whose angle along the square is halfway. -/
theorem Int_kernel_dense : Int_kernel.Dense := by
  refine ⟨fun d1 d2 hne => ?_⟩
  have r1 := Int_direction.square_angle_range d1
  have r2 := Int_direction.square_angle_range d2
  have into : ∀ d : Int_direction, Int_direction.counterclockwise_in_between d d1 d2 = true →
      ∃ d : Int_kernel.Direction_2, Int_kernel.counterclockwise_in_between d d1 d2 = true :=
    fun d h => ⟨d, h⟩
  by_cases h : Int_direction.square_angle d1 < Int_direction.square_angle d2
  · obtain ⟨d, hd⟩ := Int_direction.square_angle_surjective
      ((Int_direction.square_angle d1 + Int_direction.square_angle d2) / 2)
      (by linarith) (by linarith)
    apply into d
    have a1 : Int_direction.angle_lt d1 d = true := by
      rw [Int_direction.angle_lt_iff, hd]; linarith
    have a2 : Int_direction.angle_lt d d2 = true := by
      rw [Int_direction.angle_lt_iff, hd]; linarith
    simp only [Int_direction.counterclockwise_in_between, a1, a2, if_true, Bool.true_or]
  · obtain ⟨d, hd⟩ := Int_direction.square_angle_surjective
      ((Int_direction.square_angle d1 + 1) / 2) (by linarith) (by linarith)
    apply into d
    have a1 : Int_direction.angle_lt d1 d = true := by
      rw [Int_direction.angle_lt_iff, hd]; linarith
    have a2 : Int_direction.angle_lt d1 d2 = false := by
      rw [← Bool.not_eq_true, Int_direction.angle_lt_iff]; exact h
    simp only [Int_direction.counterclockwise_in_between, a1, a2, if_true, Bool.not_false,
      Bool.or_true]

/-- Witness of C19: the integer kernel, the cell from west (closed) clockwise to
north (open) and the open half-circle from south to north. -/
theorem C19_witness :
    Int_kernel.Lawful ∧ Int_kernel.Dense ∧ is_half_circle Int_kernel (south, north) ∧
      (west ≠ north ∨ (true = true ∧ false = true)) ∧
      is_a_contained_in_b Int_kernel true false (west, north) (south, north) = true ∧
      (is_a_contained_in_b Int_kernel true false (west, north) (south, north) = true ↔
        ∀ d : Int_kernel.Direction_2,
          cell_contains Int_kernel true false west north d = true →
            in_open_arc Int_kernel (south, north) d = true) :=
  ⟨Int_kernel_lawful, Int_kernel_dense, by decide, by decide, by decide,
    C19_is_a_contained_in_b Int_kernel Int_kernel_lawful Int_kernel_dense true false
      (west, north) (south, north) (by decide) (by decide)⟩

/-! ## Cells that start where the next cell starts -/

/-- C21 fails as stated: after `Circle_arrangment((east, west))` and the calls
of `add_segment_outer_circle` with the half-circles (north-east, south-west),
(north-west, south-east), (west, east) and (south, north) the arrangement has two
cells that both start at west; the first is the circle without west, with an
open start, and the second is the single direction west, with a closed start.
The first is followed by the second, so a cell with an open start is followed by
a cell with a closed start at the same point. -/
theorem C21_open_start_before_closed_start :
    is_half_circle Int_kernel (east, west) ∧
      (∀ a ∈ arcs_around_west, is_half_circle Int_kernel a) ∧
      (arrangement_of_arcs Int_kernel (east, west) arcs_around_west).edges =
        [{ start_is_closed := false, edge_start_angle := west, count := 2, edge_index := 3 },
         { start_is_closed := true, edge_start_angle := west, count := 1, edge_index := 4 }] ∧
      ¬ ∀ p ∈ cyclic_pairs (arrangement_of_arcs Int_kernel (east, west) arcs_around_west).edges,
          may_be_followed_by p.1 p.2 := by
  decide

section same_start

variable {K : Kernel}

/-- A cell with a closed start contains its start point. -/
theorem pair_contains_closed_start (c n : Circle_arrangment_edge K)
    (h : c.start_is_closed = true) : pair_contains K (c, n) c.edge_start_angle = true := by
  simp only [pair_contains, cell_contains, h]
  split_ifs <;> simp

/-- A cell whose next cell has an open start contains the start point of that
cell. -/
theorem pair_contains_closed_end (c n : Circle_arrangment_edge K)
    (h : n.start_is_closed = false) : pair_contains K (c, n) n.edge_start_angle = true := by
  simp only [pair_contains, cell_contains, h]
  split_ifs with h1
  · simp [h1.1]
  · simp

theorem chain_count_head_pos (d : K.Direction_2) (c : Circle_arrangment_edge K)
    (rest : Circle_edges K) (t : Circle_arrangment_edge K)
    (h : ∀ m, pair_contains K (c, m) d = true) : 1 ≤ chain_count K d (c :: rest) t := by
  cases rest with
  | nil => simp [chain_count, h]
  | cons b rest2 => simp only [chain_count, h, if_true]; omega

/-- In a list of at least three cells that partition the circle, of two
consecutive cells with the same start point the first has a closed start and the
second has an open start. -/
theorem closed_then_open_front (hK : K.Lawful) (x y : Circle_arrangment_edge K)
    (rest : Circle_edges K) (hrest : rest ≠ []) (h : partitions K (x :: y :: rest))
    (hs : x.edge_start_angle = y.edge_start_angle) :
    x.start_is_closed = true ∧ y.start_is_closed = false := by
  have hne := no_empty_cell_front hK x y rest h hs
  cases hx : x.start_is_closed with
  | true =>
    cases hy : y.start_is_closed with
    | true => rw [hx, hy] at hne; exact absurd rfl hne
    | false => exact ⟨rfl, rfl⟩
  | false =>
    cases hy : y.start_is_closed with
    | false => rw [hx, hy] at hne; exact absurd rfl hne
    | true =>
      exfalso
      rcases List.eq_nil_or_concat' rest with e | ⟨pre, z, e⟩
      · exact hrest e
      · subst e
        have h2 : partitions K ((y :: pre) ++ z :: [x]) := by
          have := partitions_rotate [x] (y :: (pre ++ [z])) h
          simpa using this
        have h3 := h2 y.edge_start_angle
        have split : cyclic_count K y.edge_start_angle ((y :: pre) ++ z :: [x]) =
            chain_count K y.edge_start_angle (y :: pre) z +
              chain_count K y.edge_start_angle (z :: [x]) y :=
          chain_count_append y.edge_start_angle (y :: pre) z [x] y
        rw [split] at h3
        have c1 : 1 ≤ chain_count K y.edge_start_angle (y :: pre) z :=
          chain_count_head_pos _ y pre z (fun m => pair_contains_closed_start y m hy)
        have c2 : 1 ≤ chain_count K y.edge_start_angle (z :: [x]) y := by
          have := pair_contains_closed_end z x hx
          rw [hs] at this
          simp only [chain_count, this, if_true]
          omega
        omega

/-- In a list of at least three cells that partition the circle, of two
cyclically consecutive cells with the same start point the first has a closed
start and the second has an open start. -/
theorem closed_then_open (hK : K.Lawful) (l : Circle_edges K) (h : partitions K l)
    (hlen : 3 ≤ l.length) :
    ∀ p ∈ cyclic_pairs l, p.1.edge_start_angle = p.2.edge_start_angle →
      p.1.start_is_closed = true ∧ p.2.start_is_closed = false := by
  intro p hp hs
  obtain ⟨xs, ys, rest, e1, e2⟩ := cyclic_pairs_rotate l (by omega) p.1 p.2 hp
  have h2 : partitions K (p.1 :: p.2 :: rest) := by
    rw [← e2]; apply partitions_rotate; rw [← e1]; exact h
  have hr : rest ≠ [] := by
    intro e
    have := congrArg List.length e2
    rw [e1, List.length_append] at hlen
    rw [e, List.length_append] at this
    simp only [List.length_cons, List.length_nil] at this
    omega
  exact closed_then_open_front hK p.1 p.2 rest hr h2 hs

/-- A cell with a closed start whose next cell starts at the same point with
an open start is the single direction at that point. -/
theorem pair_contains_single (p : Circle_arrangment_edge K × Circle_arrangment_edge K)
    (hs : p.1.edge_start_angle = p.2.edge_start_angle) (h1 : p.1.start_is_closed = true)
    (h2 : p.2.start_is_closed = false) (d : K.Direction_2) :
    pair_contains K p d = decide (d = p.1.edge_start_angle) := by
  simp [pair_contains, cell_contains, hs, h1, h2]

/-- The cell is inserted exactly when it may follow `cur` and may be followed by
`next`. -/
theorem insert_if_legal_eq_spec (cur next edge : Circle_arrangment_edge K) :
    insert_if_legal cur next edge =
      if may_be_followed_by cur edge ∧ may_be_followed_by edge next then [edge] else [] := by
  obtain ⟨csc, cs, cc, ci⟩ := cur
  obtain ⟨nsc, ns, nc, ni⟩ := next
  obtain ⟨esc, es, ec, ei⟩ := edge
  simp only [insert_if_legal, may_be_followed_by]
  by_cases h1 : es = ns
  · subst h1
    by_cases h2 : cs = es
    · subst h2
      cases esc <;> cases nsc <;> cases csc <;> simp
    · have h3 : ¬ es = cs := fun e => h2 e.symm
      cases esc <;> cases nsc <;> cases csc <;> simp [h2, h3]
  · by_cases h2 : cs = es
    · subst h2
      cases esc <;> cases nsc <;> cases csc <;> simp [h1]
    · have h3 : ¬ es = cs := fun e => h2 e.symm
      cases esc <;> cases nsc <;> cases csc <;> simp [h1, h2, h3]

end same_start

/-- C21, amended: in a lawful kernel, after the constructor and any number of
calls of `add_segment_outer_circle` with half-circle arcs, no cell is empty.  In
an arrangement of at least three cells, whenever two cyclically consecutive
cells have the same start point, the first has a closed start and the second has
an open start, and the first is the single direction at that point.  In an
arrangement of two cells that start at the same point the two start flags
differ.  `insert_if_legal` inserts the cell exactly when it may follow `cur_it`
and may be followed by `next_it` in this sense, and refuses it otherwise. -/
theorem C21_same_start_closed_then_open (K : Kernel) (hK : K.Lawful) (a_0 : Arc K)
    (calls : List (Arc K × Nat)) (h0 : is_half_circle K a_0)
    (hcalls : ∀ c ∈ calls, is_half_circle K c.1) :
    (3 ≤ (add_all (Circle_arrangment.ctor K a_0) calls).edges.length →
        ∀ p ∈ cyclic_pairs (add_all (Circle_arrangment.ctor K a_0) calls).edges,
          may_be_followed_by p.1 p.2 ∧
            (p.1.edge_start_angle = p.2.edge_start_angle →
              ∀ d, pair_contains K p d = decide (d = p.1.edge_start_angle))) ∧
      ((add_all (Circle_arrangment.ctor K a_0) calls).edges.length = 2 →
        ∀ p ∈ cyclic_pairs (add_all (Circle_arrangment.ctor K a_0) calls).edges,
          p.1.edge_start_angle = p.2.edge_start_angle →
            p.1.start_is_closed ≠ p.2.start_is_closed) ∧
      ∀ cur next edge : Circle_arrangment_edge K,
        insert_if_legal cur next edge =
          if may_be_followed_by cur edge ∧ may_be_followed_by edge next then [edge] else [] := by
  have hne : a_0.1 ≠ a_0.2 := by
    rw [h0]; exact hK.opposite_ne _
  have hp := partitions_add_all hK calls hcalls _ (partitions_ctor hK a_0 hne)
  refine ⟨?_, ?_, insert_if_legal_eq_spec⟩
  · intro hlen p hp2
    have key := closed_then_open hK _ hp hlen p hp2
    exact ⟨key, fun hs => pair_contains_single p hs (key hs).1 (key hs).2⟩
  · intro hlen
    exact no_empty_cell hK _ hp (by omega)

/-- Witness of C21, amended: the integer kernel and the arcs (east, west) and
(west, east), which give four cells: the single directions east and west, each
followed by a cell with an open start at the same point. -/
theorem C21_witness :
    Int_kernel.Lawful ∧ is_half_circle Int_kernel (east, west) ∧
      (∀ c ∈ ([((west, east), 1)] : List (Arc Int_kernel × Nat)),
        is_half_circle Int_kernel c.1) ∧
      3 ≤ (add_all (Circle_arrangment.ctor Int_kernel (east, west))
        [((west, east), 1)]).edges.length ∧
      ∀ p ∈ cyclic_pairs (add_all (Circle_arrangment.ctor Int_kernel (east, west))
          [((west, east), 1)]).edges,
        may_be_followed_by p.1 p.2 ∧
          (p.1.edge_start_angle = p.2.edge_start_angle →
            ∀ d, pair_contains Int_kernel p d = decide (d = p.1.edge_start_angle)) :=
  ⟨Int_kernel_lawful, by decide, by decide, by decide,
    (C21_same_start_closed_then_open Int_kernel Int_kernel_lawful (east, west)
      [((west, east), 1)] (by decide) (by decide)).1 (by decide)⟩

/-! ## No cell is empty -/

section same_start_cells

variable {K : Kernel}

/-- A single cell that partitions the circle contains every direction. -/
theorem single_cell_contains (l : Circle_edges K) (h : partitions K l) (hlen : l.length = 1) :
    ∀ p ∈ cyclic_pairs l, ∀ d, pair_contains K p d = true := by
  obtain ⟨c, rfl⟩ := List.length_eq_one.mp hlen
  intro p hp d
  simp only [cyclic_pairs, cyclic_next, List.nil_append, List.zip_cons_cons, List.zip_nil_right,
    List.mem_singleton] at hp
  subst hp
  have := h d
  simp only [cyclic_count, chain_count] at this
  by_contra hc
  rw [if_neg hc] at this
  exact absurd this (by decide)

/-- Of two cells that make up the whole list, partition the circle and start at
the same point, the one with the closed start is the single direction at that
point and the other one is the rest of the circle. -/
theorem two_cells_same_start (hK : K.Lawful) (l : Circle_edges K) (h : partitions K l)
    (hlen : l.length = 2) :
    ∀ p ∈ cyclic_pairs l, p.1.edge_start_angle = p.2.edge_start_angle →
      p.1.start_is_closed ≠ p.2.start_is_closed ∧
        ∀ d, pair_contains K p d =
          if p.1.start_is_closed = true then decide (d = p.1.edge_start_angle)
          else !decide (d = p.1.edge_start_angle) := by
  intro p hp hs
  have hne := no_empty_cell hK l h (by omega) p hp hs
  refine ⟨hne, ?_⟩
  intro d
  cases h1 : p.1.start_is_closed with
  | true =>
    have h2 : p.2.start_is_closed = false := by
      cases h2 : p.2.start_is_closed with
      | false => rfl
      | true => rw [h1, h2] at hne; exact absurd rfl hne
    rw [if_pos rfl]
    exact pair_contains_single p hs h1 h2 d
  | false =>
    have h2 : p.2.start_is_closed = true := by
      cases h2 : p.2.start_is_closed with
      | true => rfl
      | false => rw [h1, h2] at hne; exact absurd rfl hne
    rw [if_neg (by decide)]
    obtain ⟨xs, ys, rest, e1, e2⟩ := cyclic_pairs_rotate l (by omega) p.1 p.2 hp
    have hr : rest = [] := by
      have := congrArg List.length e2
      rw [e1, List.length_append] at hlen
      rw [List.length_append] at this
      simp only [List.length_cons] at this
      apply List.eq_nil_of_length_eq_zero
      omega
    have hpart : partitions K (p.1 :: p.2 :: rest) := by
      rw [← e2]; apply partitions_rotate; rw [← e1]; exact h
    rw [hr] at hpart
    have hd := hpart d
    simp only [cyclic_count, chain_count] at hd
    have hq := pair_contains_single (p.2, p.1) hs.symm h2 h1 d
    simp only at hq
    rw [hq, ← hs] at hd
    by_cases e : d = p.1.edge_start_angle
    · simp only [e, decide_True, if_true, Bool.not_true] at hd ⊢
      by_contra hc
      rw [Bool.not_eq_false] at hc
      rw [if_pos hc] at hd
      exact absurd hd (by decide)
    · simp only [e, decide_False, Bool.false_eq_true, if_false, Bool.not_false,
        Nat.add_zero] at hd ⊢
      by_contra hc
      rw [if_neg hc] at hd
      exact absurd hd (by decide)

end same_start_cells

/-- C10, amended: in a lawful kernel, after the constructor and any number of
calls of `add_segment_outer_circle` with half-circle arcs, no cell is empty.  In
an arrangement of at least three cells, a cell that starts at the start point of
the cyclically next cell has a closed start, the next cell has an open start,
and the cell is the single direction at that point.  In an arrangement of two
cells that start at the same point the two start flags differ, the cell with the
closed start is the single direction at that point and the other cell is the
rest of the circle.  An arrangement of one cell is the whole circle, and no
arrangement is without cells. -/
theorem C10_no_empty_cell (K : Kernel) (hK : K.Lawful) (a_0 : Arc K)
    (calls : List (Arc K × Nat)) (h0 : is_half_circle K a_0)
    (hcalls : ∀ c ∈ calls, is_half_circle K c.1) :
    (3 ≤ (add_all (Circle_arrangment.ctor K a_0) calls).edges.length →
        ∀ p ∈ cyclic_pairs (add_all (Circle_arrangment.ctor K a_0) calls).edges,
          p.1.edge_start_angle = p.2.edge_start_angle →
            p.1.start_is_closed = true ∧ p.2.start_is_closed = false ∧
              ∀ d, pair_contains K p d = decide (d = p.1.edge_start_angle)) ∧
      ((add_all (Circle_arrangment.ctor K a_0) calls).edges.length = 2 →
        ∀ p ∈ cyclic_pairs (add_all (Circle_arrangment.ctor K a_0) calls).edges,
          p.1.edge_start_angle = p.2.edge_start_angle →
            p.1.start_is_closed ≠ p.2.start_is_closed ∧
              ∀ d, pair_contains K p d =
                if p.1.start_is_closed = true then decide (d = p.1.edge_start_angle)
                else !decide (d = p.1.edge_start_angle)) ∧
      ((add_all (Circle_arrangment.ctor K a_0) calls).edges.length = 1 →
        ∀ p ∈ cyclic_pairs (add_all (Circle_arrangment.ctor K a_0) calls).edges,
          ∀ d, pair_contains K p d = true) ∧
      1 ≤ (add_all (Circle_arrangment.ctor K a_0) calls).edges.length := by
  have hne : a_0.1 ≠ a_0.2 := by
    rw [h0]; exact hK.opposite_ne _
  have hp := partitions_add_all hK calls hcalls _ (partitions_ctor hK a_0 hne)
  refine ⟨?_, ?_, ?_, ?_⟩
  · intro hlen p hp2 hs
    have key := closed_then_open hK _ hp hlen p hp2 hs
    exact ⟨key.1, key.2, pair_contains_single p hs key.1 key.2⟩
  · intro hlen
    exact two_cells_same_start hK _ hp hlen
  · intro hlen
    exact single_cell_contains _ hp hlen
  · have := (list_invariant_add_all calls _ (list_invariant_ctor a_0)).1
    exact List.length_pos.mpr this

/-- Witness of C10, amended: the integer kernel and the arcs (east, west) and
(west, east), the input at which the claim as stated fails. -/
theorem C10_witness :
    Int_kernel.Lawful ∧ is_half_circle Int_kernel (east, west) ∧
      (∀ c ∈ ([((west, east), 1)] : List (Arc Int_kernel × Nat)),
        is_half_circle Int_kernel c.1) ∧
      3 ≤ (add_all (Circle_arrangment.ctor Int_kernel (east, west))
        [((west, east), 1)]).edges.length ∧
      ∀ p ∈ cyclic_pairs (add_all (Circle_arrangment.ctor Int_kernel (east, west))
          [((west, east), 1)]).edges,
        p.1.edge_start_angle = p.2.edge_start_angle →
          p.1.start_is_closed = true ∧ p.2.start_is_closed = false ∧
            ∀ d, pair_contains Int_kernel p d = decide (d = p.1.edge_start_angle) :=
  ⟨Int_kernel_lawful, by decide, by decide, by decide,
    (C10_no_empty_cell Int_kernel Int_kernel_lawful (east, west) [((west, east), 1)]
      (by decide) (by decide)).1 (by decide)⟩

/-! ## What a call of `add_segment_outer_circle` leaves as it was -/

/-- C22: the list after the loop of `add_segment_outer_circle` is, up to the
place where the list begins, made of the examined cell and the inserted cells of
every pass, and the passes examine the cells of the list before the call in
order.  The examined cells, as the passes leave them, have in order the start
points and the start flags of the cells before the call.  A pass that examines a
cell of count 2 leaves the cell as it is and inserts nothing, so the cell is
still followed by the cell that followed it.  The merge that ends the call keeps
a sublist: it erases exactly the cells of count 2 that follow a cell of count 2
in the list after the loop. -/
theorem C22_frame_of_add_segment_outer_circle (K : Kernel) (edges : Circle_edges K)
    (B : Arc K) (k : Nat) :
    (Circle_arrangment.add_segment_outer_circle_loop edges B k).IsRotated
        ((loop_passes edges).flatMap fun p => (p.run B k).1 :: (p.run B k).2) ∧
      (loop_passes edges).map (fun p => p.it) = edges ∧
      (loop_passes edges).map (fun p =>
          ((p.run B k).1.edge_start_angle, (p.run B k).1.start_is_closed)) =
        edges.map (fun c => (c.edge_start_angle, c.start_is_closed)) ∧
      (∀ p ∈ loop_passes edges, p.it.count = 2 → p.run B k = (p.it, [])) ∧
      ((Circle_arrangment.mk edges).add_segment_outer_circle B k).edges =
        merge_spec (Circle_arrangment.add_segment_outer_circle_loop edges B k) ∧
      ((Circle_arrangment.mk edges).add_segment_outer_circle B k).edges.Sublist
        (Circle_arrangment.add_segment_outer_circle_loop edges B k) := by
  refine ⟨loop_passes_rotated _ _ _, loop_passes_it _, ?_, ?_, ?_, merge_loop_sublist false _⟩
  · conv_rhs => rw [← loop_passes_it edges]
    rw [List.map_map]
    apply List.map_congr_left
    intro p _
    have := loop_body_fst_start B k p.is_start_closed_segment p.is_end_closed_segment p.edge
      p.it p.next
    exact Prod.ext this.1 this.2
  · intro p _ h
    exact loop_body_of_covered _ _ _ _ _ _ _ h
  · exact merge_loop_eq_spec _ false none (by simp)

/-- Witness of C22: when the arc (west, east) is added to the arrangement of the
arcs (east, west) and (north, south), the pass that examines the cell of count 2
leaves it as it is and inserts nothing. -/
theorem C22_witness :
    covered_pass ∈ loop_passes (arrangement_of_arcs Int_kernel (east, west)
        [(north, south)]).edges ∧
      covered_pass.it.count = 2 ∧
      covered_pass.run (west, east) 2 = (covered_pass.it, []) :=
  ⟨by decide, by decide,
    (C22_frame_of_add_segment_outer_circle Int_kernel
      (arrangement_of_arcs Int_kernel (east, west) [(north, south)]).edges (west, east)
      2).2.2.2.1 covered_pass (by decide) (by decide)⟩

/-! ## The loop of `add_segment_outer_circle` with its iterators -/

section list_facts

variable {α : Type}

/-- The element at a position of a list is, after the insertion of `l` behind
the prefix `P`, at the position moved by the length of `l` when it is not in
`P`. -/
theorem inserted_lookup (P l S : List α) (i : Nat) :
    (P ++ l ++ S)[if P.length ≤ i then i + l.length else i]? = (P ++ S)[i]? := by
  by_cases h : P.length ≤ i
  · rw [if_pos h, List.append_assoc, List.getElem?_append_right (by omega),
      List.getElem?_append_right (by omega), List.getElem?_append_right h]
    congr 1
    omega
  · rw [if_neg h, List.append_assoc, List.getElem?_append_left (by omega),
      List.getElem?_append_left (by omega)]

theorem inserted_set (P l S : List α) (i : Nat) (x : α) :
    (P ++ l ++ S).set (if P.length ≤ i then i + l.length else i) x =
      ((P ++ S).set i x).take P.length ++ l ++ ((P ++ S).set i x).drop P.length := by
  by_cases h : P.length ≤ i
  · rw [if_pos h, List.append_assoc, List.set_append_right _ _ (by omega),
      List.set_append_right _ _ (by omega), List.set_append_right _ _ h,
      List.take_left, List.drop_left, List.append_assoc]
    congr 3
    omega
  · rw [if_neg h, List.append_assoc, List.set_append_left _ _ (by omega),
      List.set_append_left _ _ (by omega),
      List.take_left' (List.length_set _ _ _), List.drop_left' (List.length_set _ _ _),
      List.append_assoc]

end list_facts

namespace Loop_state

variable {K : Kernel}

theorem summary_self (s : Loop_state K) (c : Circle_arrangment_edge K)
    (hc : s.edges[s.it]? = some c) : s.summary c [] = s := by
  have h1 : s.edges.set s.it c = s.edges := by
    apply List.ext_getElem?
    intro n
    by_cases h : s.it = n
    · subst h
      rw [List.getElem?_set_self' , hc]; rfl
    · rw [List.getElem?_set_ne h]
  simp [summary, insert_before_next_it, h1]

theorem summary_it (s : Loop_state K) (x : Circle_arrangment_edge K) (l : Circle_edges K)
    (hi : s.it < s.edges.length) (hj : s.next_it ≤ s.edges.length) :
    (s.summary x l).edges[(s.summary x l).it]? = some x := by
  simp only [summary, insert_before_next_it]
  have e : (s.edges.set s.it x).take s.next_it ++ l ++ (s.edges.set s.it x).drop s.next_it =
      (s.edges.set s.it x).take s.next_it ++ l ++ (s.edges.set s.it x).drop s.next_it := rfl
  have len : ((s.edges.set s.it x).take s.next_it).length = s.next_it := by
    rw [List.length_take, List.length_set]; omega
  have := inserted_lookup ((s.edges.set s.it x).take s.next_it) l
    ((s.edges.set s.it x).drop s.next_it) s.it
  rw [len, List.take_append_drop] at this
  rw [this, List.getElem?_set_self hi]

theorem summary_next_it (s : Loop_state K) (x n : Circle_arrangment_edge K)
    (l : Circle_edges K) (hn : s.edges[s.next_it]? = some n) :
    (s.summary x l).edges[(s.summary x l).next_it]? =
      some (if s.it = s.next_it then x else n) := by
  have hj : s.next_it < s.edges.length := by
    by_contra h
    rw [List.getElem?_eq_none (by omega)] at hn
    exact absurd hn (by simp)
  simp only [summary, insert_before_next_it]
  have len : ((s.edges.set s.it x).take s.next_it).length = s.next_it := by
    rw [List.length_take, List.length_set]; omega
  have := inserted_lookup ((s.edges.set s.it x).take s.next_it) l
    ((s.edges.set s.it x).drop s.next_it) s.next_it
  rw [len, List.take_append_drop, if_pos (Nat.le_refl _)] at this
  rw [this]
  by_cases h : s.it = s.next_it
  · rw [if_pos h, h, List.getElem?_set_self hj]
  · rw [if_neg h, List.getElem?_set_ne h, hn]

theorem summary_insert (s : Loop_state K) (x : Circle_arrangment_edge K)
    (l1 l2 : Circle_edges K) (hj : s.next_it ≤ s.edges.length) :
    (s.summary x l1).insert_before_next_it l2 = s.summary x (l1 ++ l2) := by
  have len : ((s.edges.set s.it x).take s.next_it).length = s.next_it := by
    rw [List.length_take, List.length_set]; omega
  have e1 : ((s.edges.set s.it x).take s.next_it ++ (l1 ++
      (s.edges.set s.it x).drop s.next_it)).take (s.next_it + l1.length) =
      (s.edges.set s.it x).take s.next_it ++ l1 := by
    rw [← List.append_assoc]
    apply List.take_left'
    rw [List.length_append, len]
  have e2 : ((s.edges.set s.it x).take s.next_it ++ (l1 ++
      (s.edges.set s.it x).drop s.next_it)).drop (s.next_it + l1.length) =
      (s.edges.set s.it x).drop s.next_it := by
    rw [← List.append_assoc]
    apply List.drop_left'
    rw [List.length_append, len]
  simp only [summary, insert_before_next_it, List.length_append, List.append_assoc, e1, e2]
  congr 1
  · omega
  · split_ifs <;> omega

theorem summary_set (s : Loop_state K) (x y : Circle_arrangment_edge K) (l : Circle_edges K)
    (hj : s.next_it ≤ s.edges.length) :
    ({ s.summary x l with edges := (s.summary x l).edges.set (s.summary x l).it y } :
      Loop_state K) = s.summary y l := by
  have len : ((s.edges.set s.it x).take s.next_it).length = s.next_it := by
    rw [List.length_take, List.length_set]; omega
  have := inserted_set ((s.edges.set s.it x).take s.next_it) l
    ((s.edges.set s.it x).drop s.next_it) s.it y
  rw [len, List.take_append_drop, List.set_set] at this
  simp only [summary, insert_before_next_it, this]


theorem insert_if_legal_congr (cur cur2 next next2 edge : Circle_arrangment_edge K)
    (h1 : cur2.edge_start_angle = cur.edge_start_angle)
    (h2 : cur2.start_is_closed = cur.start_is_closed)
    (h3 : next2.edge_start_angle = next.edge_start_angle)
    (h4 : next2.start_is_closed = next.start_is_closed) :
    insert_if_legal cur2 next2 edge = insert_if_legal cur next edge := by
  simp only [insert_if_legal, h1, h2, h3, h4]

theorem lt_of_lookup_eq_some {α : Type} (l : List α) (i : Nat) (x : α)
    (h : l[i]? = some x) : i < l.length := by
  by_contra hh
  rw [List.getElem?_eq_none (by omega)] at h
  exact absurd h (by simp)

theorem call_insert_if_legal_summary (s : Loop_state K) (c n x : Circle_arrangment_edge K)
    (l : Circle_edges K) (e : Circle_arrangment_edge K)
    (hc : s.edges[s.it]? = some c) (hn : s.edges[s.next_it]? = some n)
    (h1 : x.edge_start_angle = c.edge_start_angle)
    (h2 : x.start_is_closed = c.start_is_closed) :
    (s.summary x l).call_insert_if_legal e =
      some (s.summary x (l ++ insert_if_legal c n e)) := by
  have hi := lt_of_lookup_eq_some _ _ _ hc
  have hj := lt_of_lookup_eq_some _ _ _ hn
  unfold call_insert_if_legal
  rw [summary_it s x l hi (by omega), summary_next_it s x n l hn]
  simp only []
  rw [summary_insert s x l _ (by omega)]
  congr 2
  by_cases h : s.it = s.next_it
  · rw [if_pos h]
    have : c = n := by
      rw [h, hn] at hc
      exact (Option.some.inj hc).symm
    subst this
    rw [insert_if_legal_congr _ _ _ _ _ h1 h2 h1 h2]
  · rw [if_neg h]
    rw [insert_if_legal_congr c x n n e h1 h2 rfl rfl]

theorem plusplus_it_summary (s : Loop_state K) (c x : Circle_arrangment_edge K)
    (l : Circle_edges K) (k : Nat) (hc : s.edges[s.it]? = some c)
    (hj : s.next_it ≤ s.edges.length) :
    (s.summary x l).plusplus_it k = some (s.summary (x.plusplus k) l) := by
  have hi := lt_of_lookup_eq_some _ _ _ hc
  unfold plusplus_it
  rw [summary_it s x l hi hj]
  simp only []
  rw [summary_set s x _ l hj]

/-- The body of a pass, run on the list with its iterators, replaces the cell at
`it` by the examined cell as `loop_body` leaves it and inserts before `next_it`
the cells `loop_body` inserts. -/
theorem body_eq (B : Arc K) (k : Nat) (s : Loop_state K) (c n : Circle_arrangment_edge K)
    (hc : s.edges[s.it]? = some c) (hn : s.edges[s.next_it]? = some n) :
    s.body B k =
      some (s.summary
        (loop_body B k s.is_start_closed_segment s.is_end_closed_segment s.edge c n).1
        (loop_body B k s.is_start_closed_segment s.is_end_closed_segment s.edge c n).2) := by
  have hi := lt_of_lookup_eq_some _ _ _ hc
  have hj := lt_of_lookup_eq_some _ _ _ hn
  have e0 := summary_self s c hc
  have ins : ∀ e, s.call_insert_if_legal e = some (s.summary c (insert_if_legal c n e)) := by
    intro e
    have := call_insert_if_legal_summary s c n c [] e hc hn rfl rfl
    rw [e0] at this
    exact this
  have pp : s.plusplus_it k = some (s.summary (c.plusplus k) []) := by
    have := plusplus_it_summary s c c [] k hc (by omega)
    rw [e0] at this
    exact this
  unfold body
  rw [hc]
  simp only [loop_body]
  split_ifs
  · rw [e0]
  · exact pp
  · rw [ins, Option.some_bind, summary_it s c _ hi (by omega), Option.some_bind,
      call_insert_if_legal_summary s c n c _ _ hc hn rfl rfl]
  · rw [ins, Option.some_bind, summary_it s c _ hi (by omega), Option.some_bind,
      call_insert_if_legal_summary s c n c _ _ hc hn rfl rfl, Option.some_bind,
      plusplus_it_summary s c c _ k hc (by omega)]
  · exact ins _
  · rw [pp, Option.some_bind,
      call_insert_if_legal_summary s c n _ _ _ hc hn (plusplus_start c k) (plusplus_closed c k)]
    rfl
  · rw [e0]

end Loop_state

section while_loop

variable {K : Kernel}

theorem while_loop_done (B : Arc K) (k : Nat) (fuel : Nat) (s : Loop_state K)
    (h : s.done = true) : while_loop B k fuel s = some ([], s) := by
  cases fuel <;> simp [while_loop, h]

theorem loop_body_congr_next (B : Arc K) (k : Nat) (sc ec : Bool) (edge : Arc K)
    (it next next2 : Circle_arrangment_edge K)
    (h1 : next2.edge_start_angle = next.edge_start_angle)
    (h2 : next2.start_is_closed = next.start_is_closed) :
    loop_body B k sc ec edge it next2 = loop_body B k sc ec edge it next := by
  simp only [loop_body, Loop_state.insert_if_legal_congr it it next next2 _ rfl rfl h1 h2]

/-- The loop on the list with its iterators, started where `next_it` is at the
first cell of `rem` and the cells before it are `pre`, ends within as many passes
as `rem` has cells, and ends with the list `add_loop` computes from `rem`; every
pass examines the first cell of what is left of `rem`, and what it reads is what
`add_loop_passes` lists. -/
theorem while_loop_from (B : Arc K) (k : Nat) (first : Circle_arrangment_edge K) :
    ∀ (rem : Circle_edges K), rem ≠ [] → ∀ (pre : Circle_edges K) (s : Loop_state K)
      (fuel : Nat) (f : Circle_arrangment_edge K),
      s.edges = pre ++ rem → s.next_it = pre.length → s.done = false →
      (pre ++ rem)[0]? = some f → f.edge_start_angle = first.edge_start_angle →
      f.start_is_closed = first.start_is_closed → rem.length ≤ fuel →
      ∃ trace final, while_loop B k fuel s = some (trace, final) ∧ final.done = true ∧
        final.edges = (add_loop B k first s.is_end_closed_segment s.edge.2 rem).1 ++ pre ++
          (add_loop B k first s.is_end_closed_segment s.edge.2 rem).2 ∧
        trace.map (fun t => t.edges.drop t.it) = suffixes rem ∧
        trace.map Loop_state.examined =
          (add_loop_passes first s.is_end_closed_segment s.edge.2 rem).map fun p =>
            (p.is_start_closed_segment, p.is_end_closed_segment, p.edge, some p.it) := by
  intro rem
  induction rem with
  | nil => intro h; exact absurd rfl h
  | cons c rest ih =>
    intro _ pre s fuel f hedges hnext hdone hf hf1 hf2 hfuel
    cases fuel with
    | zero => simp at hfuel
    | succ fuel =>
      cases rest with
      | nil =>
        have hadv : s.advance = some
            { edges := pre ++ [c], is_start_closed_segment := !s.is_end_closed_segment
              is_end_closed_segment := !f.start_is_closed
              edge := (s.edge.2, f.edge_start_angle)
              next_it := 0, it := pre.length, done := true } := by
          simp [Loop_state.advance, hedges, hnext, hf]
        have hc : (pre ++ [c])[pre.length]? = some c := by simp
        have hb := Loop_state.body_eq B k _ c f (show
          ({ edges := pre ++ [c], is_start_closed_segment := !s.is_end_closed_segment
             is_end_closed_segment := !f.start_is_closed
             edge := (s.edge.2, f.edge_start_angle)
             next_it := 0, it := pre.length, done := true } : Loop_state K).edges[pre.length]? =
            some c from hc) hf
        simp only [while_loop, hdone, hadv, Option.some_bind, hb, Bool.false_eq_true, if_false]
        rw [while_loop_done B k fuel _ rfl]
        refine ⟨_, _, rfl, rfl, ?_, ?_, ?_⟩
        · simp only [Loop_state.summary, Loop_state.insert_before_next_it, add_loop,
            List.take_zero, List.drop_zero, List.nil_append]
          rw [hf1, hf2, loop_body_congr_next B k _ _ _ c first f hf1 hf2,
            List.set_append_right _ _ (Nat.le_refl _)]
          simp
        · simp [suffixes]
        · simp [Loop_state.examined, add_loop_passes, hf1, hf2]
      | cons n rest2 =>
        have hlen : ¬ pre.length + 1 = (pre ++ c :: n :: rest2).length := by
          rw [List.length_append]; simp
        have hn : (pre ++ c :: n :: rest2)[pre.length + 1]? = some n := by
          rw [List.getElem?_append_right (by omega)]; simp
        have hadv : s.advance = some
            { edges := pre ++ c :: n :: rest2
              is_start_closed_segment := !s.is_end_closed_segment
              is_end_closed_segment := !n.start_is_closed
              edge := (s.edge.2, n.edge_start_angle)
              next_it := pre.length + 1, it := pre.length, done := false } := by
          simp only [Loop_state.advance, hedges, hnext, hlen, decide_False, hn, hdone,
            Bool.false_eq_true, if_false]
        have hc : (pre ++ c :: n :: rest2)[pre.length]? = some c := by
          rw [List.getElem?_append_right (Nat.le_refl _)]; simp
        have hb := Loop_state.body_eq B k _ c n (show
          ({ edges := pre ++ c :: n :: rest2
             is_start_closed_segment := !s.is_end_closed_segment
             is_end_closed_segment := !n.start_is_closed
             edge := (s.edge.2, n.edge_start_angle)
             next_it := pre.length + 1, it := pre.length, done := false } :
            Loop_state K).edges[pre.length]? = some c from hc) hn
        simp only [while_loop, hdone, hadv, Option.some_bind, hb, Bool.false_eq_true, if_false]
        generalize hr : loop_body B k (!s.is_end_closed_segment) (!n.start_is_closed)
          (s.edge.2, n.edge_start_angle) c n = r
        have hstart := loop_body_fst_start B k (!s.is_end_closed_segment) (!n.start_is_closed)
          (s.edge.2, n.edge_start_angle) c n
        rw [hr] at hstart
        have hset : (pre ++ c :: n :: rest2).set pre.length r.1 = (pre ++ [r.1]) ++ n :: rest2 := by
          rw [List.set_append_right _ _ (Nat.le_refl _)]; simp
        have hedges2 : (Loop_state.summary
            ({ edges := pre ++ c :: n :: rest2
               is_start_closed_segment := !s.is_end_closed_segment
               is_end_closed_segment := !n.start_is_closed
               edge := (s.edge.2, n.edge_start_angle)
               next_it := pre.length + 1, it := pre.length, done := false } : Loop_state K)
            r.1 r.2).edges = (pre ++ r.1 :: r.2) ++ n :: rest2 := by
          simp only [Loop_state.summary, Loop_state.insert_before_next_it, hset]
          rw [List.take_left' (by simp), List.drop_left' (by simp)]
          simp
        obtain ⟨f2, hf2a, hf2b, hf2c⟩ : ∃ f2, ((pre ++ r.1 :: r.2) ++ n :: rest2)[0]? = some f2 ∧
            f2.edge_start_angle = first.edge_start_angle ∧
            f2.start_is_closed = first.start_is_closed := by
          cases pre with
          | nil =>
            simp only [List.nil_append, List.getElem?_cons_zero, Option.some.injEq] at hf
            subst hf
            exact ⟨r.1, by simp, hstart.1.trans hf1, hstart.2.trans hf2⟩
          | cons p ps =>
            simp only [List.cons_append, List.getElem?_cons_zero, Option.some.injEq] at hf
            subst hf
            exact ⟨p, by simp, hf1, hf2⟩
        obtain ⟨trace, final, h1, h2, h3, h4, h5⟩ := ih (by simp) (pre ++ r.1 :: r.2) _ fuel f2
          hedges2 (by simp [Loop_state.summary, Loop_state.insert_before_next_it]; omega) rfl
          hf2a hf2b hf2c (by simp at hfuel ⊢; omega)
        rw [h1]
        refine ⟨_, _, rfl, h2, ?_, ?_, ?_⟩
        · rw [h3]
          simp only [Loop_state.summary, Loop_state.insert_before_next_it, add_loop, hr]
          simp
        · simp only [List.map_cons, h4, suffixes]
          simp
        · simp only [List.map_cons, h5, add_loop_passes, Loop_state.examined, hc]
          simp [Loop_state.summary, Loop_state.insert_before_next_it]

end while_loop

section while_loop_claims

variable {K : Kernel}

theorem suffixes_length {α : Type} (l : List α) : (suffixes l).length = l.length := by
  induction l with
  | nil => rfl
  | cons a l ih => simp [suffixes, ih]

theorem suffixes_head {α : Type} (l : List α) :
    (suffixes l).map List.head? = l.map some := by
  induction l with
  | nil => rfl
  | cons a l ih => simp [suffixes, ih]

/-- Every cell of the list after the loop has the count of a cell of the list
before the loop or that count incremented once. -/
theorem loop_count_once (B : Arc K) (k : Nat) (edges : Circle_edges K) :
    ∀ x ∈ Circle_arrangment.add_segment_outer_circle_loop edges B k,
      ∃ c ∈ edges, x.count = c.count ∨ x.count = (c.plusplus k).count := by
  intro x hx
  rw [(loop_passes_rotated B k edges).mem_iff, List.mem_flatMap] at hx
  obtain ⟨p, hp, hx⟩ := hx
  have hit : p.it ∈ edges := by
    rw [← loop_passes_it edges]
    exact List.mem_map_of_mem (fun p => p.it) hp
  refine ⟨p.it, hit, ?_⟩
  rcases List.mem_cons.mp hx with h | h
  · rcases loop_body_examined B k p.is_start_closed_segment p.is_end_closed_segment p.edge
      p.it p.next with e | e
    · left; rw [h]; exact congrArg _ e
    · right; rw [h]; exact congrArg _ e
  · rcases loop_body_inserted B k p.is_start_closed_segment p.is_end_closed_segment p.edge
      p.it p.next x h with e | e
    · right; rw [e]
    · left; rw [e]

end while_loop_claims

/-- C23: on a non-empty list the `while` loop of `add_segment_outer_circle`, run
on the list with its iterators, ends within as many passes as the list has cells
at the start of the call, and makes exactly that many passes.  The cells the
passes examine are the cells of the list at the start of the call, in list
order; when the pass number `j` examines its cell, the list from `it` on is the
list at the start of the call from its cell number `j` on, so every cell inserted
so far is before `it` and no pass examines it.  What the passes read is what
`loop_passes` lists, the list the loop ends with is the list
`add_segment_outer_circle_loop` computes, every cell of it has the count of a
cell of the list at the start or that count incremented once, and the call as a
whole gives the arrangement `add_segment_outer_circle` computes. -/
theorem C23_loop_examines_each_cell_once (K : Kernel) (edges : Circle_edges K)
    (B : Arc K) (k : Nat) (fuel : Nat) (hne : edges ≠ []) (hfuel : edges.length ≤ fuel) :
    ∃ trace final,
      (Loop_state.init edges).bind (while_loop B k fuel) = some (trace, final) ∧
        final.done = true ∧
        final.edges = Circle_arrangment.add_segment_outer_circle_loop edges B k ∧
        trace.length = edges.length ∧
        trace.map (fun t => t.edges[t.it]?) = edges.map some ∧
        trace.map (fun t => t.edges.drop t.it) = suffixes edges ∧
        trace.map Loop_state.examined =
          (loop_passes edges).map (fun p =>
            (p.is_start_closed_segment, p.is_end_closed_segment, p.edge, some p.it)) ∧
        (∀ x ∈ final.edges, ∃ c ∈ edges, x.count = c.count ∨ x.count = (c.plusplus k).count) ∧
        add_segment_outer_circle_with_iterators fuel (Circle_arrangment.mk edges) B k =
          some ((Circle_arrangment.mk edges).add_segment_outer_circle B k) := by
  cases edges with
  | nil => exact absurd rfl hne
  | cons first rest =>
    obtain ⟨trace, final, h1, h2, h3, h4, h5⟩ := while_loop_from B k first (first :: rest) hne []
      { edges := first :: rest
        is_start_closed_segment := first.start_is_closed
        is_end_closed_segment := first.start_is_closed
        edge := (first.edge_start_angle, first.edge_start_angle)
        next_it := 0, it := 0, done := false } fuel first rfl rfl rfl (by simp) rfl rfl hfuel
    have hinit : Loop_state.init (first :: rest) = some
        { edges := first :: rest
          is_start_closed_segment := first.start_is_closed
          is_end_closed_segment := first.start_is_closed
          edge := (first.edge_start_angle, first.edge_start_angle)
          next_it := 0, it := 0, done := false } := by
      simp [Loop_state.init]
    have h3b : final.edges =
        Circle_arrangment.add_segment_outer_circle_loop (first :: rest) B k := by
      rw [h3]
      simp [Circle_arrangment.add_segment_outer_circle_loop]
    refine ⟨trace, final, ?_, h2, h3b, ?_, ?_, h4, ?_, ?_, ?_⟩
    · rw [hinit, Option.some_bind, h1]
    · have := congrArg List.length h4
      rw [List.length_map, suffixes_length] at this
      exact this
    · have := congrArg (List.map List.head?) h4
      rw [List.map_map, suffixes_head] at this
      rw [← this]
      apply List.map_congr_left
      intro t _
      simp [List.head?_drop]
    · rw [h5]; rfl
    · rw [h3b]; exact loop_count_once B k _
    · simp only [add_segment_outer_circle_with_iterators, hinit, Option.some_bind, h1,
        Option.map_some', h3b, Circle_arrangment.add_segment_outer_circle]

/-- Witness of C23: the integer kernel, the arrangement of the arc (east, west),
the arc (north, south) and two passes. -/
theorem C23_witness :
    (Circle_arrangment.ctor Int_kernel (east, west)).edges ≠ [] ∧
      (Circle_arrangment.ctor Int_kernel (east, west)).edges.length ≤ 2 ∧
      ∃ trace final,
        (Loop_state.init (Circle_arrangment.ctor Int_kernel (east, west)).edges).bind
            (while_loop (north, south) 1 2) = some (trace, final) ∧
          final.done = true ∧
          final.edges = Circle_arrangment.add_segment_outer_circle_loop
            (Circle_arrangment.ctor Int_kernel (east, west)).edges (north, south) 1 ∧
          trace.length = (Circle_arrangment.ctor Int_kernel (east, west)).edges.length ∧
          trace.map (fun t => t.edges[t.it]?) =
            (Circle_arrangment.ctor Int_kernel (east, west)).edges.map some ∧
          trace.map (fun t => t.edges.drop t.it) =
            suffixes (Circle_arrangment.ctor Int_kernel (east, west)).edges ∧
          trace.map Loop_state.examined =
            (loop_passes (Circle_arrangment.ctor Int_kernel (east, west)).edges).map (fun p =>
              (p.is_start_closed_segment, p.is_end_closed_segment, p.edge, some p.it)) ∧
          (∀ x ∈ final.edges, ∃ c ∈ (Circle_arrangment.ctor Int_kernel (east, west)).edges,
            x.count = c.count ∨ x.count = (c.plusplus 1).count) ∧
          add_segment_outer_circle_with_iterators 2
              (Circle_arrangment.mk (Circle_arrangment.ctor Int_kernel (east, west)).edges)
              (north, south) 1 =
            some ((Circle_arrangment.mk
              (Circle_arrangment.ctor Int_kernel (east, west)).edges).add_segment_outer_circle
                (north, south) 1) :=
  ⟨by decide, by decide,
    C23_loop_examines_each_cell_once Int_kernel
      (Circle_arrangment.ctor Int_kernel (east, west)).edges (north, south) 1 2 (by decide)
      (by decide)⟩

/-! ## The float traits of `leda_bigfloat` -/

/-- The bigfloats as pairs are lawful. -/
theorem Pair_leda_lawful : Pair_leda.Lawful := by
  refine ⟨fun _ _ => rfl, fun _ _ => rfl, ?_, ?_⟩
  · intro z
    simp only [Pair_leda, to_long_wrap, is_long]
    have h1 := Int.emod_nonneg (z + 2 ^ (64 - 1)) (show (2 : Int) ^ 64 ≠ 0 by norm_num)
    have h2 := Int.emod_lt_of_pos (z + 2 ^ (64 - 1)) (show (0 : Int) < 2 ^ 64 by norm_num)
    norm_num at h1 h2 ⊢
    constructor <;> omega
  · intro z hz
    simp only [Pair_leda, to_long_wrap, is_long] at hz ⊢
    norm_num at hz ⊢
    omega

/-- C24 fails as stated: for the bigfloat with significant 1 and exponent 0 and
`e = 2 ^ 63`, `Mul_by_pow_of_2` builds the bigfloat with exponent `2 ^ 63`, which
is not a `long` of 64 bits; `Get_exponent` of the result is a `long`, here
`-2 ^ 63`, and not `Get_exponent(a) + e = 2 ^ 63`. -/
theorem C24_exponent_beyond_long :
    Float_traits.Get_exponent Pair_leda
        (Float_traits.Mul_by_pow_of_2 Pair_leda (Pair_leda.make 1 0) (2 ^ 63)) = -(2 ^ 63) ∧
      Float_traits.Get_exponent Pair_leda (Pair_leda.make 1 0) + 2 ^ 63 = 2 ^ 63 ∧
      Float_traits.Get_exponent Pair_leda
        (Float_traits.Mul_by_pow_of_2 Pair_leda (Pair_leda.make 1 0) (2 ^ 63)) ≠
        Float_traits.Get_exponent Pair_leda (Pair_leda.make 1 0) + 2 ^ 63 := by
  decide

/-- C24, amended: for every bigfloat `a` and every integer `e`,
`Mul_by_pow_of_2(a, e)` is the bigfloat built from the significant of `a` and the
exponent of `a` plus `e`; its value is the value of `a` times `2 ^ e`, its
`Get_mantissa` is that of `a`, and its exponent is the exponent of `a` plus `e`.
`Get_exponent` of the result, which is a `long`, is the exponent of `a` plus `e`
exactly when that sum is a `long`; when the exponent of `a` is a `long` as well,
it is `Get_exponent(a) + e`. -/
theorem C24_Mul_by_pow_of_2 (L : Leda) (hL : L.Lawful) (a : L.leda_bigfloat) (e : Int) :
    Float_traits.Mul_by_pow_of_2 L a e =
        L.make (Float_traits.Get_mantissa L a) (L.get_exponent a + e) ∧
      L.value (Float_traits.Mul_by_pow_of_2 L a e) = L.value a * (2 : ℚ) ^ e ∧
      Float_traits.Get_mantissa L (Float_traits.Mul_by_pow_of_2 L a e) =
        Float_traits.Get_mantissa L a ∧
      L.get_exponent (Float_traits.Mul_by_pow_of_2 L a e) = L.get_exponent a + e ∧
      (Float_traits.Get_exponent L (Float_traits.Mul_by_pow_of_2 L a e) =
          L.get_exponent a + e ↔ is_long L.long_bits (L.get_exponent a + e)) ∧
      (is_long L.long_bits (L.get_exponent a) → is_long L.long_bits (L.get_exponent a + e) →
        Float_traits.Get_exponent L (Float_traits.Mul_by_pow_of_2 L a e) =
          Float_traits.Get_exponent L a + e) := by
  have e1 : L.get_exponent (Float_traits.Mul_by_pow_of_2 L a e) = L.get_exponent a + e :=
    hL.get_exponent_make _ _
  have e2 : L.get_significant (Float_traits.Mul_by_pow_of_2 L a e) = L.get_significant a :=
    hL.get_significant_make _ _
  refine ⟨rfl, ?_, e2, e1, ?_, ?_⟩
  · unfold Leda.value
    rw [e1, e2, zpow_add₀ (by norm_num : (2 : ℚ) ≠ 0), mul_assoc]
  · unfold Float_traits.Get_exponent
    rw [e1]
    constructor
    · intro h
      rw [← h]
      exact hL.to_long_is_long _
    · exact hL.to_long_of_is_long _
  · intro h1 h2
    unfold Float_traits.Get_exponent
    rw [e1, hL.to_long_of_is_long _ h1, hL.to_long_of_is_long _ h2]

/-- Witness of C24, amended: the bigfloat with significant 3 and exponent -2,
multiplied by `2 ^ 5`. -/
theorem C24_witness :
    Pair_leda.Lawful ∧ is_long Pair_leda.long_bits (Pair_leda.get_exponent (Pair_leda.make 3 (-2))) ∧
      is_long Pair_leda.long_bits (Pair_leda.get_exponent (Pair_leda.make 3 (-2)) + 5) ∧
      Float_traits.Mul_by_pow_of_2 Pair_leda (Pair_leda.make 3 (-2)) 5 = Pair_leda.make 3 3 ∧
      Float_traits.Get_exponent Pair_leda
          (Float_traits.Mul_by_pow_of_2 Pair_leda (Pair_leda.make 3 (-2)) 5) =
        Float_traits.Get_exponent Pair_leda (Pair_leda.make 3 (-2)) + 5 :=
  ⟨Pair_leda_lawful, by decide, by decide, rfl,
    (C24_Mul_by_pow_of_2 Pair_leda Pair_leda_lawful (Pair_leda.make 3 (-2)) 5).2.2.2.2.2
      (by decide) (by decide)⟩

end Casting_2
